import Mathlib

/-!
# pngcheck: a shallow embedding of `src/pngcheck.c`

The C program checks the eight byte PNG signature, walks the chunk sequence
and verifies every chunk checksum.  The definitions below follow the source
function by function and keep its names.  A file is a list of bytes together
with a read cursor (the unread suffix); every `printf`, `fprintf` and `fwrite`
of the source is recorded, in program order, as one `Out` event.

Fixed platform facts used by the embedding: `int` has 32 bits, conversion of
an out-of-range value to a signed type wraps modulo the width, `isalpha` is
the one of the "C" locale (the program never calls `setlocale`), and the
input stream is seekable with `ftell` counting from 0.  The width of `long`
and the signedness of `char` are left open as fields of `Cfg`.
-/

namespace PngCheck

/-! ## Bytes and machine integers -/

/-- One octet, as stored in an `unsigned char` and as returned by `fgetc`. -/
abbrev Byte := Fin 256

/-- Conversion of an integer to `int` (32 bits, wrapping). -/
def toInt32 (x : Int) : Int :=
  let m := x % 4294967296
  if m < 2147483648 then m else m - 4294967296

/-- The constant `#define BS 32000`, the size of the read block. -/
def BS : Nat := 32000

/-! ## Checksum engine -/

/-- One pass of the inner `for (k = 0; k < 8; k++)` loop of `make_crc_table`:
`c = c & 1 ? 0xedb88320L ^ (c >> 1) : c >> 1`. -/
def crcBit (c : Nat) : Nat :=
  if c &&& 1 ≠ 0 then 0xedb88320 ^^^ (c >>> 1) else c >>> 1

/-- The inner loop of `make_crc_table`, run `k` times from `c`. -/
def crcBits : Nat → Nat → Nat
  | 0, c => c
  | k + 1, c => crcBits k (crcBit c)

/-- The function `make_crc_table`: the array `crc_table` it fills, entry `n`
holding the value of `c` after the eight inner passes started at `n`. -/
def make_crc_table : List Nat :=
  (List.range 256).map (fun n => crcBits 8 n)

/-- The global `crc_table`.  `update_crc` calls `make_crc_table` before its
first lookup, so every lookup sees the filled table. -/
def crc_table : List Nat := make_crc_table

/-- The body of the `do ... while (--n)` loop of `update_crc`:
`c = crc_table[(c ^ (*p++)) & 0xff] ^ (c >> 8)`. -/
def crcByte (c : Nat) (b : Byte) : Nat :=
  crc_table.getD ((c ^^^ b.val) &&& 0xff) 0 ^^^ (c >>> 8)

/-- The function `update_crc(crc, buf, len)`; the list is `buf[0..len-1]`.
With `len = 0` the guard `n > 0` skips the loop and `crc` is returned. -/
def update_crc (crc : Nat) : List Byte → Nat
  | [] => crc
  | b :: bs => update_crc (crcByte crc b) bs

/-- The macro `CRCCOMPL(c)`, that is `(c) ^ 0xffffffff`. -/
def CRCCOMPL (c : Nat) : Nat := c ^^^ 0xffffffff

/-- The macro `CRCINIT`, that is `CRCCOMPL(0)`. -/
def CRCINIT : Nat := CRCCOMPL 0

/-- The bit-at-a-time reference checksum, written from the specification:
XOR the byte into the low eight bits of the accumulator, then apply eight
times "if the low bit is set then `(x >> 1) XOR 0xEDB88320` else `x >> 1`". -/
def refShift (x : Nat) : Nat :=
  if x % 2 = 1 then (x >>> 1) ^^^ 0xEDB88320 else x >>> 1

/-- Eight applications of `refShift`. -/
def refReduce8 (x : Nat) : Nat :=
  refShift (refShift (refShift (refShift (refShift (refShift (refShift (refShift x)))))))

/-- The reference CRC-32 accumulator update over a byte sequence. -/
def refCrc (c : Nat) (bs : List Byte) : Nat :=
  bs.foldl (fun acc b => refReduce8 (acc ^^^ b.val)) c

/-! ## Output events -/

/-- One output action of the program, in program order.  Each constructor is
one `printf`, `fprintf(stderr, ...)` or `fwrite` call site of the source. -/
inductive Out where
  /-- The line `"%s: Cannot read PNG header\n"`. -/
  | cannotRead
  /-- On stderr, `"not a PNG file\n"`. -/
  | notPng
  /-- On stderr, `"PNG file is CORRUPTED.\n"`. -/
  | corrupted
  /-- On stderr, `" It seems to have suffered DOS->unix conversion\n"`. -/
  | dosUnix
  /-- On stderr, `" It seems to have suffered DOS->Mac conversion\n"`. -/
  | dosMac
  /-- On stderr, `" It seems to have suffered unix->Mac conversion\n"`. -/
  | unixMac
  /-- On stderr, `" It seems to have suffered Mac-unix conversion\n"`. -/
  | macUnix
  /-- On stderr, `" It seems to have suffered unix->DOS conversion\n"`. -/
  | unixDos
  /-- On stderr, `" It seems to have suffered EOL conversion\n"`. -/
  | eolConv
  /-- On stderr, `" It was probably transmitted through a 7bit channel\n"`. -/
  | sevenBit
  /-- On stderr, `"  It was probably transmitted in text mode\n"`. -/
  | textMode
  /-- The line `"%s: EOF while reading 4 bytes value\n"` of `getlong`. -/
  | eofLong
  /-- The line `"%s: additional data after IEND chunk\n"`. -/
  | additionalData
  /-- The line `"%s: EOF while reading chunk type\n"`. -/
  | eofChunkType
  /-- The line `"chunk name %02x %02x %02x %02x doesn't comply to naming rules\n"`. -/
  | badName (b0 b1 b2 b3 : Byte)
  /-- The verbose line `"%s: chunk %s at %lx length %lx\n"`. -/
  | chunkInfo (chunkid : List Byte) (offset : Int) (s : Int)
  /-- The line `"%s: file doesn't start with a IHDR chunk\n"`. -/
  | noIHDR
  /-- The line `"%s: EOF while reading chunk data (%s)\n"`. -/
  | eofChunkData (chunkid : List Byte)
  /-- The bytes written by `fwrite(buffer, 1, toread, stdout)`. -/
  | text (block : List Byte)
  /-- The `printf("\n")` that closes a dumped text chunk. -/
  | newline
  /-- The line `"%s: CRC error in chunk %s (actual %08lx, should be %08lx)\n"`. -/
  | crcError (chunkid : List Byte) (actual should : Nat)
  /-- The line `"%s: file doesn't end with a IEND chunk\n"`. -/
  | noIEND
  /-- The line `"%s: file appears to be OK\n"`. -/
  | ok
  deriving DecidableEq, Repr

/-- The events that end the validation of a file with an error. -/
def Out.isFatal : Out → Bool
  | .cannotRead | .notPng | .corrupted | .eofLong | .additionalData | .eofChunkType
  | .badName _ _ _ _ | .eofChunkData _ | .crcError _ _ _ | .noIEND => true
  | _ => false

/-- The events written to stderr (all of them come from `PNG_check_magic`). -/
def Out.onStderr : Out → Bool
  | .notPng | .corrupted | .dosUnix | .dosMac | .unixMac | .macUnix | .unixDos
  | .eolConv | .sevenBit | .textMode => true
  | _ => false

/-! ## Configuration and state -/

/-- The globals set before `pngcheck` runs (`fname`, `verbose`, `printtext`)
and the implementation-defined choices the code depends on. -/
structure Cfg where
  /-- The display name `_fname`. -/
  fname : String
  /-- The global `verbose`. -/
  verbose : Bool
  /-- The global `printtext`. -/
  printtext : Bool
  /-- Whether `long` has 64 bits (otherwise 32). -/
  long64 : Bool
  /-- Whether plain `char` is signed. -/
  charSigned : Bool
  /-- The number of bytes `fread` delivers, at most, when it is asked for more
  bytes than a file can hold (a negative `toread` converted to `size_t`)
  before it reports the short read.  The C library decides it; a run makes at
  most one such request, because it returns behind it. -/
  hugeRead : Nat
  deriving DecidableEq, Repr

/-- The stream `fp`, the output so far and the locals of `pngcheck`. -/
structure St where
  /-- The unread part of the file (the cursor is in front of its head). -/
  inp : List Byte
  /-- The size of the whole file; `ftell(fp)` is `size - inp.length`. -/
  size : Nat
  /-- The output produced so far. -/
  out : List Out
  /-- The local `first`. -/
  first : Bool
  /-- The local `iend_read`. -/
  iend_read : Bool
  /-- The local `crc`. -/
  crc : Nat
  /-- Ghost counter: the number of calls of `update_crc` made so far. -/
  crcCalls : Nat
  deriving DecidableEq, Repr

/-- How a piece of `pngcheck` ends: it falls through to the next statement,
executes `return`, or the model ran out of fuel. -/
inductive Flow where
  | next (st : St)
  | ret (st : St)
  | nofuel (st : St)
  deriving DecidableEq, Repr

/-- How a run of `pngcheck` ended. -/
inductive Status where
  | returned
  | nofuel
  deriving DecidableEq, Repr

/-- The observable result of one call of `pngcheck`. -/
structure Run where
  /-- How the call ended. -/
  status : Status
  /-- Everything written, in order. -/
  out : List Out
  /-- The bytes of the file that were never read. -/
  rest : List Byte
  /-- The number of calls of `update_crc`. -/
  crcCalls : Nat
  deriving DecidableEq, Repr

/-- The result seen by the caller for each way of ending. -/
def Flow.toRun : Flow → Run
  | .next st => ⟨.returned, st.out, st.inp, st.crcCalls⟩
  | .ret st => ⟨.returned, st.out, st.inp, st.crcCalls⟩
  | .nofuel st => ⟨.nofuel, st.out, st.inp, st.crcCalls⟩

/-! ## C library functions used by the program -/

/-- The library function `strncmp(a, b, n)` on byte strings: the first
difference of the two strings as unsigned characters, looking at no more
than `n` characters and at nothing behind a NUL.  The end of a list reads
as NUL. -/
def strncmp : List Byte → List Byte → Nat → Int
  | _, _, 0 => 0
  | a, b, n + 1 =>
    let x := a.headD 0
    let y := b.headD 0
    if x ≠ y then (x.val : Int) - (y.val : Int)
    else if x = 0 then 0
    else strncmp a.tail b.tail n

/-- The library function `strcmp(a, b)`; the end of a list reads as NUL. -/
def strcmp : List Byte → List Byte → Int
  | [], b => 0 - ((b.headD 0).val : Int)
  | x :: a, b =>
    let y := b.headD 0
    if x ≠ y then (x.val : Int) - (y.val : Int)
    else if x = 0 then 0
    else strcmp a b.tail

/-- The library function `isalpha` in the "C" locale: true exactly on the
ASCII letters.  A `char` of `0x80` or more, negative where `char` is signed, is
no letter. -/
def isalpha (b : Byte) : Bool :=
  (0x41 ≤ b.val && b.val ≤ 0x5A) || (0x61 ≤ b.val && b.val ≤ 0x7A)

/-! ## PNG_subs -/

/-- The constant `#define OK 0`. -/
def OK : Int := 0

/-- The constant `#define ERROR -1`. -/
def ERROR : Int := -1

/-- The eight expected signature bytes `89 50 4E 47 0D 0A 1A 0A`. -/
def signature : List Byte := [0x89, 0x50, 0x4E, 0x47, 0x0D, 0x0A, 0x1A, 0x0A]

/-- The `if ... else if ...` chain of `PNG_check_magic` that guesses the line
ending conversion from the bytes at `&magic[4]`. -/
def conversionAdvice (m4 : List Byte) : List Out :=
  if strncmp m4 [10, 26, 0] 2 = 0 then [.dosUnix]
  else if strncmp m4 [13, 26, 0] 2 = 0 then [.dosMac]
  else if strncmp m4 [13, 13, 26, 0] 3 = 0 then [.unixMac]
  else if strncmp m4 [10, 10, 26, 0] 3 = 0 then [.macUnix]
  else if strncmp m4 [13, 10, 26, 13, 0] 4 = 0 then [.unixDos]
  else if strncmp m4 [13, 13, 10, 26, 0] 4 = 0 then [.unixDos]
  else if strncmp m4 [13, 10, 26, 10, 0] 4 ≠ 0 then [.eolConv]
  else []

/-- The test of `magic[0]` that ends the corrupted branch of `PNG_check_magic`. -/
def channelAdvice (m0 : Byte) : List Out :=
  if m0 = 9 then [.sevenBit]
  else if m0 ≠ 0x89 then [.textMode]
  else []

/-- The function `PNG_check_magic(magic)`: the returned value and the lines
written to stderr. -/
def PNG_check_magic (magic : List Byte) : Int × List Out :=
  if strncmp (magic.drop 1) [0x50, 0x4E, 0x47, 0] 3 ≠ 0 then
    (ERROR, [.notPng])
  else if magic.headD 0 ≠ 0x89 ∨ strncmp (magic.drop 4) [13, 10, 26, 10, 0] 4 ≠ 0 then
    (ERROR, [.corrupted] ++ conversionAdvice (magic.drop 4) ++ channelAdvice (magic.headD 0))
  else
    (OK, [])

/-- The function `PNG_check_chunk_name(chunk_name)`: the returned value and
the line written. -/
def PNG_check_chunk_name (chunk_name : List Byte) : Int × List Out :=
  let c0 := chunk_name.getD 0 0
  let c1 := chunk_name.getD 1 0
  let c2 := chunk_name.getD 2 0
  let c3 := chunk_name.getD 3 0
  if !isalpha c0 || !isalpha c1 || !isalpha c2 || !isalpha c3 then
    (ERROR, [.badName c0 c1 c2 c3])
  else
    (OK, [])

/-! ## The chunk walker -/

/-- The `for (i = 0; i < 4; i++)` loop of `getlong` with `n` passes left:
the returned value, the stream behind the bytes read, and the line printed.
At end of file the line is printed and 0 is returned.  `res` stays below
`2^24` before every shift, so `res <<= 8` never overflows an `unsigned long`. -/
def getlongLoop : Nat → Nat → List Byte → Nat × List Byte × List Out
  | 0, res, inp => (res, inp, [])
  | _ + 1, _, [] => (0, [], [.eofLong])
  | n + 1, res, c :: inp => getlongLoop n ((res <<< 8) ||| (c.val &&& 0xff)) inp

/-- The function `getlong(fp)`. -/
def getlong (inp : List Byte) : Nat × List Byte × List Out :=
  getlongLoop 4 0 inp

/-- The assignment `s = getlong(fp)` of an `unsigned long` below `2^32` to the
`long` variable `s`. -/
def toLong (cfg : Cfg) (v : Nat) : Int :=
  if cfg.long64 then (v : Int) else toInt32 (v : Int)

/-- The bytes `"IHDR"`. -/
def IHDR : List Byte := [73, 72, 68, 82]

/-- The bytes `"IEND"`. -/
def IEND : List Byte := [73, 69, 78, 68]

/-- The bytes `"tEXt"`. -/
def tEXt : List Byte := [116, 69, 88, 116]

/-- The test `printtext && strcmp(chunkid, "tEXt") == 0`; `chunkid[4]` is 0. -/
def dumps (cfg : Cfg) (chunkid : List Byte) : Bool :=
  cfg.printtext && decide (strcmp (chunkid ++ [0]) (tEXt ++ [0]) = 0)

/-- The statement `if (strlen(buffer) < toread) buffer[strlen(buffer)] = ':'`
on the block just read into `buffer[0..toread-1]`: the first NUL of the block,
when there is one, becomes a colon.  (Whether `strlen(buffer) < toread` holds
depends on these bytes only.) -/
def colonAtNul : List Byte → List Byte
  | [] => []
  | b :: bs => if b = 0 then 58 :: bs else b :: colonAtNul bs

/-- The loop `while (s > 0)` of `pngcheck` that streams the payload, with
`fuel` bounding the number of passes. -/
def payloadLoop (cfg : Cfg) (chunkid : List Byte) : Nat → Int → St → Flow
  | 0, _, st => .nofuel st
  | fuel + 1, s, st =>
    if s > 0 then
      let toread0 := toInt32 s
      let toread := if toread0 > (BS : Int) then (BS : Int) else toread0
      if toread < 0 then
        -- `fread` is asked for `(size_t)toread` bytes, more than the file holds,
        -- and comes back short
        .ret { st with
          inp := st.inp.drop cfg.hugeRead
          out := st.out ++ [.eofChunkData chunkid] }
      else if st.inp.length < toread.toNat then
        .ret { st with inp := [], out := st.out ++ [.eofChunkData chunkid] }
      else
        let block := st.inp.take toread.toNat
        let st1 := { st with
          inp := st.inp.drop toread.toNat
          crc := update_crc st.crc block
          crcCalls := st.crcCalls + 1 }
        let st2 :=
          if dumps cfg chunkid then { st1 with out := st1.out ++ [.text (colonAtNul block)] }
          else st1
        payloadLoop cfg chunkid fuel (s - toread) st2
    else .next st

/-- The body of the loop `while ((c = fgetc(fp)) != EOF)` of `pngcheck`,
entered with a byte pushed back by `ungetc`. -/
def chunkBody (cfg : Cfg) (st : St) : Flow :=
  if st.iend_read then
    .ret { st with out := st.out ++ [.additionalData] }
  else
    let (v, inp1, o1) := getlong st.inp
    let s := toLong cfg v
    if inp1.length < 4 then
      .ret { st with inp := [], out := st.out ++ o1 ++ [.eofChunkType] }
    else
      let chunkid := inp1.take 4
      let inp2 := inp1.drop 4
      let (r, o2) := PNG_check_chunk_name chunkid
      if r ≠ 0 then
        .ret { st with inp := inp2, out := st.out ++ o1 ++ o2 }
      else
        let o3 : List Out :=
          if cfg.verbose then [.chunkInfo chunkid ((st.size - inp2.length : Nat) - 4 : Int) s]
          else []
        let o4 : List Out :=
          if st.first && decide (strcmp (chunkid ++ [0]) (IHDR ++ [0]) ≠ 0) then [.noIHDR]
          else []
        let st1 := { st with
          inp := inp2
          out := st.out ++ o1 ++ o2 ++ o3 ++ o4
          first := false
          crc := update_crc CRCINIT chunkid
          crcCalls := st.crcCalls + 1 }
        match payloadLoop cfg chunkid (inp2.length + 1) s st1 with
        | .next st2 =>
          let o5 : List Out := if dumps cfg chunkid then [.newline] else []
          let (filecrc, inp3, o6) := getlong st2.inp
          if filecrc ≠ CRCCOMPL st2.crc then
            .ret { st2 with
              inp := inp3
              out := st2.out ++ o5 ++ o6 ++ [.crcError chunkid (CRCCOMPL st2.crc) filecrc] }
          else
            .next { st2 with
              inp := inp3
              out := st2.out ++ o5 ++ o6
              iend_read :=
                if strcmp (chunkid ++ [0]) (IEND ++ [0]) = 0 then true else st2.iend_read }
        | other => other

/-- The statements of `pngcheck` behind the chunk loop. -/
def finish (st : St) : Flow :=
  if !st.iend_read then .ret { st with out := st.out ++ [.noIEND] }
  else .ret { st with out := st.out ++ [.ok] }

/-- The loop `while ((c = fgetc(fp)) != EOF)` of `pngcheck` followed by the
statements behind it, with `fuel` bounding the number of passes. -/
def chunkLoop (cfg : Cfg) : Nat → St → Flow
  | 0, st => .nofuel st
  | fuel + 1, st =>
    match st.inp with
    | [] => finish st
    | _ :: _ =>
      match chunkBody cfg st with
      | .next st1 => chunkLoop cfg fuel st1
      | other => other

/-- The state in which `pngcheck` enters the chunk loop. -/
def St.init (file : List Byte) : St :=
  { inp := file.drop 8, size := file.length, out := [], first := true, iend_read := false,
    crc := 0, crcCalls := 0 }

/-- The function `pngcheck(fp, _fname)` on a file with the given bytes.  Every
pass of the chunk loop that does not return reads at least twelve bytes, so
the fuel given here is never used up. -/
def pngcheck (cfg : Cfg) (file : List Byte) : Run :=
  if file.length < 8 then
    ⟨.returned, [.cannotRead], [], 0⟩
  else
    let (r, o) := PNG_check_magic (file.take 8)
    if r ≠ 0 then
      ⟨.returned, o, file.drop 8, 0⟩
    else
      (chunkLoop cfg (file.length + 1) { St.init file with out := o }).toRun

/-! ## The text of the output -/

/-- The digits of `%x` and `%lx`. -/
def hex (n : Nat) : String := String.mk (Nat.toDigits 16 n)

/-- Zero padding to a minimal width, as in `%02x` and `%08lx`. -/
def zeroPad (w : Nat) (s : String) : String :=
  String.mk (List.replicate (w - s.length) '0') ++ s

/-- The text printed by `%s` for `chunkid`: its characters up to the first NUL. -/
def showTag (chunkid : List Byte) : String :=
  String.mk ((chunkid.takeWhile (fun b => b ≠ 0)).map (fun b => Char.ofNat b.val))

/-- A `long` argument read by `%lx` as an `unsigned long`. -/
def asULong (cfg : Cfg) (x : Int) : Nat :=
  (x % (if cfg.long64 then 18446744073709551616 else 4294967296)).toNat

/-- A `char` argument read by `%02x` as an `unsigned int` after promotion. -/
def asUInt (cfg : Cfg) (b : Byte) : Nat :=
  if cfg.charSigned && decide (128 ≤ b.val) then 4294967040 + b.val else b.val

/-- The characters written for one output event. -/
def Out.render (cfg : Cfg) : Out → String
  | .cannotRead => cfg.fname ++ ": Cannot read PNG header\n"
  | .notPng => "not a PNG file\n"
  | .corrupted => "PNG file is CORRUPTED.\n"
  | .dosUnix => " It seems to have suffered DOS->unix conversion\n"
  | .dosMac => " It seems to have suffered DOS->Mac conversion\n"
  | .unixMac => " It seems to have suffered unix->Mac conversion\n"
  | .macUnix => " It seems to have suffered Mac-unix conversion\n"
  | .unixDos => " It seems to have suffered unix->DOS conversion\n"
  | .eolConv => " It seems to have suffered EOL conversion\n"
  | .sevenBit => " It was probably transmitted through a 7bit channel\n"
  | .textMode => "  It was probably transmitted in text mode\n"
  | .eofLong => cfg.fname ++ ": EOF while reading 4 bytes value\n"
  | .additionalData => cfg.fname ++ ": additional data after IEND chunk\n"
  | .eofChunkType => cfg.fname ++ ": EOF while reading chunk type\n"
  | .badName b0 b1 b2 b3 =>
    "chunk name " ++ zeroPad 2 (hex (asUInt cfg b0)) ++ " " ++ zeroPad 2 (hex (asUInt cfg b1))
      ++ " " ++ zeroPad 2 (hex (asUInt cfg b2)) ++ " " ++ zeroPad 2 (hex (asUInt cfg b3))
      ++ " doesn't comply to naming rules\n"
  | .chunkInfo chunkid offset s =>
    cfg.fname ++ ": chunk " ++ showTag chunkid ++ " at " ++ hex (asULong cfg offset)
      ++ " length " ++ hex (asULong cfg s) ++ "\n"
  | .noIHDR => cfg.fname ++ ": file doesn't start with a IHDR chunk\n"
  | .eofChunkData chunkid =>
    cfg.fname ++ ": EOF while reading chunk data (" ++ showTag chunkid ++ ")\n"
  | .text block => String.mk (block.map (fun b => Char.ofNat b.val))
  | .newline => "\n"
  | .crcError chunkid actual should =>
    cfg.fname ++ ": CRC error in chunk " ++ showTag chunkid ++ " (actual "
      ++ zeroPad 8 (hex actual) ++ ", should be " ++ zeroPad 8 (hex should) ++ ")\n"
  | .noIEND => cfg.fname ++ ": file doesn't end with a IEND chunk\n"
  | .ok => cfg.fname ++ ": file appears to be OK\n"

/-! ## Well-formed input, as the specification describes it -/

/-- A chunk of the container: its four byte tag and its payload. -/
structure Chunk where
  /-- The tag. -/
  tag : List Byte
  /-- The payload. -/
  data : List Byte
  deriving DecidableEq, Repr

/-- The four bytes of a value below `2^32`, most significant first. -/
def be32 (n : Nat) : List Byte :=
  [Fin.ofNat (n / 16777216), Fin.ofNat (n / 65536), Fin.ofNat (n / 256), Fin.ofNat n]

/-- The trailer of a chunk: `CRCCOMPL(update_crc(CRCINIT, tag ++ payload))`. -/
def Chunk.trailer (c : Chunk) : Nat :=
  CRCCOMPL (update_crc CRCINIT (c.tag ++ c.data))

/-- The bytes of a chunk in the file: length, tag, payload, trailer. -/
def Chunk.encode (c : Chunk) : List Byte :=
  be32 c.data.length ++ c.tag ++ c.data ++ be32 c.trailer

/-- The bytes of a sequence of chunks. -/
def encodeChunks : List Chunk → List Byte
  | [] => []
  | c :: cs => c.encode ++ encodeChunks cs

/-- A chunk has four ASCII letters as its tag and a payload shorter than `2^31`. -/
def Chunk.WF (c : Chunk) : Prop :=
  c.tag.length = 4 ∧ (∀ b ∈ c.tag, isalpha b = true) ∧ c.data.length < 2147483648

instance (c : Chunk) : Decidable c.WF := by
  unfold Chunk.WF; infer_instance

/-- The number of read blocks of a payload of `n` bytes. -/
def blockCount (n : Nat) : Nat := (n + (BS - 1)) / BS

/-- The `fwrite` events of a dumped payload, one per read block. -/
def textBlocks : Nat → List Byte → List Out
  | 0, _ => []
  | fuel + 1, data =>
    if data = [] then []
    else .text (colonAtNul (data.take BS)) :: textBlocks fuel (data.drop BS)

/-- The output for one chunk whose tag and payload pass all checks, read from
a file of `size` bytes with `behind` bytes behind the payload. -/
def Chunk.out (cfg : Cfg) (size behind : Nat) (first : Bool) (c : Chunk) : List Out :=
  (if cfg.verbose then
      [Out.chunkInfo c.tag ((size - (c.data.length + behind) : Nat) - 4 : Int)
        (c.data.length : Int)]
    else [])
  ++ (if first && decide (c.tag ≠ IHDR) then [Out.noIHDR] else [])
  ++ (if cfg.printtext && decide (c.tag = tEXt) then
      textBlocks c.data.length c.data ++ [Out.newline]
    else [])

/-- The output for a sequence of chunks that pass all checks, read from a
file of `size` bytes with `after` bytes behind the last of them. -/
def chunksOut (cfg : Cfg) (size after : Nat) : Bool → List Chunk → List Out
  | _, [] => []
  | first, c :: cs =>
    c.out cfg size (4 + ((encodeChunks cs).length + after)) first
      ++ chunksOut cfg size after false cs

/-- The number of `update_crc` calls made for a sequence of chunks. -/
def chunksCalls : List Chunk → Nat
  | [] => 0
  | c :: cs => 1 + blockCount c.data.length + chunksCalls cs

/-- The state of `pngcheck` behind a chunk that passed all checks, with `inp`
the unread bytes and `behind` the number of bytes that were behind the payload. -/
def St.afterChunk (cfg : Cfg) (st : St) (c : Chunk) (behind : Nat) (inp : List Byte) : St :=
  { inp := inp, size := st.size, out := st.out ++ c.out cfg st.size behind st.first,
    first := false, iend_read := decide (c.tag = IEND),
    crc := update_crc CRCINIT (c.tag ++ c.data),
    crcCalls := st.crcCalls + 1 + blockCount c.data.length }

/-- The state of `pngcheck` behind a sequence of chunks that passed all
checks, with the bytes `t` still unread. -/
def St.afterChunks (cfg : Cfg) (t : List Byte) : St → List Chunk → St
  | st, [] => st
  | st, c :: cs =>
    St.afterChunks cfg t
      (st.afterChunk cfg c (4 + ((encodeChunks cs).length + t.length)) (encodeChunks cs ++ t)) cs

/-- The events that report on a chunk without ending the validation. -/
def Out.isInfo : Out → Bool
  | .chunkInfo _ _ _ | .noIHDR | .text _ | .newline => true
  | _ => false

/-! ## Views on the payload loop and the chunk loop -/

/-- The state a piece of `pngcheck` ends in. -/
def Flow.state : Flow → St
  | .next st => st
  | .ret st => st
  | .nofuel st => st

/-- A number for each way of ending: 0 fall through, 1 return, 2 out of
fuel. -/
def Flow.code : Flow → Nat
  | .next _ => 0
  | .ret _ => 1
  | .nofuel _ => 2

/-- The advisory lines `PNG_check_magic` writes behind `PNG file is CORRUPTED.`. -/
def Out.isAdvice : Out → Bool
  | .dosUnix | .dosMac | .unixMac | .macUnix | .unixDos | .eolConv | .sevenBit | .textMode => true
  | _ => false

/-- The lines that state the outcome for a file: the success line or a fatal
error message other than an advisory line. -/
def Out.isTerminal (o : Out) : Bool := o.isFatal || decide (o = .ok)

/-- The output that exists only in verbose or text-dump mode. -/
def Out.isModeLine : Out → Bool
  | .chunkInfo _ _ _ | .text _ | .newline => true
  | _ => false

/-- The lines that may stand in front of the line that ends the validation:
the informational ones and the end-of-file line of `getlong`. -/
def Out.isMid (o : Out) : Bool := o.isInfo || decide (o = .eofLong)

/-- Two states of `pngcheck` that agree on the stream, on the locals other
than `first`, and on the output lines selected by `q`. -/
def St.sim (q : Out → Bool) (a b : St) : Prop :=
  a.inp = b.inp ∧ a.size = b.size ∧ a.iend_read = b.iend_read ∧ a.crc = b.crc
    ∧ a.crcCalls = b.crcCalls ∧ a.out.filter q = b.out.filter q

/-- Two pieces of `pngcheck` that end the same way in states that agree in the
sense of `St.sim`. -/
def Flow.sim (q : Out → Bool) (x y : Flow) : Prop :=
  x.code = y.code ∧ St.sim q x.state y.state

/-- The text-dump output: the `fwrite` blocks and the closing newline. -/
def Out.isDump : Out → Bool
  | .text _ | .newline => true
  | _ => false

/-- The lines printed with the format prefix `"%s: "` and the argument `fname`:
all lines of `pngcheck` and `getlong`. -/
def Out.hasName : Out → Bool
  | .cannotRead | .eofLong | .additionalData | .eofChunkType | .chunkInfo _ _ _ | .noIHDR
  | .eofChunkData _ | .crcError _ _ _ | .noIEND | .ok => true
  | _ => false

/-- The lines a run may write in its mode: verbose chunk lines only in verbose
mode, text-dump output only in text-dump mode, every other line in every mode. -/
def Out.inMode (cfg : Cfg) : Out → Bool
  | .chunkInfo _ _ _ => cfg.verbose
  | .text _ | .newline => cfg.printtext
  | _ => true

/-- A line that begins with the display name followed by a colon and a blank. -/
def BeginsWithName (cfg : Cfg) (line : String) : Prop :=
  (cfg.fname ++ ": ").data <+: line.data

instance (cfg : Cfg) (line : String) : Decidable (BeginsWithName cfg line) := by
  unfold BeginsWithName; infer_instance

/-- The read blocks of a payload: consecutive pieces of `BS` bytes, the last
one possibly shorter. -/
def splitBlocks : Nat → List Byte → List (List Byte)
  | 0, _ => []
  | fuel + 1, data =>
    if data = [] then [] else data.take BS :: splitBlocks fuel (data.drop BS)

/-- The library function `strlen` on a block: the number of bytes in front of
its first NUL (the length of the block when it has none). -/
def strlen (block : List Byte) : Nat := (block.takeWhile (fun b => b ≠ 0)).length

/-- The value of `toread` at the `fread` call of the payload loop, after
`toread = s; if (toread > BS) toread = BS;`. -/
def toreadOf (s : Int) : Int :=
  if toInt32 s > (BS : Int) then (BS : Int) else toInt32 s

/-- The state of `pngcheck` at the end of one pass of the payload loop that
read a full block of `n` bytes. -/
def readBlock (cfg : Cfg) (chunkid : List Byte) (st : St) (n : Nat) : St :=
  { inp := st.inp.drop n, size := st.size,
    out := st.out ++ (if dumps cfg chunkid then [.text (colonAtNul (st.inp.take n))] else []),
    first := st.first, iend_read := st.iend_read, crc := update_crc st.crc (st.inp.take n),
    crcCalls := st.crcCalls + 1 }

/-- The state of `pngcheck` in front of the payload loop, for a chunk with
the valid tag `chunkid` and the length `s`, with `inp2` the bytes behind the
tag. -/
def afterHeader (cfg : Cfg) (st : St) (chunkid : List Byte) (s : Int) (inp2 : List Byte) : St :=
  { inp := inp2, size := st.size,
    out := st.out
      ++ (if cfg.verbose then
          [.chunkInfo chunkid ((st.size - inp2.length : Nat) - 4 : Int) s] else [])
      ++ (if st.first && decide (chunkid ≠ IHDR) then [.noIHDR] else []),
    first := false, iend_read := st.iend_read, crc := update_crc CRCINIT chunkid,
    crcCalls := st.crcCalls + 1 }

/-- The statements of the loop body behind the payload loop, for a chunk with
the valid tag `chunkid`: the closing newline of a dumped chunk, the trailer
read and comparison, and the IEND test. -/
def checkTrailer (cfg : Cfg) (chunkid : List Byte) (st2 : St) : Flow :=
  if (getlong st2.inp).1 ≠ CRCCOMPL st2.crc then
    .ret { inp := (getlong st2.inp).2.1, size := st2.size,
           out := st2.out ++ (if dumps cfg chunkid then [.newline] else [])
             ++ (getlong st2.inp).2.2
             ++ [.crcError chunkid (CRCCOMPL st2.crc) (getlong st2.inp).1],
           first := st2.first, iend_read := st2.iend_read, crc := st2.crc,
           crcCalls := st2.crcCalls }
  else
    .next { inp := (getlong st2.inp).2.1, size := st2.size,
            out := st2.out ++ (if dumps cfg chunkid then [.newline] else [])
              ++ (getlong st2.inp).2.2,
            first := st2.first,
            iend_read := if chunkid = IEND then true else st2.iend_read,
            crc := st2.crc, crcCalls := st2.crcCalls }

/-- The sizes `toread` of the blocks the payload loop asks `fread` for, one
after the other, as long as every request is served in full; `fuel` bounds the
number of passes. -/
def requests : Nat → Int → List Int
  | 0, _ => []
  | fuel + 1, s => if s > 0 then toreadOf s :: requests fuel (s - toreadOf s) else []

/-- The tags of the chunks `pngcheck` consumed: one entry for every pass of
the chunk loop whose body ran to its end, in order. -/
def consumed (cfg : Cfg) : Nat → St → List (List Byte)
  | 0, _ => []
  | fuel + 1, st =>
    match st.inp with
    | [] => []
    | _ :: _ =>
      match chunkBody cfg st with
      | .next st1 => (st.inp.drop 4).take 4 :: consumed cfg fuel st1
      | _ => []

/-- The tags of the chunks consumed by `pngcheck` on a file that passed the
signature check. -/
def pngcheckConsumed (cfg : Cfg) (file : List Byte) : List (List Byte) :=
  consumed cfg (file.length + 1) (St.init file)

/-! ## Single-bit corruption and the letter test, as the specification words them -/

/-- The byte `b` with bit `k` inverted. -/
def flipBit (b : Byte) (k : Nat) : Byte := Fin.ofNat (b.val ^^^ (1 <<< k))

/-- The byte sequence `bs` with bit `k` of the byte at index `i` inverted. -/
def flipAt (bs : List Byte) (i k : Nat) : List Byte := bs.set i (flipBit (bs.getD i 0) k)

/-- Two byte sequences of equal length that differ in exactly one bit. -/
def DifferInOneBit (a b : List Byte) : Prop :=
  ∃ i k, i < a.length ∧ k < 8 ∧ b = flipAt a i k

/-- An ASCII letter: a byte in `0x41..0x5A` or in `0x61..0x7A`. -/
def IsAsciiLetter (b : Byte) : Prop :=
  (0x41 ≤ b.val ∧ b.val ≤ 0x5A) ∨ (0x61 ≤ b.val ∧ b.val ≤ 0x7A)

instance (b : Byte) : Decidable (IsAsciiLetter b) := by
  unfold IsAsciiLetter; infer_instance

/-! ## Concrete inputs -/

/-- A configuration for the concrete runs: plain mode on an LP64 machine
whose C library delivers 4080 bytes for an oversized request (what is left of
a stdio buffer of 4096 bytes behind the signature and one chunk header). -/
def wCfg : Cfg :=
  { fname := "a.png", verbose := false, printtext := false, long64 := true, charSigned := true,
    hugeRead := 4080 }

/-- An IHDR chunk: a 1 by 1 image, bit depth 8, greyscale. -/
def wIHDR : Chunk := ⟨IHDR, [0, 0, 0, 1, 0, 0, 0, 1, 8, 0, 0, 0, 0]⟩

/-- The IEND chunk of length 0. -/
def wIEND : Chunk := ⟨IEND, []⟩

/-- An IEND chunk with a four byte payload chosen so that its trailer is 0. -/
def zIEND : Chunk := ⟨IEND, [31, 106, 155, 195]⟩

/-- An IHDR payload that differs from the one of `wIHDR` in one bit (bit 0 of
the byte at index 3). -/
def wFlipped : List Byte := [0, 0, 0, 0, 0, 0, 0, 1, 8, 0, 0, 0, 0]

/-- A chunk header with length 0 and the tag `49 00 41 54`, followed by three
further bytes. -/
def wBadHeader : List Byte := [0, 0, 0, 0] ++ [73, 0, 65, 84] ++ [1, 2, 3]

/-- The bytes `"123456789"`, the customary check input of CRC-32. -/
def checkString : List Byte := [49, 50, 51, 52, 53, 54, 55, 56, 57]

/-- The state of `pngcheck` in front of the IHDR chunk of the file made of the
signature and `wIHDR`. -/
def wSt : St :=
  { inp := wIHDR.encode, size := 33, out := [], first := true, iend_read := false, crc := 0,
    crcCalls := 0 }

/-- Text-dump mode on an LP64 machine. -/
def wCfgText : Cfg :=
  { fname := "a.png", verbose := false, printtext := true, long64 := true, charSigned := true,
    hugeRead := 4080 }

/-- Plain mode on a machine whose `long` has 32 bits. -/
def wCfg32 : Cfg :=
  { fname := "a.png", verbose := false, printtext := false, long64 := false, charSigned := true,
    hugeRead := 4080 }

/-- A tEXt chunk with the payload `"A\0B"`. -/
def wTEXT : Chunk := ⟨tEXt, [65, 0, 66]⟩

/-- An IDAT chunk with a one byte payload. -/
def wIDAT : Chunk := ⟨[73, 68, 65, 84], [0]⟩

/-- A state of the chunk loop behind the terminal chunk with one byte left. -/
def wStEnd : St :=
  { inp := [0], size := 46, out := [], first := false, iend_read := true, crc := 0,
    crcCalls := 3 }

/-- A file whose first chunk declares the length `0x80000000`, followed by
32001 further bytes. -/
def wHuge : List Byte :=
  signature ++ [0x80, 0, 0, 0] ++ [73, 68, 65, 84] ++ List.replicate 32001 0

/-- A file whose first chunk declares the length `0x80000000` and has no
payload: behind the tag come the checksum of the tag alone and an IEND chunk. -/
def wSkip : List Byte :=
  signature ++ [0x80, 0, 0, 0] ++ [73, 68, 65, 84]
    ++ be32 (CRCCOMPL (update_crc CRCINIT [73, 68, 65, 84])) ++ wIEND.encode

/-! ## The checksum engine: refinement, bounds, injectivity -/

theorem shiftRight_xor (x y n : Nat) : (x ^^^ y) >>> n = x >>> n ^^^ y >>> n := by
  apply Nat.eq_of_testBit_eq
  intro i
  simp only [Nat.testBit_shiftRight, Nat.testBit_xor]

theorem crcBit_eq_refShift (c : Nat) : crcBit c = refShift c := by
  unfold crcBit refShift
  rw [Nat.and_one_is_mod]
  rcases Nat.mod_two_eq_zero_or_one c with h | h
  · simp [h]
  · simp [h, Nat.xor_comm]

theorem xor_right_comm3 (a b c : Nat) : (a ^^^ b) ^^^ c = (a ^^^ c) ^^^ b := by
  apply Nat.eq_of_testBit_eq
  intro i
  simp only [Nat.testBit_xor]
  cases a.testBit i <;> cases b.testBit i <;> cases c.testBit i <;> rfl

theorem xor_xor_same (a b c : Nat) : (a ^^^ c) ^^^ (b ^^^ c) = a ^^^ b := by
  apply Nat.eq_of_testBit_eq
  intro i
  simp only [Nat.testBit_xor]
  cases a.testBit i <;> cases b.testBit i <;> cases c.testBit i <;> rfl

theorem refShift_xor (x y : Nat) : refShift (x ^^^ y) = refShift x ^^^ refShift y := by
  have hxy : (x ^^^ y) % 2 = (x + y) % 2 := Nat.xor_mod_two_eq
  unfold refShift
  rw [shiftRight_xor, hxy]
  rcases Nat.mod_two_eq_zero_or_one x with hx | hx <;>
  rcases Nat.mod_two_eq_zero_or_one y with hy | hy
  · rw [if_neg (by omega), if_neg (by omega), if_neg (by omega)]
  · rw [if_pos (by omega), if_neg (by omega), if_pos hy, Nat.xor_assoc]
  · rw [if_pos (by omega), if_pos hx, if_neg (by omega), xor_right_comm3]
  · rw [if_neg (by omega), if_pos hx, if_pos hy, xor_xor_same]

theorem refShift_shiftLeft (z k : Nat) : refShift (z <<< (k + 1)) = z <<< k := by
  unfold refShift
  have h : (z <<< (k + 1)) % 2 = 0 := by
    rw [Nat.shiftLeft_eq, Nat.pow_succ, ← Nat.mul_assoc]; omega
  rw [if_neg (by omega)]
  rw [Nat.shiftLeft_eq, Nat.shiftLeft_eq, Nat.shiftRight_eq_div_pow, Nat.pow_succ, ← Nat.mul_assoc]
  simp

theorem refReduce8_xor (x y : Nat) : refReduce8 (x ^^^ y) = refReduce8 x ^^^ refReduce8 y := by
  simp only [refReduce8, refShift_xor]

theorem refReduce8_shiftLeft (z : Nat) : refReduce8 (z <<< 8) = z := by
  simp only [refReduce8, refShift_shiftLeft]
  simp

theorem split_low_byte (x : Nat) : x = (x &&& 0xff) ^^^ ((x >>> 8) <<< 8) := by
  apply Nat.eq_of_testBit_eq
  intro i
  have h255 : (0xff : Nat) = 2 ^ 8 - 1 := by norm_num
  rw [Nat.testBit_xor, Nat.testBit_and, h255, Nat.testBit_two_pow_sub_one, Nat.testBit_shiftLeft,
    Nat.testBit_shiftRight]
  by_cases h : i < 8
  · have : ¬ i ≥ 8 := by omega
    simp [h, this]
  · have h2 : i ≥ 8 := by omega
    have : 8 + (i - 8) = i := by omega
    simp [h, h2, this]

theorem refReduce8_split (x : Nat) : refReduce8 x = refReduce8 (x &&& 0xff) ^^^ (x >>> 8) := by
  conv_lhs => rw [split_low_byte x]
  rw [refReduce8_xor, refReduce8_shiftLeft]

theorem crcBits_eight (c : Nat) : crcBits 8 c = refReduce8 c := by
  simp only [crcBits, crcBit_eq_refShift, refReduce8]

theorem crc_table_getD (i : Nat) (h : i < 256) : crc_table.getD i 0 = refReduce8 i := by
  unfold crc_table make_crc_table
  rw [List.getD_eq_getElem?_getD, List.getElem?_map, List.getElem?_range h]
  simp [crcBits_eight]

theorem crcByte_eq (c : Nat) (b : Byte) : crcByte c b = refReduce8 (c ^^^ b.val) := by
  unfold crcByte
  have hlt : (c ^^^ b.val) &&& 0xff < 256 := by
    have : (0xff : Nat) = 2 ^ 8 - 1 := by norm_num
    rw [this, Nat.and_pow_two_sub_one_eq_mod]; omega
  rw [crc_table_getD _ hlt, refReduce8_split (c ^^^ b.val), shiftRight_xor]
  have : b.val >>> 8 = 0 := by
    rw [Nat.shiftRight_eq_div_pow]; have := b.isLt; omega
  rw [this, Nat.xor_zero]

theorem update_crc_eq_refCrc (c : Nat) (bs : List Byte) : update_crc c bs = refCrc c bs := by
  induction bs generalizing c with
  | nil => rfl
  | cons b bs ih => simp [update_crc, refCrc, List.foldl_cons, crcByte_eq, ih] 

theorem update_crc_append (c : Nat) (a b : List Byte) :
    update_crc c (a ++ b) = update_crc (update_crc c a) b := by
  induction a generalizing c with
  | nil => rfl
  | cons x a ih => simp [update_crc, ih]

theorem refShift_lt (x : Nat) (h : x < 4294967296) : refShift x < 4294967296 := by
  have h1 : x >>> 1 < 2 ^ 32 := by
    rw [Nat.shiftRight_eq_div_pow]; omega
  unfold refShift
  split
  · exact Nat.xor_lt_two_pow h1 (by norm_num)
  · exact h1

theorem refShift_testBit (x : Nat) (h : x < 4294967296) :
    (refShift x).testBit 31 = decide (x % 2 = 1) := by
  have h1 : (x >>> 1).testBit 31 = false := by
    rw [Nat.testBit_shiftRight]
    exact Nat.testBit_lt_two_pow (by norm_num; exact h)
  unfold refShift
  split
  · next hx =>
    rw [Nat.testBit_xor, h1]
    simp [hx]
    decide
  · next hx =>
    rw [h1]
    simp [hx]

theorem refShift_inj (x y : Nat) (hx : x < 4294967296) (hy : y < 4294967296)
    (h : refShift x = refShift y) : x = y := by
  have hp : decide (x % 2 = 1) = decide (y % 2 = 1) := by
    rw [← refShift_testBit x hx, ← refShift_testBit y hy, h]
  have hp2 : x % 2 = 1 ↔ y % 2 = 1 := by simpa using hp
  have hs : x >>> 1 = y >>> 1 := by
    unfold refShift at h
    by_cases hx1 : x % 2 = 1
    · rw [if_pos hx1, if_pos (hp2.mp hx1)] at h
      exact Nat.xor_left_inj.mp h
    · rw [if_neg hx1, if_neg (fun hy1 => hx1 (hp2.mpr hy1))] at h
      exact h
  rw [Nat.shiftRight_eq_div_pow, Nat.shiftRight_eq_div_pow] at hs
  omega

theorem refReduce8_lt (x : Nat) (h : x < 4294967296) : refReduce8 x < 4294967296 := by
  unfold refReduce8
  exact refShift_lt _ (refShift_lt _ (refShift_lt _ (refShift_lt _ (refShift_lt _
    (refShift_lt _ (refShift_lt _ (refShift_lt _ h)))))))

theorem refReduce8_inj (x y : Nat) (hx : x < 4294967296) (hy : y < 4294967296)
    (h : refReduce8 x = refReduce8 y) : x = y := by
  unfold refReduce8 at h
  have i1 := refShift_inj _ _ (by repeat (first | exact hx | apply refShift_lt))
    (by repeat (first | exact hy | apply refShift_lt)) h
  have i2 := refShift_inj _ _ (by repeat (first | exact hx | apply refShift_lt))
    (by repeat (first | exact hy | apply refShift_lt)) i1
  have i3 := refShift_inj _ _ (by repeat (first | exact hx | apply refShift_lt))
    (by repeat (first | exact hy | apply refShift_lt)) i2
  have i4 := refShift_inj _ _ (by repeat (first | exact hx | apply refShift_lt))
    (by repeat (first | exact hy | apply refShift_lt)) i3
  have i5 := refShift_inj _ _ (by repeat (first | exact hx | apply refShift_lt))
    (by repeat (first | exact hy | apply refShift_lt)) i4
  have i6 := refShift_inj _ _ (by repeat (first | exact hx | apply refShift_lt))
    (by repeat (first | exact hy | apply refShift_lt)) i5
  have i7 := refShift_inj _ _ (by repeat (first | exact hx | apply refShift_lt))
    (by repeat (first | exact hy | apply refShift_lt)) i6
  exact refShift_inj _ _ hx hy i7

theorem xor_byte_lt (c : Nat) (b : Byte) (h : c < 4294967296) : c ^^^ b.val < 4294967296 := by
  have hb : b.val < 2 ^ 32 := by have := b.isLt; omega
  exact Nat.xor_lt_two_pow (by norm_num; exact h) hb

theorem crcByte_lt (c : Nat) (b : Byte) (h : c < 4294967296) : crcByte c b < 4294967296 := by
  rw [crcByte_eq]
  exact refReduce8_lt _ (xor_byte_lt c b h)

theorem update_crc_lt (c : Nat) (bs : List Byte) (h : c < 4294967296) :
    update_crc c bs < 4294967296 := by
  induction bs generalizing c with
  | nil => exact h
  | cons b bs ih => exact ih _ (crcByte_lt c b h)

theorem crcByte_inj_acc (c d : Nat) (b : Byte) (hc : c < 4294967296) (hd : d < 4294967296)
    (h : crcByte c b = crcByte d b) : c = d := by
  rw [crcByte_eq, crcByte_eq] at h
  exact Nat.xor_left_inj.mp (refReduce8_inj _ _ (xor_byte_lt c b hc) (xor_byte_lt d b hd) h)

theorem crcByte_inj_byte (c : Nat) (a b : Byte) (hc : c < 4294967296)
    (h : crcByte c a = crcByte c b) : a = b := by
  rw [crcByte_eq, crcByte_eq] at h
  have := Nat.xor_right_inj.mp (refReduce8_inj _ _ (xor_byte_lt c a hc) (xor_byte_lt c b hc) h)
  exact Fin.ext this

theorem update_crc_inj_acc (c d : Nat) (bs : List Byte) (hc : c < 4294967296)
    (hd : d < 4294967296) (h : update_crc c bs = update_crc d bs) : c = d := by
  induction bs generalizing c d with
  | nil => exact h
  | cons b bs ih =>
    exact crcByte_inj_acc c d b hc hd (ih _ _ (crcByte_lt c b hc) (crcByte_lt d b hd) h)

theorem update_crc_one_byte (c : Nat) (pre suf : List Byte) (a b : Byte) (hc : c < 4294967296)
    (hab : a ≠ b) : update_crc c (pre ++ a :: suf) ≠ update_crc c (pre ++ b :: suf) := by
  intro h
  rw [update_crc_append, update_crc_append] at h
  have hp := update_crc_lt c pre hc
  simp only [update_crc] at h
  have := update_crc_inj_acc _ _ suf (crcByte_lt _ a hp) (crcByte_lt _ b hp) h
  exact hab (crcByte_inj_byte _ a b hp this)

/-! ## Reading a well-formed chunk -/

theorem byte_and_ff (c : Byte) : c.val &&& 0xff = c.val := by
  have h : (0xff : Nat) = 2 ^ 8 - 1 := by norm_num
  rw [h, Nat.and_pow_two_sub_one_eq_mod]
  have := c.isLt
  omega

theorem shl8_or (r : Nat) (c : Byte) : (r <<< 8) ||| c.val = r * 256 + c.val := by
  have h := Nat.mul_add_lt_is_or (show c.val < 2 ^ 8 from c.isLt) r
  rw [Nat.shiftLeft_eq, Nat.mul_comm r, ← h]

theorem getlong_four (a b c d : Byte) (t : List Byte) :
    getlong (a :: b :: c :: d :: t)
      = (((a.val * 256 + b.val) * 256 + c.val) * 256 + d.val, t, []) := by
  simp only [getlong, getlongLoop, byte_and_ff, shl8_or]
  simp

theorem getlong_be32 (n : Nat) (h : n < 4294967296) (t : List Byte) :
    getlong (be32 n ++ t) = (n, t, []) := by
  unfold be32
  simp only [List.cons_append, List.nil_append, getlong_four]
  simp only [Fin.ofNat, Prod.mk.injEq, and_true]
  omega

theorem getlong_short (inp : List Byte) (h : inp.length < 4) :
    getlong inp = (0, [], [.eofLong]) := by
  match inp, h with
  | [], _ => rfl
  | [_], _ => rfl
  | [_, _], _ => rfl
  | [_, _, _], _ => rfl

theorem isalpha_ne_zero (b : Byte) (h : isalpha b = true) : b ≠ 0 := by
  intro h0
  subst h0
  simp [isalpha] at h

theorem strcmp_eq_zero (a b : List Byte) (ha : ∀ x ∈ a, x ≠ 0) (hb : ∀ x ∈ b, x ≠ 0) :
    strcmp (a ++ [0]) (b ++ [0]) = 0 ↔ a = b := by
  induction a generalizing b with
  | nil =>
    cases b with
    | nil => simp [strcmp]
    | cons y b =>
      have hy : y ≠ 0 := hb y (by simp)
      have : (0 : Byte) ≠ y := fun h => hy h.symm
      simp only [List.nil_append, strcmp, List.cons_append, List.headD_cons, ne_eq, this,
        not_false_eq_true, if_true]
      have hv : y.val ≠ 0 := fun h => hy (Fin.ext h)
      simp
      omega
  | cons x a ih =>
    have hx : x ≠ 0 := ha x (by simp)
    cases b with
    | nil =>
      have hv : x.val ≠ 0 := fun h => hx (Fin.ext h)
      simp [strcmp, hx]
      omega
    | cons y b =>
      by_cases hxy : x = y
      · subst hxy
        simp only [List.cons_append, strcmp, List.headD_cons, ne_eq, not_true_eq_false, if_false,
          hx, List.tail_cons, List.cons.injEq, true_and]
        exact ih b (fun z hz => ha z (by simp [hz])) (fun z hz => hb z (by simp [hz]))
      · have hv : x.val ≠ y.val := fun h => hxy (Fin.ext h)
        simp only [List.cons_append, strcmp, List.headD_cons, ne_eq, hxy, not_false_eq_true,
          if_true, List.cons.injEq, false_and, iff_false]
        omega

theorem toInt32_of_lt (n : Nat) (h : n < 2147483648) : toInt32 (n : Int) = (n : Int) := by
  unfold toInt32
  have h1 : (n : Int) % 4294967296 = (n : Int) := by omega
  simp only [h1]
  rw [if_pos (by omega)]

theorem textBlocks_fuel (n m : Nat) (data : List Byte) (hn : data.length ≤ n)
    (hm : data.length ≤ m) : textBlocks n data = textBlocks m data := by
  induction n generalizing m data with
  | zero =>
    have : data = [] := List.length_eq_zero.mp (by omega)
    subst this
    cases m <;> simp [textBlocks]
  | succ n ih =>
    cases m with
    | zero =>
      have : data = [] := List.length_eq_zero.mp (by omega)
      subst this
      simp [textBlocks]
    | succ m =>
      simp only [textBlocks]
      by_cases hd : data = []
      · simp [hd]
      · have hpos : 0 < data.length := List.length_pos.mpr hd
        rw [if_neg hd, if_neg hd]
        congr 1
        apply ih
        · simp [List.length_drop, BS]; omega
        · simp [List.length_drop, BS]; omega

theorem blockCount_zero : blockCount 0 = 0 := by decide

theorem blockCount_small (n : Nat) (h0 : 0 < n) (h : n ≤ BS) : blockCount n = 1 := by
  unfold blockCount BS at *
  omega

theorem blockCount_large (n : Nat) (h : BS < n) : blockCount n = 1 + blockCount (n - BS) := by
  unfold blockCount BS at *
  omega

theorem payloadLoop_ok (cfg : Cfg) (chunkid : List Byte) (fuel : Nat) (data t : List Byte)
    (st : St) (hlen : data.length < 2147483648) (hf : data.length < fuel)
    (hinp : st.inp = data ++ t) :
    payloadLoop cfg chunkid fuel (data.length : Int) st =
      .next { st with
        inp := t
        crc := update_crc st.crc data
        crcCalls := st.crcCalls + blockCount data.length
        out := st.out ++ (if dumps cfg chunkid then textBlocks data.length data else []) } := by
  induction fuel generalizing data st with
  | zero => omega
  | succ fuel ih =>
    by_cases hd : data = []
    · subst hd
      cases st
      simp only [List.nil_append] at hinp
      simp [payloadLoop, textBlocks, blockCount_zero, hinp, update_crc]
    · have hpos : 0 < data.length := List.length_pos.mpr hd
      have hs : ((data.length : Nat) : Int) > 0 := by omega
      rw [payloadLoop, if_pos hs, toInt32_of_lt _ hlen]
      by_cases hb : data.length ≤ BS
      · -- the whole payload fits in one block
        have h1 : ¬ ((data.length : Int) > (BS : Int)) := by omega
        simp only [h1, if_false]
        have h2 : ¬ ((data.length : Int) < 0) := by omega
        have h3 : ¬ (st.inp.length < data.length) := by simp [hinp]
        simp only [h2, if_false, Int.toNat_ofNat, h3]
        have htake : st.inp.take data.length = data := by simp [hinp]
        have hdrop : st.inp.drop data.length = t := by simp [hinp]
        simp only [htake, hdrop, sub_self]
        have := ih [] (if dumps cfg chunkid then
            { inp := t, size := st.size, out := st.out ++ [Out.text (colonAtNul data)],
              first := st.first, iend_read := st.iend_read, crc := update_crc st.crc data,
              crcCalls := st.crcCalls + 1 }
          else
            { inp := t, size := st.size, out := st.out, first := st.first,
              iend_read := st.iend_read, crc := update_crc st.crc data,
              crcCalls := st.crcCalls + 1 }) (by simp) (by simp; omega)
            (by split <;> simp)
        simp only [List.length_nil, Nat.cast_zero] at this
        rw [this]
        obtain ⟨m, hm⟩ : ∃ m, data.length = m + 1 := ⟨data.length - 1, by omega⟩
        have htb : textBlocks data.length data = [Out.text (colonAtNul data)] := by
          rw [hm, textBlocks, if_neg hd, List.take_of_length_le hb, List.drop_of_length_le hb]
          cases m <;> simp [textBlocks]
        rw [htb, blockCount_small _ hpos hb, blockCount_zero]
        split <;> simp [update_crc, textBlocks]
      · -- a full block is read and the loop goes on
        have hb' : BS < data.length := by omega
        have h1 : ((data.length : Int) > (BS : Int)) := by omega
        simp only [h1, if_true]
        have h2 : ¬ ((BS : Int) < 0) := by simp [BS]
        have h3 : ¬ (st.inp.length < BS) := by simp [hinp]; omega
        simp only [h2, if_false, Int.toNat_ofNat, h3]
        have htake : st.inp.take BS = data.take BS := by
          rw [hinp, List.take_append_of_le_length (by omega)]
        have hdrop : st.inp.drop BS = data.drop BS ++ t := by
          rw [hinp, List.drop_append_of_le_length (by omega)]
        simp only [htake, hdrop]
        have hlen' : (data.drop BS).length = data.length - BS := List.length_drop _ _
        have hcast : (data.length : Int) - (BS : Int) = ((data.drop BS).length : Int) := by
          rw [hlen']; omega
        rw [hcast]
        have := ih (data.drop BS) (if dumps cfg chunkid then
            { inp := data.drop BS ++ t, size := st.size,
              out := st.out ++ [Out.text (colonAtNul (data.take BS))],
              first := st.first, iend_read := st.iend_read,
              crc := update_crc st.crc (data.take BS),
              crcCalls := st.crcCalls + 1 }
          else
            { inp := data.drop BS ++ t, size := st.size, out := st.out, first := st.first,
              iend_read := st.iend_read, crc := update_crc st.crc (data.take BS),
              crcCalls := st.crcCalls + 1 }) (by rw [hlen']; omega)
            (by rw [hlen']; simp only [BS] at hb' ⊢; omega)
            (by split <;> simp)
        rw [this]
        have hcrc : update_crc (update_crc st.crc (data.take BS)) (data.drop BS)
            = update_crc st.crc data := by
          rw [← update_crc_append, List.take_append_drop]
        obtain ⟨m, hm⟩ : ∃ m, data.length = m + 1 := ⟨data.length - 1, by omega⟩
        have htb : textBlocks data.length data
            = Out.text (colonAtNul (data.take BS)) :: textBlocks (data.drop BS).length (data.drop BS) := by
          rw [hm, textBlocks, if_neg hd]
          congr 1
          apply textBlocks_fuel
          · rw [hlen']; simp only [BS] at hb' ⊢; omega
          · exact le_refl _
        rw [htb, blockCount_large _ hb', hlen']
        split <;> simp [hcrc, Nat.add_assoc]

theorem toLong_of_lt (cfg : Cfg) (n : Nat) (h : n < 2147483648) : toLong cfg n = (n : Int) := by
  unfold toLong
  split
  · rfl
  · exact toInt32_of_lt n h

theorem check_chunk_name_ok (tag : List Byte) (hl : tag.length = 4)
    (ha : ∀ b ∈ tag, isalpha b = true) : PNG_check_chunk_name tag = (OK, []) := by
  match tag, hl with
  | [a, b, c, d], _ =>
    have h0 := ha a (by simp)
    have h1 := ha b (by simp)
    have h2 := ha c (by simp)
    have h3 := ha d (by simp)
    simp [PNG_check_chunk_name, h0, h1, h2, h3]

theorem trailer_lt (c : Chunk) : c.trailer < 4294967296 := by
  unfold Chunk.trailer CRCCOMPL
  have h : update_crc CRCINIT (c.tag ++ c.data) < 2 ^ 32 :=
    update_crc_lt _ _ (by decide)
  exact Nat.xor_lt_two_pow h (by norm_num)

theorem IHDR_nonzero : ∀ x ∈ IHDR, x ≠ 0 := by
  intro x hx
  simp only [IHDR, List.mem_cons, List.mem_singleton, List.not_mem_nil, or_false] at hx
  rcases hx with rfl | rfl | rfl | rfl <;> decide

theorem IEND_nonzero : ∀ x ∈ IEND, x ≠ 0 := by
  intro x hx
  simp only [IEND, List.mem_cons, List.mem_singleton, List.not_mem_nil, or_false] at hx
  rcases hx with rfl | rfl | rfl | rfl <;> decide

theorem tEXt_nonzero : ∀ x ∈ tEXt, x ≠ 0 := by
  intro x hx
  simp only [tEXt, List.mem_cons, List.mem_singleton, List.not_mem_nil, or_false] at hx
  rcases hx with rfl | rfl | rfl | rfl <;> decide

theorem tag_nonzero (c : Chunk) (hwf : c.WF) : ∀ x ∈ c.tag, x ≠ 0 :=
  fun x hx => isalpha_ne_zero x (hwf.2.1 x hx)

theorem strcmp_tag (c : Chunk) (hwf : c.WF) (lit : List Byte) (hl : ∀ x ∈ lit, x ≠ 0) :
    strcmp (c.tag ++ [0]) (lit ++ [0]) = 0 ↔ c.tag = lit :=
  strcmp_eq_zero _ _ (tag_nonzero c hwf) hl

theorem dumps_tag (cfg : Cfg) (c : Chunk) (hwf : c.WF) :
    dumps cfg c.tag = (cfg.printtext && decide (c.tag = tEXt)) := by
  unfold dumps
  congr 1
  exact decide_eq_decide.mpr (strcmp_tag c hwf tEXt tEXt_nonzero)

/-- The loop body on a chunk with a valid tag and a complete payload: what is
left to decide is the trailer, read from the bytes `r` behind the payload. -/
theorem chunkBody_payload (cfg : Cfg) (st : St) (c : Chunk) (r : List Byte) (hwf : c.WF)
    (hi : st.iend_read = false) (hinp : st.inp = be32 c.data.length ++ c.tag ++ c.data ++ r) :
    chunkBody cfg st =
      if (getlong r).1 ≠ c.trailer then
        .ret { inp := (getlong r).2.1, size := st.size,
               out := st.out ++ c.out cfg st.size r.length st.first ++ (getlong r).2.2
                 ++ [.crcError c.tag c.trailer (getlong r).1],
               first := false, iend_read := false,
               crc := update_crc CRCINIT (c.tag ++ c.data),
               crcCalls := st.crcCalls + 1 + blockCount c.data.length }
      else
        .next { inp := (getlong r).2.1, size := st.size,
                out := st.out ++ c.out cfg st.size r.length st.first ++ (getlong r).2.2,
                first := false, iend_read := decide (c.tag = IEND),
                crc := update_crc CRCINIT (c.tag ++ c.data),
                crcCalls := st.crcCalls + 1 + blockCount c.data.length } := by
  obtain ⟨hl, ha, hd⟩ := hwf
  have hwf : c.WF := ⟨hl, ha, hd⟩
  have hinp' : st.inp = be32 c.data.length ++ (c.tag ++ (c.data ++ r)) := by
    rw [hinp]; simp
  unfold chunkBody
  rw [if_neg (by simp [hi]), hinp', getlong_be32 _ (by omega)]
  simp only [toLong_of_lt cfg _ hd]
  have h4 : ¬ ((c.tag ++ (c.data ++ r)).length < 4) := by simp [hl]
  have htake : (c.tag ++ (c.data ++ r)).take 4 = c.tag := by
    rw [← hl]; simp
  have hdrop : (c.tag ++ (c.data ++ r)).drop 4 = c.data ++ r := by
    rw [← hl]; simp
  rw [if_neg h4]
  simp only [htake, hdrop, check_chunk_name_ok c.tag hl ha]
  rw [if_neg (by simp [OK])]
  rw [payloadLoop_ok cfg c.tag _ c.data r _ hd (by simp; omega) rfl]
  simp only [dumps_tag cfg c hwf]
  have hihdr : decide (strcmp (c.tag ++ [0]) (IHDR ++ [0]) ≠ 0) = decide (c.tag ≠ IHDR) :=
    decide_eq_decide.mpr (not_congr (strcmp_tag c hwf IHDR IHDR_nonzero))
  have hiend : (strcmp (c.tag ++ [0]) (IEND ++ [0]) = 0) ↔ c.tag = IEND :=
    strcmp_tag c hwf IEND IEND_nonzero
  have hcrc : CRCCOMPL (update_crc (update_crc CRCINIT c.tag) c.data) = c.trailer := by
    rw [← update_crc_append]; rfl
  have hcrc2 : update_crc (update_crc CRCINIT c.tag) c.data
      = update_crc CRCINIT (c.tag ++ c.data) := by
    rw [← update_crc_append]
  have hcrc3 : CRCCOMPL (update_crc CRCINIT (c.tag ++ c.data)) = c.trailer := rfl
  simp only [hihdr, hiend, hcrc2, hcrc3, hi]
  have hout : ∀ (x : List Out),
      ((st.out ++ [] ++ [] ++ (if cfg.verbose = true then
          [Out.chunkInfo c.tag (((st.size - (c.data ++ r).length : Nat) : Int) - 4)
            (c.data.length : Int)] else [])
        ++ (if (st.first && decide (c.tag ≠ IHDR)) = true then [Out.noIHDR] else []))
        ++ (if (cfg.printtext && decide (c.tag = tEXt)) = true
            then textBlocks c.data.length c.data else []))
        ++ (if (cfg.printtext && decide (c.tag = tEXt)) = true then [Out.newline] else []) ++ x
      = st.out ++ c.out cfg st.size r.length st.first ++ x := by
    intro x
    unfold Chunk.out
    simp only [List.length_append]
    split_ifs <;> simp
  by_cases hcmp : (getlong r).1 = c.trailer
  · simp only [hcmp, ne_eq, not_true_eq_false, if_false]
    have := hout (getlong r).2.2
    simp only [List.append_assoc] at this ⊢
    rw [this]
    simp
  · simp only [ne_eq, hcmp, not_false_eq_true, if_true]
    have := hout ((getlong r).2.2 ++ [Out.crcError c.tag c.trailer (getlong r).1])
    simp only [List.append_assoc] at this ⊢
    rw [this]

/-! ## Walking a sequence of well-formed chunks -/

theorem chunkLoop_nil (cfg : Cfg) (n : Nat) (st : St) (h : st.inp = []) :
    chunkLoop cfg (n + 1) st = finish st := by
  rw [chunkLoop, h]

theorem chunkLoop_cons (cfg : Cfg) (n : Nat) (st : St) (h : st.inp ≠ []) :
    chunkLoop cfg (n + 1) st =
      match chunkBody cfg st with
      | .next st1 => chunkLoop cfg n st1
      | other => other := by
  rw [chunkLoop]
  cases hi : st.inp with
  | nil => exact absurd hi h
  | cons _ _ => rfl

theorem be32_length (n : Nat) : (be32 n).length = 4 := rfl

theorem encode_length (c : Chunk) : c.encode.length = 4 + c.tag.length + c.data.length + 4 := by
  simp [Chunk.encode, be32_length]
  omega

theorem encode_ne_nil (c : Chunk) (t : List Byte) : c.encode ++ t ≠ [] := by
  intro h
  have := congrArg List.length h
  simp [encode_length] at this

theorem length_le_encodeChunks (cs : List Chunk) : cs.length ≤ (encodeChunks cs).length := by
  induction cs with
  | nil => simp [encodeChunks]
  | cons c cs ih =>
    simp only [encodeChunks, List.length_cons, List.length_append, encode_length]
    omega

theorem encodeChunks_append (xs ys : List Chunk) :
    encodeChunks (xs ++ ys) = encodeChunks xs ++ encodeChunks ys := by
  induction xs with
  | nil => rfl
  | cons c cs ih => simp [encodeChunks, ih]

/-- The loop body on a complete chunk with a valid tag and a matching trailer. -/
theorem chunkBody_ok (cfg : Cfg) (st : St) (c : Chunk) (t : List Byte) (hwf : c.WF)
    (hi : st.iend_read = false) (hinp : st.inp = c.encode ++ t) :
    chunkBody cfg st = .next (st.afterChunk cfg c (4 + t.length) t) := by
  have h := chunkBody_payload cfg st c (be32 c.trailer ++ t) hwf hi
    (by rw [hinp]; simp [Chunk.encode])
  rw [h, getlong_be32 _ (trailer_lt c)]
  simp [St.afterChunk, be32_length]

/-- The loop body on a complete chunk with a valid tag whose trailer holds a
value other than the computed checksum. -/
theorem chunkBody_crc (cfg : Cfg) (st : St) (c : Chunk) (v : Nat) (t : List Byte) (hwf : c.WF)
    (hv : v < 4294967296) (hne : v ≠ c.trailer)
    (hi : st.iend_read = false)
    (hinp : st.inp = be32 c.data.length ++ c.tag ++ c.data ++ be32 v ++ t) :
    chunkBody cfg st =
      .ret { inp := t, size := st.size,
             out := st.out ++ c.out cfg st.size (4 + t.length) st.first
               ++ [.crcError c.tag c.trailer v],
             first := false, iend_read := false,
             crc := update_crc CRCINIT (c.tag ++ c.data),
             crcCalls := st.crcCalls + 1 + blockCount c.data.length } := by
  have h := chunkBody_payload cfg st c (be32 v ++ t) hwf hi
    (by rw [hinp]; simp)
  rw [h, getlong_be32 _ hv]
  simp [be32_length, hne]

/-- The chunk loop walks over every complete chunk that passes the checks
and is not the terminal one, using one unit of fuel for each. -/
theorem chunkLoop_chunks (cfg : Cfg) (cs : List Chunk) (t : List Byte) (st : St) (n : Nat)
    (hwf : ∀ c ∈ cs, c.WF ∧ c.tag ≠ IEND) (hi : st.iend_read = false)
    (hinp : st.inp = encodeChunks cs ++ t) :
    chunkLoop cfg (cs.length + n) st = chunkLoop cfg n (St.afterChunks cfg t st cs) := by
  induction cs generalizing st with
  | nil => simp [St.afterChunks]
  | cons c cs ih =>
    have hc := hwf c (by simp)
    have hinp' : st.inp = c.encode ++ (encodeChunks cs ++ t) := by
      rw [hinp]; simp [encodeChunks]
    have hne : st.inp ≠ [] := by rw [hinp']; exact encode_ne_nil _ _
    have hlen : (c :: cs).length + n = (cs.length + n) + 1 := by simp; omega
    rw [hlen, chunkLoop_cons cfg _ st hne, chunkBody_ok cfg st c _ hc.1 hi hinp']
    simp only [St.afterChunks, List.length_append]
    apply ih
    · intro x hx; exact hwf x (by simp [hx])
    · simp [St.afterChunk, hc.2]
    · simp [St.afterChunk]

theorem afterChunks_inp (cfg : Cfg) (t : List Byte) (st : St) (cs : List Chunk)
    (hinp : st.inp = encodeChunks cs ++ t) : (St.afterChunks cfg t st cs).inp = t := by
  induction cs generalizing st with
  | nil => simpa [St.afterChunks, encodeChunks] using hinp
  | cons c cs ih => exact ih _ (by simp [St.afterChunk])

theorem afterChunks_size (cfg : Cfg) (t : List Byte) (st : St) (cs : List Chunk) :
    (St.afterChunks cfg t st cs).size = st.size := by
  induction cs generalizing st with
  | nil => rfl
  | cons c cs ih => rw [St.afterChunks, ih]; rfl

theorem afterChunks_out (cfg : Cfg) (t : List Byte) (st : St) (cs : List Chunk) :
    (St.afterChunks cfg t st cs).out = st.out ++ chunksOut cfg st.size t.length st.first cs := by
  induction cs generalizing st with
  | nil => simp [St.afterChunks, chunksOut]
  | cons c cs ih =>
    rw [St.afterChunks, ih]
    simp [St.afterChunk, chunksOut]

theorem afterChunks_first (cfg : Cfg) (t : List Byte) (st : St) (cs : List Chunk) :
    (St.afterChunks cfg t st cs).first = (st.first && cs.isEmpty) := by
  induction cs generalizing st with
  | nil => simp [St.afterChunks]
  | cons c cs ih =>
    rw [St.afterChunks, ih]
    simp [St.afterChunk]

theorem afterChunks_iend (cfg : Cfg) (t : List Byte) (st : St) (cs : List Chunk)
    (hwf : ∀ c ∈ cs, c.tag ≠ IEND) (hi : st.iend_read = false) :
    (St.afterChunks cfg t st cs).iend_read = false := by
  induction cs generalizing st with
  | nil => simpa [St.afterChunks] using hi
  | cons c cs ih =>
    rw [St.afterChunks]
    apply ih
    · intro x hx; exact hwf x (by simp [hx])
    · simp [St.afterChunk, hwf c (by simp)]

theorem afterChunks_crcCalls (cfg : Cfg) (t : List Byte) (st : St) (cs : List Chunk) :
    (St.afterChunks cfg t st cs).crcCalls = st.crcCalls + chunksCalls cs := by
  induction cs generalizing st with
  | nil => simp [St.afterChunks, chunksCalls]
  | cons c cs ih =>
    rw [St.afterChunks, ih]
    simp [St.afterChunk, chunksCalls]
    omega

theorem textBlocks_info (n : Nat) (data : List Byte) :
    ∀ o ∈ textBlocks n data, o.isInfo = true := by
  induction n generalizing data with
  | zero => simp [textBlocks]
  | succ n ih =>
    intro o ho
    rw [textBlocks] at ho
    split at ho
    · simp at ho
    · rcases List.mem_cons.mp ho with h | h
      · subst h; rfl
      · exact ih _ o h

theorem chunk_out_info (cfg : Cfg) (size behind : Nat) (first : Bool) (c : Chunk) :
    ∀ o ∈ c.out cfg size behind first, o.isInfo = true := by
  intro o ho
  unfold Chunk.out at ho
  simp only [List.mem_append] at ho
  rcases ho with (ho | ho) | ho
  · split at ho
    · simp at ho; subst ho; rfl
    · simp at ho
  · split at ho
    · simp at ho; subst ho; rfl
    · simp at ho
  · split at ho
    · rcases List.mem_append.mp ho with h | h
      · exact textBlocks_info _ _ o h
      · simp at h; subst h; rfl
    · simp at ho

theorem chunksOut_info (cfg : Cfg) (size after : Nat) (first : Bool) (cs : List Chunk) :
    ∀ o ∈ chunksOut cfg size after first cs, o.isInfo = true := by
  induction cs generalizing first with
  | nil => simp [chunksOut]
  | cons c cs ih =>
    intro o ho
    rw [chunksOut] at ho
    rcases List.mem_append.mp ho with h | h
    · exact chunk_out_info _ _ _ _ _ o h
    · exact ih _ o h

theorem isInfo_not_fatal (o : Out) (h : o.isInfo = true) : o.isFatal = false ∧ o ≠ .ok := by
  cases o <;> first | exact ⟨rfl, Out.noConfusion⟩ | exact absurd h Bool.false_ne_true

theorem check_magic_signature : PNG_check_magic signature = (OK, []) := by decide

theorem pngcheck_signature (cfg : Cfg) (body : List Byte) :
    pngcheck cfg (signature ++ body)
      = (chunkLoop cfg (body.length + 9) (St.init (signature ++ body))).toRun := by
  have hlen : (signature ++ body).length = body.length + 8 := by
    simp [signature]
  have htake : (signature ++ body).take 8 = signature := by
    simp [signature]
  unfold pngcheck
  rw [if_neg (by rw [hlen]; omega), htake, check_magic_signature]
  simp only [hlen]
  rw [if_neg (by simp [OK])]
  rfl

theorem init_signature (body : List Byte) :
    St.init (signature ++ body)
      = { inp := body, size := body.length + 8, out := [], first := true, iend_read := false,
          crc := 0, crcCalls := 0 } := by
  simp [St.init, signature]

/-- The run on a signature, a sequence of chunks that pass all checks, none of
them the terminal one, and any further bytes `t`: the chunk loop reaches `t`
with the chunks accounted for and at least nine units of fuel left. -/
theorem pngcheck_chunks (cfg : Cfg) (cs : List Chunk) (t : List Byte)
    (hwf : ∀ c ∈ cs, c.WF ∧ c.tag ≠ IEND) :
    ∃ n st, pngcheck cfg (signature ++ (encodeChunks cs ++ t))
        = (chunkLoop cfg (n + 9) st).toRun
      ∧ t.length ≤ n
      ∧ st.inp = t ∧ st.size = (encodeChunks cs ++ t).length + 8
      ∧ st.out = chunksOut cfg ((encodeChunks cs ++ t).length + 8) t.length true cs
      ∧ st.first = cs.isEmpty ∧ st.iend_read = false ∧ st.crcCalls = chunksCalls cs := by
  have hle := length_le_encodeChunks cs
  refine ⟨(encodeChunks cs ++ t).length - cs.length,
    St.afterChunks cfg t (St.init (signature ++ (encodeChunks cs ++ t))) cs, ?_, ?_, ?_, ?_, ?_,
    ?_, ?_, ?_⟩
  · rw [pngcheck_signature]
    have hf : (encodeChunks cs ++ t).length + 9
        = cs.length + ((encodeChunks cs ++ t).length - cs.length + 9) := by
      simp only [List.length_append]; omega
    rw [hf, chunkLoop_chunks cfg cs t _ _ hwf (by rw [init_signature])
      (by rw [init_signature])]
  · simp only [List.length_append]; omega
  · exact afterChunks_inp _ _ _ _ (by rw [init_signature])
  · rw [afterChunks_size, init_signature]
  · rw [afterChunks_out, init_signature]; simp
  · rw [afterChunks_first, init_signature]; simp
  · exact afterChunks_iend _ _ _ _ (fun c hc => (hwf c hc).2) (by rw [init_signature])
  · rw [afterChunks_crcCalls, init_signature]; simp

theorem chunksOut_snoc (cfg : Cfg) (size after : Nat) (first : Bool) (cs : List Chunk)
    (e : Chunk) :
    chunksOut cfg size after first (cs ++ [e])
      = chunksOut cfg size (e.encode.length + after) first cs
        ++ e.out cfg size (4 + after) (first && cs.isEmpty) := by
  induction cs generalizing first with
  | nil => simp [chunksOut, encodeChunks]
  | cons c cs ih =>
    rw [List.cons_append, chunksOut, chunksOut, ih]
    simp only [encodeChunks_append, encodeChunks,
      List.length_append, List.append_nil, List.append_assoc, List.isEmpty_cons, Bool.and_false,
      Bool.false_and, Nat.add_assoc]

theorem chunksCalls_snoc (cs : List Chunk) (e : Chunk) :
    chunksCalls (cs ++ [e]) = chunksCalls cs + (1 + blockCount e.data.length) := by
  induction cs with
  | nil => simp [chunksCalls]
  | cons c cs ih => rw [List.cons_append, chunksCalls, chunksCalls, ih]; omega

theorem chunksOut_shift (cfg : Cfg) (size after x : Nat) (first : Bool) (cs : List Chunk) :
    chunksOut cfg (size + x) (after + x) first cs = chunksOut cfg size after first cs := by
  induction cs generalizing first with
  | nil => rfl
  | cons c cs ih =>
    simp only [chunksOut, ih, Chunk.out]
    have : ∀ a b : Nat, size + x - (a + (4 + (b + (after + x)))) = size - (a + (4 + (b + after))) := by
      intro a b; omega
    simp only [this]

/-- The run on a signature, chunks that pass all checks with the terminal
chunk `e` as the last one, and any further bytes `t`. -/
theorem pngcheck_terminal (cfg : Cfg) (cs : List Chunk) (e : Chunk) (t : List Byte)
    (hwf : ∀ c ∈ cs, c.WF ∧ c.tag ≠ IEND) (he : e.WF) (hte : e.tag = IEND) :
    pngcheck cfg (signature ++ (encodeChunks (cs ++ [e]) ++ t))
      = ⟨.returned,
          chunksOut cfg ((encodeChunks (cs ++ [e]) ++ t).length + 8) t.length true (cs ++ [e])
            ++ [if t = [] then Out.ok else Out.additionalData],
          t, chunksCalls (cs ++ [e])⟩ := by
  have hsplit : encodeChunks (cs ++ [e]) ++ t = encodeChunks cs ++ (e.encode ++ t) := by
    simp [encodeChunks_append, encodeChunks]
  obtain ⟨n, st, hrun, hn, hinp, hsize, hout, hfirst, hiend, hcalls⟩ :=
    pngcheck_chunks cfg cs (e.encode ++ t) hwf
  rw [hsplit, hrun]
  have hne : st.inp ≠ [] := by rw [hinp]; exact encode_ne_nil _ _
  rw [show n + 9 = (n + 8) + 1 from rfl, chunkLoop_cons cfg _ st hne,
    chunkBody_ok cfg st e t he hiend hinp]
  simp only
  rw [chunksOut_snoc, chunksCalls_snoc]
  have hlen : (e.encode ++ t).length = e.encode.length + t.length := List.length_append _ _
  by_cases ht : t = []
  · subst ht
    rw [show n + 8 = (n + 7) + 1 from rfl, chunkLoop_nil cfg _ _ (by simp [St.afterChunk])]
    simp [finish, St.afterChunk, hte, Flow.toRun, hout, hsize, hfirst, hcalls, Nat.add_assoc]
  · rw [show n + 8 = (n + 7) + 1 from rfl,
      chunkLoop_cons cfg _ _ (by simpa [St.afterChunk] using ht)]
    simp [chunkBody, St.afterChunk, hte, Flow.toRun, hout, hsize, hfirst, hcalls, ht, hlen,
      Nat.add_assoc]

/-! ## Corrupted chunks -/

theorem flipBit_val (b : Byte) (k : Nat) (hk : k < 8) :
    (flipBit b k).val = b.val ^^^ (1 <<< k) := by
  have h1 : (1 <<< k) < 2 ^ 8 := by
    rw [Nat.shiftLeft_eq, Nat.one_mul]
    exact Nat.pow_lt_pow_right (by norm_num) hk
  have h2 : b.val ^^^ (1 <<< k) < 2 ^ 8 := Nat.xor_lt_two_pow b.isLt h1
  simp only [flipBit, Fin.ofNat]
  exact Nat.mod_eq_of_lt h2

theorem flipBit_ne (b : Byte) (k : Nat) (hk : k < 8) : flipBit b k ≠ b := by
  intro h
  have hv := congrArg Fin.val h
  rw [flipBit_val b k hk] at hv
  have h0 : b.val ^^^ (1 <<< k) = b.val ^^^ 0 := by rw [Nat.xor_zero]; exact hv
  have := Nat.xor_right_inj.mp h0
  rw [Nat.shiftLeft_eq, Nat.one_mul] at this
  exact absurd this (Nat.pos_iff_ne_zero.mp (Nat.pow_pos (by norm_num)))

theorem flipAt_length (bs : List Byte) (i k : Nat) : (flipAt bs i k).length = bs.length := by
  simp [flipAt]

theorem flipAt_split (bs : List Byte) (i k : Nat) (hi : i < bs.length) :
    bs = bs.take i ++ bs[i] :: bs.drop (i + 1)
    ∧ flipAt bs i k = bs.take i ++ flipBit bs[i] k :: bs.drop (i + 1) := by
  constructor
  · rw [← List.drop_eq_getElem_cons hi, List.take_append_drop]
  · rw [flipAt, List.getD_eq_getElem bs 0 hi, List.set_eq_take_append_cons_drop, if_pos hi]

theorem update_crc_flipAt (acc : Nat) (bs : List Byte) (i k : Nat) (hacc : acc < 4294967296)
    (hi : i < bs.length) (hk : k < 8) : update_crc acc bs ≠ update_crc acc (flipAt bs i k) := by
  obtain ⟨h1, h2⟩ := flipAt_split bs i k hi
  rw [h2]
  conv_lhs => rw [h1]
  exact update_crc_one_byte acc _ _ _ _ hacc (fun h => flipBit_ne _ k hk h.symm)

theorem update_crc_differ (acc : Nat) (a b : List Byte) (hacc : acc < 4294967296)
    (hd : DifferInOneBit a b) : update_crc acc a ≠ update_crc acc b := by
  obtain ⟨i, k, hi, hk, rfl⟩ := hd
  exact update_crc_flipAt acc a i k hacc hi hk

theorem differ_length (a b : List Byte) (hd : DifferInOneBit a b) : b.length = a.length := by
  obtain ⟨i, k, _, _, rfl⟩ := hd
  exact flipAt_length a i k

theorem differ_cons_append (p a b : List Byte) (hd : DifferInOneBit a b) :
    DifferInOneBit (p ++ a) (p ++ b) := by
  obtain ⟨i, k, hi, hk, rfl⟩ := hd
  refine ⟨p.length + i, k, by simp; omega, hk, ?_⟩
  obtain ⟨h1, h2⟩ := flipAt_split a i k hi
  have hi' : p.length + i < (p ++ a).length := by simp; omega
  obtain ⟨h3, h4⟩ := flipAt_split (p ++ a) (p.length + i) k hi'
  rw [h4, h2]
  have e1 : (p ++ a).take (p.length + i) = p ++ a.take i := by
    rw [List.take_append]
  have e2 : (p ++ a).drop (p.length + i + 1) = a.drop (i + 1) := by
    rw [Nat.add_assoc, List.drop_append]
  have e3 : (p ++ a)[p.length + i] = a[i] := by
    rw [List.getElem_append_right (by omega)]
    simp
  rw [e1, e2, e3, List.append_assoc]

theorem CRCCOMPL_inj (x y : Nat) (h : CRCCOMPL x = CRCCOMPL y) : x = y :=
  Nat.xor_left_inj.mp h

theorem CRCINIT_lt : CRCINIT < 4294967296 := by decide

theorem trailer_differ (c : Chunk) (data' : List Byte) (hd : DifferInOneBit c.data data') :
    c.trailer ≠ (Chunk.mk c.tag data').trailer := by
  intro h
  exact update_crc_differ CRCINIT _ _ CRCINIT_lt (differ_cons_append c.tag _ _ hd)
    (CRCCOMPL_inj _ _ h)

/-- The run on a signature, chunks that pass all checks, none of them the
terminal one, then a complete chunk with a valid tag whose trailer holds a
value `v` other than its checksum, and any further bytes `t`. -/
theorem pngcheck_crc_error (cfg : Cfg) (cs : List Chunk) (c : Chunk) (v : Nat) (t : List Byte)
    (hwf : ∀ x ∈ cs, x.WF ∧ x.tag ≠ IEND) (hc : c.WF) (hv : v < 4294967296)
    (hne : v ≠ c.trailer) :
    ∃ pre, (∀ o ∈ pre, o.isInfo = true)
      ∧ pngcheck cfg
          (signature ++ (encodeChunks cs ++ (be32 c.data.length ++ c.tag ++ c.data ++ be32 v ++ t)))
        = ⟨.returned, pre ++ [.crcError c.tag c.trailer v], t,
            chunksCalls cs + 1 + blockCount c.data.length⟩ := by
  obtain ⟨n, st, hrun, hn, hinp, hsize, hout, hfirst, hiend, hcalls⟩ :=
    pngcheck_chunks cfg cs (be32 c.data.length ++ c.tag ++ c.data ++ be32 v ++ t) hwf
  have hne' : st.inp ≠ [] := by
    rw [hinp]; simp [be32]
  refine ⟨st.out ++ c.out cfg st.size (4 + t.length) st.first, ?_, ?_⟩
  · intro o ho
    rcases List.mem_append.mp ho with ho | ho
    · rw [hout] at ho; exact chunksOut_info _ _ _ _ _ o ho
    · exact chunk_out_info _ _ _ _ _ o ho
  · rw [hrun, show n + 9 = (n + 8) + 1 from rfl, chunkLoop_cons cfg _ st hne',
      chunkBody_crc cfg st c v t hc hv hne hiend hinp]
    simp only [Flow.toRun, hcalls]

theorem isalpha_iff (b : Byte) : isalpha b = true ↔ IsAsciiLetter b := by
  simp [isalpha, IsAsciiLetter]

theorem check_chunk_name_iff (a b c d : Byte) :
    (PNG_check_chunk_name [a, b, c, d]).1 = OK ↔ ∀ x ∈ [a, b, c, d], IsAsciiLetter x := by
  simp only [PNG_check_chunk_name, List.getD_cons_zero, List.getD_cons_succ, List.mem_cons,
    List.mem_singleton, List.not_mem_nil, or_false, forall_eq_or_imp, forall_eq, ← isalpha_iff]
  cases isalpha a <;> cases isalpha b <;> cases isalpha c <;> cases isalpha d <;>
    simp [OK, ERROR]

theorem check_chunk_name_bad (a b c d : Byte) (h : ¬ ∀ x ∈ [a, b, c, d], IsAsciiLetter x) :
    PNG_check_chunk_name [a, b, c, d] = (ERROR, [.badName a b c d]) := by
  simp only [List.mem_cons, List.mem_singleton, List.not_mem_nil, or_false, forall_eq_or_imp,
    forall_eq, ← isalpha_iff] at h
  simp only [PNG_check_chunk_name, List.getD_cons_zero, List.getD_cons_succ]
  revert h
  cases isalpha a <;> cases isalpha b <;> cases isalpha c <;> cases isalpha d <;> simp

/-- The loop body on a chunk header whose tag holds a byte that is no letter. -/
theorem chunkBody_bad_name (cfg : Cfg) (st : St) (l0 l1 l2 l3 a b c d : Byte) (rest : List Byte)
    (hi : st.iend_read = false) (hbad : ¬ ∀ x ∈ [a, b, c, d], IsAsciiLetter x)
    (hinp : st.inp = [l0, l1, l2, l3] ++ [a, b, c, d] ++ rest) :
    chunkBody cfg st = .ret { st with inp := rest, out := st.out ++ [.badName a b c d] } := by
  unfold chunkBody
  rw [if_neg (by simp [hi]), hinp]
  simp only [List.cons_append, List.nil_append, getlong_four]
  have htake : (a :: b :: c :: d :: rest).take 4 = [a, b, c, d] := rfl
  have hdrop : (a :: b :: c :: d :: rest).drop 4 = rest := rfl
  have hlen : ¬ ((a :: b :: c :: d :: rest).length < 4) := by simp
  rw [if_neg hlen]
  simp only [htake, hdrop, check_chunk_name_bad a b c d hbad]
  rw [if_pos (by simp [ERROR])]
  simp

/-- The run on a signature followed by chunks that pass all checks, none of
them the terminal one. -/
theorem pngcheck_no_terminal (cfg : Cfg) (cs : List Chunk)
    (hcs : ∀ c ∈ cs, c.WF ∧ c.tag ≠ IEND) :
    pngcheck cfg (signature ++ encodeChunks cs)
      = ⟨.returned, chunksOut cfg ((encodeChunks cs).length + 8) 0 true cs ++ [.noIEND], [],
          chunksCalls cs⟩ := by
  obtain ⟨n, st, hrun, hn, hinp, hsize, hout, hfirst, hiend, hcalls⟩ :=
    pngcheck_chunks cfg cs [] hcs
  simp only [List.append_nil, List.length_nil] at hrun hsize hout
  have hfin : finish st = .ret { st with out := st.out ++ [.noIEND] } := by
    simp [finish, hiend]
  rw [hrun, show n + 9 = (n + 8) + 1 from rfl, chunkLoop_nil cfg _ st hinp, hfin]
  simp only [Flow.toRun, hout, hinp, hcalls]

/-- The run on a signature, chunks that pass all checks, none of them the
terminal one, then a chunk header whose tag holds a byte that is no letter. -/
theorem pngcheck_bad_name (cfg : Cfg) (cs : List Chunk) (l0 l1 l2 l3 a b c d : Byte)
    (rest : List Byte) (hcs : ∀ x ∈ cs, x.WF ∧ x.tag ≠ IEND)
    (hbad : ¬ ∀ x ∈ [a, b, c, d], IsAsciiLetter x) :
    pngcheck cfg (signature ++ encodeChunks cs ++ ([l0, l1, l2, l3] ++ [a, b, c, d] ++ rest))
      = ⟨.returned,
          chunksOut cfg ((encodeChunks cs).length + 8) 0 true cs ++ [.badName a b c d], rest,
          chunksCalls cs⟩ := by
  obtain ⟨n, st, hrun, hn, hinp, hsize, hout, hfirst, hiend, hcalls⟩ :=
    pngcheck_chunks cfg cs ([l0, l1, l2, l3] ++ [a, b, c, d] ++ rest) hcs
  have hne : st.inp ≠ [] := by rw [hinp]; simp
  rw [List.append_assoc, hrun, show n + 9 = (n + 8) + 1 from rfl, chunkLoop_cons cfg _ st hne,
    chunkBody_bad_name cfg st l0 l1 l2 l3 a b c d rest hiend hbad hinp]
  simp only [Flow.toRun, hout, hcalls]
  have hshift := chunksOut_shift cfg ((encodeChunks cs).length + 8) 0
    ([l0, l1, l2, l3] ++ [a, b, c, d] ++ rest).length true cs
  have hlen : (encodeChunks cs ++ ([l0, l1, l2, l3] ++ [a, b, c, d] ++ rest)).length + 8
      = (encodeChunks cs).length + 8 + ([l0, l1, l2, l3] ++ [a, b, c, d] ++ rest).length := by
    simp only [List.length_append]; omega
  rw [hlen]
  simp only [Nat.zero_add] at hshift
  rw [hshift]

/-! ## Totality of the model -/

theorem getlong_facts (inp : List Byte) :
    (getlong inp).1 < 4294967296
    ∧ (getlong inp).2.1.length ≤ inp.length
    ∧ (4 ≤ inp.length → (getlong inp).2.1.length + 4 = inp.length) := by
  match inp with
  | [] => exact ⟨by decide, by simp [getlong, getlongLoop], by simp⟩
  | [_] => exact ⟨by simp [getlong, getlongLoop], by simp [getlong, getlongLoop], by simp⟩
  | [_, _] => exact ⟨by simp [getlong, getlongLoop], by simp [getlong, getlongLoop], by simp⟩
  | [_, _, _] =>
    exact ⟨by simp [getlong, getlongLoop], by simp [getlong, getlongLoop], by simp⟩
  | a :: b :: c :: d :: t =>
    rw [getlong_four]
    have ha := a.isLt
    have hb := b.isLt
    have hc := c.isLt
    have hd := d.isLt
    refine ⟨?_, by simp; omega, by simp⟩
    show ((a.val * 256 + b.val) * 256 + c.val) * 256 + d.val < 4294967296
    omega

theorem toInt32_cases (s : Int) (h0 : 0 < s) (h1 : s < 4294967296) :
    (s < 2147483648 ∧ toInt32 s = s) ∨ (2147483648 ≤ s ∧ toInt32 s < 0) := by
  unfold toInt32
  have hm : s % 4294967296 = s := by omega
  simp only [hm]
  by_cases h : s < 2147483648
  · left; rw [if_pos h]; exact ⟨h, rfl⟩
  · right; rw [if_neg h]; omega

theorem toLong_lt (cfg : Cfg) (v : Nat) (h : v < 4294967296) : toLong cfg v < 4294967296 := by
  unfold toLong toInt32
  split
  · omega
  · have hm : (v : Int) % 4294967296 = (v : Int) := by omega
    simp only [hm]
    split <;> omega

/-- The payload loop never uses up a fuel larger than the number of unread
bytes, and it never moves the cursor backwards. -/
theorem payloadLoop_total (cfg : Cfg) (chunkid : List Byte) (fuel : Nat) (s : Int) (st : St)
    (hs : s < 4294967296) (hf : st.inp.length < fuel) :
    (∀ st', payloadLoop cfg chunkid fuel s st ≠ .nofuel st')
    ∧ (∀ st', payloadLoop cfg chunkid fuel s st = .next st' → st'.inp.length ≤ st.inp.length) := by
  induction fuel generalizing s st with
  | zero => omega
  | succ fuel ih =>
    rw [payloadLoop]
    by_cases hpos : s > 0
    · rw [if_pos hpos]
      rcases toInt32_cases s hpos hs with ⟨hlt, heq⟩ | ⟨_, hneg⟩
      · rw [heq]
        have htr : ¬ ((if s > (BS : Int) then (BS : Int) else s) < 0) := by
          split
          · simp [BS]
          · omega
        have htp : 0 < (if s > (BS : Int) then (BS : Int) else s) := by
          split
          · simp [BS]
          · omega
        have hle : (if s > (BS : Int) then (BS : Int) else s) ≤ s := by
          split <;> omega
        simp only [htr, if_false]
        generalize (if s > (BS : Int) then (BS : Int) else s) = toread at htp hle
        by_cases hshort : st.inp.length < toread.toNat
        · rw [if_pos hshort]
          exact ⟨fun _ h => by simp at h, fun _ h => by simp at h⟩
        · rw [if_neg hshort]
          have hn : 0 < toread.toNat := by omega
          have hdrop : (st.inp.drop toread.toNat).length < fuel := by
            rw [List.length_drop]; omega
          have hdrop2 : (st.inp.drop toread.toNat).length ≤ st.inp.length := by
            rw [List.length_drop]; omega
          by_cases hdump : dumps cfg chunkid = true
          · simp only [hdump, if_true]
            obtain ⟨h1, h2⟩ := ih (s - toread)
              { inp := st.inp.drop toread.toNat, size := st.size,
                out := st.out ++ [Out.text (colonAtNul (st.inp.take toread.toNat))],
                first := st.first, iend_read := st.iend_read,
                crc := update_crc st.crc (st.inp.take toread.toNat),
                crcCalls := st.crcCalls + 1 } (by omega) hdrop
            exact ⟨h1, fun st' h => Nat.le_trans (h2 st' h) hdrop2⟩
          · simp only [hdump, if_false]
            obtain ⟨h1, h2⟩ := ih (s - toread)
              { inp := st.inp.drop toread.toNat, size := st.size,
                out := st.out,
                first := st.first, iend_read := st.iend_read,
                crc := update_crc st.crc (st.inp.take toread.toNat),
                crcCalls := st.crcCalls + 1 } (by omega) hdrop
            exact ⟨h1, fun st' h => Nat.le_trans (h2 st' h) hdrop2⟩
      · have htr : (if toInt32 s > (BS : Int) then (BS : Int) else toInt32 s) < 0 := by
          rw [if_neg (by simp [BS]; omega)]; exact hneg
        simp only [htr, if_true]
        exact ⟨fun _ h => by simp at h, fun _ h => by simp at h⟩
    · rw [if_neg hpos]
      refine ⟨fun _ h => by simp at h, fun st' h => ?_⟩
      simp only [Flow.next.injEq] at h
      rw [← h]

/-- The loop body never runs out of fuel, and when it falls through to the
next pass it has moved the cursor forward. -/
theorem chunkBody_progress (cfg : Cfg) (st : St) :
    (∀ st', chunkBody cfg st ≠ .nofuel st')
    ∧ (∀ st', chunkBody cfg st = .next st' → st'.inp.length < st.inp.length) := by
  unfold chunkBody
  by_cases hi : st.iend_read = true
  · rw [if_pos hi]
    exact ⟨fun _ h => by simp at h, fun _ h => by simp at h⟩
  · rw [if_neg hi]
    obtain ⟨hv, hle, h4⟩ := getlong_facts st.inp
    generalize getlong st.inp = g at hv hle h4
    obtain ⟨v, inp1, o1⟩ := g
    simp only at hv hle h4 ⊢
    by_cases hshort : inp1.length < 4
    · rw [if_pos hshort]
      exact ⟨fun _ h => by simp at h, fun _ h => by simp at h⟩
    · rw [if_neg hshort]
      generalize PNG_check_chunk_name (inp1.take 4) = pr
      obtain ⟨r, o2⟩ := pr
      simp only
      by_cases hr : r ≠ 0
      · rw [if_pos hr]
        exact ⟨fun _ h => by simp at h, fun _ h => by simp at h⟩
      · rw [if_neg hr]
        have hdrop : (inp1.drop 4).length = inp1.length - 4 := List.length_drop _ _
        obtain ⟨p1, p2⟩ := payloadLoop_total cfg (inp1.take 4) ((inp1.drop 4).length + 1)
          (toLong cfg v)
          { inp := inp1.drop 4, size := st.size,
            out := st.out ++ o1 ++ o2
              ++ (if cfg.verbose = true then
                  [Out.chunkInfo (inp1.take 4)
                    (((st.size - (inp1.drop 4).length : Nat) : Int) - 4) (toLong cfg v)]
                else [])
              ++ (if (st.first
                    && decide (strcmp (inp1.take 4 ++ [0]) (IHDR ++ [0]) ≠ 0)) = true
                  then [Out.noIHDR] else []),
            first := false, iend_read := st.iend_read,
            crc := update_crc CRCINIT (inp1.take 4), crcCalls := st.crcCalls + 1 }
          (toLong_lt cfg v hv) (Nat.lt_succ_self _)
        generalize payloadLoop cfg (inp1.take 4) ((inp1.drop 4).length + 1) (toLong cfg v) _ = p
          at p1 p2
        cases p with
        | next st2 =>
          have h2 := p2 st2 rfl
          simp only at h2 ⊢
          obtain ⟨_, hle3, _⟩ := getlong_facts st2.inp
          generalize getlong st2.inp = g3 at hle3
          obtain ⟨filecrc, inp3, o6⟩ := g3
          simp only at hle3 ⊢
          split
          · exact ⟨fun _ h => by simp at h, fun _ h => by simp at h⟩
          · refine ⟨fun _ h => by simp at h, fun st' h => ?_⟩
            simp only [Flow.next.injEq] at h
            rw [← h]
            simp only
            omega
        | ret st2 => exact ⟨fun _ h => by simp at h, fun _ h => by simp at h⟩
        | nofuel st2 => exact absurd rfl (p1 st2)

/-- The chunk loop never uses up a fuel larger than the number of unread
bytes. -/
theorem chunkLoop_total (cfg : Cfg) (fuel : Nat) (st : St) (hf : st.inp.length < fuel) :
    ∀ st', chunkLoop cfg fuel st ≠ .nofuel st' := by
  induction fuel generalizing st with
  | zero => omega
  | succ fuel ih =>
    by_cases hnil : st.inp = []
    · rw [chunkLoop_nil cfg fuel st hnil]
      intro st' h
      unfold finish at h
      split at h <;> simp at h
    · rw [chunkLoop_cons cfg fuel st hnil]
      obtain ⟨b1, b2⟩ := chunkBody_progress cfg st
      generalize chunkBody cfg st = b at b1 b2
      cases b with
      | next st1 =>
        have := b2 st1 rfl
        exact ih st1 (by omega)
      | ret st1 => intro st' h; simp at h
      | nofuel st1 => exact absurd rfl (b1 st1)

/-- The model of `pngcheck` is total: the fuel it gives to the chunk loop is
never used up, on any file and in any mode. -/
theorem pngcheck_total (cfg : Cfg) (file : List Byte) :
    (pngcheck cfg file).status ≠ .nofuel := by
  unfold pngcheck
  split
  · simp
  · generalize PNG_check_magic (file.take 8) = pm
    obtain ⟨r, o⟩ := pm
    simp only
    split
    · simp
    · have h := chunkLoop_total cfg (file.length + 1) { St.init file with out := o }
        (by simp [St.init]; omega)
      generalize chunkLoop cfg (file.length + 1) { St.init file with out := o } = fl at h
      cases fl with
      | next st1 => simp [Flow.toRun]
      | ret st1 => simp [Flow.toRun]
      | nofuel st1 => exact absurd rfl (h st1)

/-- Every run of the model returns. -/
theorem pngcheck_returns (cfg : Cfg) (file : List Byte) :
    (pngcheck cfg file).status = .returned := by
  have h := pngcheck_total cfg file
  cases hs : (pngcheck cfg file).status with
  | returned => rfl
  | nofuel => exact absurd hs h

/-! ## The signature check -/

theorem strncmp_eq_zero (a b : List Byte) (n : Nat) (hb : ∀ x ∈ b.take n, x ≠ 0)
    (ha : n ≤ a.length) (hbl : n ≤ b.length) : strncmp a b n = 0 ↔ a.take n = b.take n := by
  induction n generalizing a b with
  | zero => simp [strncmp]
  | succ n ih =>
    match a, b, ha, hbl with
    | x :: a, y :: b, ha, hbl =>
      have hy : y ≠ 0 := hb y (by simp)
      simp only [strncmp, List.headD_cons, List.tail_cons, List.take_succ_cons, List.cons.injEq]
      by_cases hxy : x = y
      · subst hxy
        simp only [ne_eq, not_true_eq_false, if_false, hy, true_and]
        exact ih a b (fun z hz => hb z (by simp [hz])) (by simpa using ha) (by simpa using hbl)
      · have hv : x.val ≠ y.val := fun h => hxy (Fin.ext h)
        simp only [ne_eq, hxy, not_false_eq_true, if_true, false_and, iff_false]
        omega

theorem check_magic_eight (m0 m1 m2 m3 m4 m5 m6 m7 : Byte) :
    ((PNG_check_magic [m0, m1, m2, m3, m4, m5, m6, m7]).1 = OK
        ↔ [m0, m1, m2, m3, m4, m5, m6, m7] = signature)
    ∧ ([m0, m1, m2, m3, m4, m5, m6, m7] ≠ signature
        → (PNG_check_magic [m0, m1, m2, m3, m4, m5, m6, m7]).1 = ERROR) := by
  have n1 : ∀ x ∈ List.take 3 [(0x50 : Byte), 0x4E, 0x47, 0], x ≠ 0 := by
    intro x hx
    simp only [List.take_succ_cons, List.take_zero, List.mem_cons, List.mem_singleton,
      List.not_mem_nil, or_false] at hx
    rcases hx with rfl | rfl | rfl <;> decide
  have n2 : ∀ x ∈ List.take 4 [(13 : Byte), 10, 26, 10, 0], x ≠ 0 := by
    intro x hx
    simp only [List.take_succ_cons, List.take_zero, List.mem_cons, List.mem_singleton,
      List.not_mem_nil, or_false] at hx
    rcases hx with rfl | rfl | rfl | rfl <;> decide
  have e1 : strncmp [m1, m2, m3, m4, m5, m6, m7] [0x50, 0x4E, 0x47, 0] 3 = 0
      ↔ (m1 = 0x50 ∧ m2 = 0x4E ∧ m3 = 0x47) := by
    rw [strncmp_eq_zero _ _ 3 n1 (by simp) (by simp)]
    simp
  have e2 : strncmp [m4, m5, m6, m7] [13, 10, 26, 10, 0] 4 = 0
      ↔ (m4 = 13 ∧ m5 = 10 ∧ m6 = 26 ∧ m7 = 10) := by
    rw [strncmp_eq_zero _ _ 4 n2 (by simp) (by simp)]
    simp
  have key : (PNG_check_magic [m0, m1, m2, m3, m4, m5, m6, m7]).1
      = if [m0, m1, m2, m3, m4, m5, m6, m7] = signature then OK else ERROR := by
    simp only [PNG_check_magic, List.drop_succ_cons, List.drop_zero, List.headD_cons, ne_eq,
      e1, e2, signature, List.cons.injEq, and_true]
    by_cases hA : m1 = 0x50 ∧ m2 = 0x4E ∧ m3 = 0x47
    · by_cases h0 : m0 = 0x89
      · by_cases hB : m4 = 13 ∧ m5 = 10 ∧ m6 = 26 ∧ m7 = 10
        · rw [if_neg (not_not.mpr hA), if_neg (by simp [h0, hB]), if_pos ⟨h0, hA.1, hA.2.1, hA.2.2, hB⟩]
        · rw [if_neg (not_not.mpr hA), if_pos (Or.inr hB),
            if_neg (fun h => hB ⟨h.2.2.2.2.1, h.2.2.2.2.2.1, h.2.2.2.2.2.2.1, h.2.2.2.2.2.2.2⟩)]
      · rw [if_neg (not_not.mpr hA), if_pos (Or.inl h0), if_neg (fun h => h0 h.1)]
    · rw [if_pos hA, if_neg (fun h => hA ⟨h.2.1, h.2.2.1, h.2.2.2.1⟩)]
  rw [key]
  constructor
  · by_cases h : [m0, m1, m2, m3, m4, m5, m6, m7] = signature
    · simp [h]
    · simp [h, OK, ERROR]
  · intro h
    rw [if_neg h]

/-! ## Lists of output events -/

theorem getLast?_snoc (l : List Out) (a : Out) : (l ++ [a]).getLast? = some a := by
  simp

theorem not_mem_of_info (l : List Out) (a b : Out) (hl : ∀ o ∈ l, o.isInfo = true)
    (hb : b.isInfo = false) (hab : a ≠ b) : b ∉ l ++ [a] := by
  intro h
  rcases List.mem_append.mp h with h | h
  · have := hl b h
    rw [hb] at this
    exact Bool.false_ne_true this
  · simp at h
    exact hab h.symm

/-! ## The claims -/

/-- C1. Completeness: on the signature followed by well-formed chunks (payload
shorter than `2^31`, four letter tag, trailer equal to the complemented
checksum of tag and payload) of which exactly the last one is IEND, and
nothing behind it, `pngcheck` returns having read the whole file, emits no
fatal diagnostic, and its last output is the line
`<fname>: file appears to be OK`.  The payloads may be longer than the read
block of 32000 bytes. -/
theorem pngcheck_complete (cfg : Cfg) (cs : List Chunk) (e : Chunk)
    (hcs : ∀ c ∈ cs, c.WF ∧ c.tag ≠ IEND) (he : e.WF) (hte : e.tag = IEND) :
    (pngcheck cfg (signature ++ encodeChunks (cs ++ [e]))).status = .returned
    ∧ (∀ o ∈ (pngcheck cfg (signature ++ encodeChunks (cs ++ [e]))).out, o.isFatal = false)
    ∧ (pngcheck cfg (signature ++ encodeChunks (cs ++ [e]))).out.getLast? = some .ok
    ∧ ((pngcheck cfg (signature ++ encodeChunks (cs ++ [e]))).out.getLast?.map (Out.render cfg)
        = some (cfg.fname ++ ": file appears to be OK\n"))
    ∧ (pngcheck cfg (signature ++ encodeChunks (cs ++ [e]))).rest = [] := by
  have h := pngcheck_terminal cfg cs e [] hcs he hte
  simp only [List.append_nil, if_true] at h
  rw [h]
  refine ⟨rfl, ?_, getLast?_snoc _ _, ?_, rfl⟩
  · intro o ho
    rcases List.mem_append.mp ho with ho | ho
    · exact (isInfo_not_fatal o (chunksOut_info _ _ _ _ _ o ho)).1
    · simp at ho; subst ho; rfl
  · rw [getLast?_snoc]; rfl

set_option maxRecDepth 100000 in
/-- Witness for C1: the signature, one IHDR chunk and the IEND chunk of
length 0, whose trailer is `AE 42 60 82`. -/
theorem pngcheck_complete_witness :
    wIEND.encode = [0, 0, 0, 0, 73, 69, 78, 68, 0xAE, 0x42, 0x60, 0x82]
    ∧ (∀ c ∈ [wIHDR], c.WF ∧ c.tag ≠ IEND) ∧ wIEND.WF ∧ wIEND.tag = IEND
    ∧ (pngcheck wCfg (signature ++ encodeChunks ([wIHDR] ++ [wIEND]))).status = .returned
    ∧ (∀ o ∈ (pngcheck wCfg (signature ++ encodeChunks ([wIHDR] ++ [wIEND]))).out,
        o.isFatal = false)
    ∧ (pngcheck wCfg (signature ++ encodeChunks ([wIHDR] ++ [wIEND]))).out.getLast? = some .ok
    ∧ ((pngcheck wCfg (signature ++ encodeChunks ([wIHDR] ++ [wIEND]))).out.getLast?.map
        (Out.render wCfg) = some (wCfg.fname ++ ": file appears to be OK\n"))
    ∧ (pngcheck wCfg (signature ++ encodeChunks ([wIHDR] ++ [wIEND]))).rest = [] :=
  ⟨by decide, by decide, by decide, by decide,
    pngcheck_complete wCfg [wIHDR] wIEND (by decide) (by decide) (by decide)⟩

/-- C2. Single-bit corruption is detected: when one bit of the payload of one
chunk of a well-formed input is inverted, `pngcheck` walks the chunks in front
of it as before, then ends with the line `CRC error in chunk <tag>` for that
chunk (the computed value differing from the stored one), does not report
success, and leaves every byte of the later chunks unread.  Equivalently, for
every 32-bit accumulator, `update_crc` returns different values on two byte
sequences of equal length that differ in exactly one bit. -/
theorem single_bit_corruption_detected (cfg : Cfg) (cs1 : List Chunk) (c : Chunk)
    (data' : List Byte) (cs2 : List Chunk) (acc : Nat) (a b : List Byte)
    (hcs : ∀ x ∈ cs1, x.WF ∧ x.tag ≠ IEND) (hc : c.WF) (hflip : DifferInOneBit c.data data')
    (hacc : acc < 4294967296) (hab : DifferInOneBit a b) :
    (pngcheck cfg (signature ++ encodeChunks cs1
        ++ (be32 c.data.length ++ c.tag ++ data' ++ be32 c.trailer) ++ encodeChunks cs2)).status
      = .returned
    ∧ (pngcheck cfg (signature ++ encodeChunks cs1
        ++ (be32 c.data.length ++ c.tag ++ data' ++ be32 c.trailer)
        ++ encodeChunks cs2)).out.getLast?
      = some (.crcError c.tag (CRCCOMPL (update_crc CRCINIT (c.tag ++ data'))) c.trailer)
    ∧ CRCCOMPL (update_crc CRCINIT (c.tag ++ data')) ≠ c.trailer
    ∧ (∀ o ∈ (pngcheck cfg (signature ++ encodeChunks cs1
        ++ (be32 c.data.length ++ c.tag ++ data' ++ be32 c.trailer)
        ++ encodeChunks cs2)).out.dropLast, o.isInfo = true)
    ∧ Out.ok ∉ (pngcheck cfg (signature ++ encodeChunks cs1
        ++ (be32 c.data.length ++ c.tag ++ data' ++ be32 c.trailer) ++ encodeChunks cs2)).out
    ∧ (pngcheck cfg (signature ++ encodeChunks cs1
        ++ (be32 c.data.length ++ c.tag ++ data' ++ be32 c.trailer) ++ encodeChunks cs2)).rest
      = encodeChunks cs2
    ∧ a.length = b.length
    ∧ update_crc acc a ≠ update_crc acc b := by
  have hlen := differ_length _ _ hflip
  have hbad : (Chunk.mk c.tag data').WF := ⟨hc.1, hc.2.1, by show data'.length < _; rw [hlen]; exact hc.2.2⟩
  have hne : c.trailer ≠ (Chunk.mk c.tag data').trailer := trailer_differ c data' hflip
  obtain ⟨pre, hpre, hrun⟩ := pngcheck_crc_error cfg cs1 (Chunk.mk c.tag data') c.trailer
    (encodeChunks cs2) hcs hbad (trailer_lt c) hne
  have hfile : signature ++ encodeChunks cs1
        ++ (be32 c.data.length ++ c.tag ++ data' ++ be32 c.trailer) ++ encodeChunks cs2
      = signature ++ (encodeChunks cs1 ++ (be32 (Chunk.mk c.tag data').data.length
          ++ (Chunk.mk c.tag data').tag ++ (Chunk.mk c.tag data').data ++ be32 c.trailer
          ++ encodeChunks cs2)) := by
    show _ = signature ++ (encodeChunks cs1 ++ (be32 data'.length ++ c.tag ++ data'
      ++ be32 c.trailer ++ encodeChunks cs2))
    rw [hlen]
    simp only [List.append_assoc]
  rw [hfile, hrun]
  refine ⟨rfl, getLast?_snoc _ _, fun h => hne h.symm, ?_,
    not_mem_of_info _ _ _ hpre rfl (by simp), rfl, (differ_length _ _ hab).symm,
    update_crc_differ acc a b hacc hab⟩
  show ∀ o ∈ List.dropLast (pre ++ [_]), _
  rw [List.dropLast_concat]
  exact hpre

set_option maxRecDepth 100000 in
/-- Witness for C2: bit 0 of the fourth payload byte of the IHDR chunk is
inverted in the file made of the signature, that chunk and the IEND chunk. -/
theorem single_bit_corruption_detected_witness :
    (∀ x ∈ ([] : List Chunk), x.WF ∧ x.tag ≠ IEND) ∧ wIHDR.WF
    ∧ DifferInOneBit wIHDR.data wFlipped ∧ CRCINIT < 4294967296
    ∧ pngcheck wCfg (signature ++ encodeChunks []
          ++ (be32 wIHDR.data.length ++ wIHDR.tag ++ wFlipped ++ be32 wIHDR.trailer)
          ++ encodeChunks [wIEND])
        = ⟨.returned, [.crcError IHDR 0xD5BCF06B 0x3A7E9B55], wIEND.encode, 2⟩
    ∧ (pngcheck wCfg (signature ++ encodeChunks []
          ++ (be32 wIHDR.data.length ++ wIHDR.tag ++ wFlipped ++ be32 wIHDR.trailer)
          ++ encodeChunks [wIEND])).rest = encodeChunks [wIEND]
    ∧ update_crc CRCINIT wIHDR.data ≠ update_crc CRCINIT wFlipped :=
  ⟨by decide, by decide, ⟨3, 0, by decide, by decide, by decide⟩, by decide, by decide,
    (single_bit_corruption_detected wCfg [] wIHDR wFlipped [wIEND] CRCINIT wIHDR.data wFlipped
      (by decide) (by decide) ⟨3, 0, by decide, by decide, by decide⟩ (by decide)
      ⟨3, 0, by decide, by decide, by decide⟩).2.2.2.2.2.1,
    (single_bit_corruption_detected wCfg [] wIHDR wFlipped [wIEND] CRCINIT wIHDR.data wFlipped
      (by decide) (by decide) ⟨3, 0, by decide, by decide, by decide⟩ (by decide)
      ⟨3, 0, by decide, by decide, by decide⟩).2.2.2.2.2.2.2⟩

set_option maxRecDepth 100000 in
/-- C3, evaluated at a failing input.  The file is the signature, an IHDR
chunk and an IEND chunk whose trailer is `00 00 00 00`; it is well-formed and
accepted.  With its last byte cut off, `getlong` reports the end of the file
while reading the trailer and returns 0, the caller compares that 0 with the
computed checksum, finds them equal, and the run ends with the success line. -/
theorem truncated_trailer_accepted :
    (∀ c ∈ [wIHDR], c.WF ∧ c.tag ≠ IEND) ∧ zIEND.WF ∧ zIEND.tag = IEND ∧ zIEND.trailer = 0
    ∧ pngcheck wCfg (signature ++ encodeChunks [wIHDR, zIEND]) = ⟨.returned, [.ok], [], 4⟩
    ∧ pngcheck wCfg ((signature ++ encodeChunks [wIHDR, zIEND]).dropLast)
        = ⟨.returned, [.eofLong, .ok], [], 4⟩ := by
  decide

/-- C4. Trailing data: when a non-empty byte sequence is appended to a
well-formed input, `pngcheck` produces the output of the well-formed run with
the success line replaced by `additional data after IEND chunk`; all lines in
front of it are informational, success is not reported, and none of the
appended bytes is read (no checksum work is done for them either). -/
theorem trailing_data_rejected (cfg : Cfg) (cs : List Chunk) (e : Chunk) (extra : List Byte)
    (hcs : ∀ c ∈ cs, c.WF ∧ c.tag ≠ IEND) (he : e.WF) (hte : e.tag = IEND)
    (hx : extra ≠ []) :
    (pngcheck cfg (signature ++ encodeChunks (cs ++ [e]) ++ extra)).status = .returned
    ∧ (pngcheck cfg (signature ++ encodeChunks (cs ++ [e]) ++ extra)).out
        = (pngcheck cfg (signature ++ encodeChunks (cs ++ [e]))).out.dropLast
          ++ [.additionalData]
    ∧ (∀ o ∈ (pngcheck cfg (signature ++ encodeChunks (cs ++ [e]))).out.dropLast,
        o.isInfo = true)
    ∧ Out.ok ∉ (pngcheck cfg (signature ++ encodeChunks (cs ++ [e]) ++ extra)).out
    ∧ (pngcheck cfg (signature ++ encodeChunks (cs ++ [e]) ++ extra)).rest = extra
    ∧ (pngcheck cfg (signature ++ encodeChunks (cs ++ [e]) ++ extra)).crcCalls
        = (pngcheck cfg (signature ++ encodeChunks (cs ++ [e]))).crcCalls := by
  have h0 := pngcheck_terminal cfg cs e [] hcs he hte
  have h1 := pngcheck_terminal cfg cs e extra hcs he hte
  simp only [List.append_nil, if_true] at h0
  simp only [if_neg hx] at h1
  rw [List.append_assoc, h0, h1]
  show _ ∧ _ = List.dropLast (_ ++ [Out.ok]) ++ _ ∧ (∀ o ∈ List.dropLast (_ ++ [Out.ok]), _) ∧ _
  rw [List.dropLast_concat]
  have hshift := chunksOut_shift cfg ((encodeChunks (cs ++ [e])).length + 8) 0 extra.length true
    (cs ++ [e])
  have hlen : (encodeChunks (cs ++ [e]) ++ extra).length + 8
      = (encodeChunks (cs ++ [e])).length + 8 + extra.length := by
    simp only [List.length_append]; omega
  rw [hlen]
  simp only [Nat.zero_add] at hshift
  rw [hshift]
  refine ⟨rfl, rfl, chunksOut_info _ _ _ _ _, ?_, rfl, rfl⟩
  exact not_mem_of_info _ _ _ (chunksOut_info _ _ _ _ _) rfl (by decide)

set_option maxRecDepth 100000 in
/-- Witness for C4: one byte appended to the signature, an IHDR chunk and the
IEND chunk of length 0. -/
theorem trailing_data_rejected_witness :
    (∀ c ∈ [wIHDR], c.WF ∧ c.tag ≠ IEND) ∧ wIEND.WF ∧ wIEND.tag = IEND ∧ [(0 : Byte)] ≠ []
    ∧ pngcheck wCfg (signature ++ encodeChunks ([wIHDR] ++ [wIEND]) ++ [0])
        = ⟨.returned, [.additionalData], [0], 3⟩
    ∧ (pngcheck wCfg (signature ++ encodeChunks ([wIHDR] ++ [wIEND]) ++ [0])).out
        = (pngcheck wCfg (signature ++ encodeChunks ([wIHDR] ++ [wIEND]))).out.dropLast
          ++ [.additionalData] :=
  ⟨by decide, by decide, by decide, by decide, by decide,
    (trailing_data_rejected wCfg [wIHDR] wIEND [0] (by decide) (by decide) (by decide)
      (by decide)).2.1⟩

/-- C5. Missing terminal chunk: on the signature followed by zero or more
complete chunks with valid tags and matching trailers (chunks as in C1, the
payload shorter than `2^31`), none of them IEND, `pngcheck` reads the whole
file, ends with the line `file doesn't end with a IEND chunk` and does not
report success. -/
theorem missing_terminal_rejected (cfg : Cfg) (cs : List Chunk)
    (hcs : ∀ c ∈ cs, c.WF ∧ c.tag ≠ IEND) :
    (pngcheck cfg (signature ++ encodeChunks cs)).status = .returned
    ∧ (pngcheck cfg (signature ++ encodeChunks cs)).out
        = chunksOut cfg ((encodeChunks cs).length + 8) 0 true cs ++ [.noIEND]
    ∧ (∀ o ∈ chunksOut cfg ((encodeChunks cs).length + 8) 0 true cs, o.isInfo = true)
    ∧ (pngcheck cfg (signature ++ encodeChunks cs)).out.getLast? = some .noIEND
    ∧ Out.ok ∉ (pngcheck cfg (signature ++ encodeChunks cs)).out
    ∧ (pngcheck cfg (signature ++ encodeChunks cs)).rest = [] := by
  rw [pngcheck_no_terminal cfg cs hcs]
  refine ⟨rfl, rfl, chunksOut_info _ _ _ _ _, getLast?_snoc _ _, ?_, rfl⟩
  exact not_mem_of_info _ _ _ (chunksOut_info _ _ _ _ _) rfl (by decide)

set_option maxRecDepth 100000 in
/-- Witness for C5: the signature followed by one IHDR chunk. -/
theorem missing_terminal_rejected_witness :
    (∀ c ∈ [wIHDR], c.WF ∧ c.tag ≠ IEND)
    ∧ pngcheck wCfg (signature ++ encodeChunks [wIHDR]) = ⟨.returned, [.noIEND], [], 2⟩
    ∧ (pngcheck wCfg (signature ++ encodeChunks [wIHDR])).out.getLast? = some .noIEND :=
  ⟨by decide, by decide, (missing_terminal_rejected wCfg [wIHDR] (by decide)).2.2.2.1⟩

set_option maxRecDepth 100000 in
/-- C6, as stated, fails: on the eight signature bytes alone `pngcheck` does
not print `EOF while reading 4 bytes value`; its only output is the line
`file doesn't end with a IEND chunk`. -/
theorem scenario_A_not_eof :
    Out.eofLong ∉ (pngcheck wCfg [0x89, 0x50, 0x4E, 0x47, 0x0D, 0x0A, 0x1A, 0x0A]).out
    ∧ (pngcheck wCfg [0x89, 0x50, 0x4E, 0x47, 0x0D, 0x0A, 0x1A, 0x0A]).out = [.noIEND] := by
  decide

/-- C6, amended.  On the input that is exactly the eight bytes
`89 50 4E 47 0D 0A 1A 0A`, in every mode, the peek at the head of the chunk
loop finds the end of the file, no chunk length is read, and `pngcheck`
reports the missing terminal chunk, `file doesn't end with a IEND chunk`, as
its only output. -/
theorem scenario_A_missing_terminal (cfg : Cfg) :
    pngcheck cfg [0x89, 0x50, 0x4E, 0x47, 0x0D, 0x0A, 0x1A, 0x0A]
      = ⟨.returned, [.noIEND], [], 0⟩
    ∧ Out.render cfg .noIEND = cfg.fname ++ ": file doesn't end with a IEND chunk\n"
    ∧ Out.noIEND.isFatal = true := by
  exact ⟨rfl, rfl, rfl⟩

/-- C7. Tag validation: `PNG_check_chunk_name` returns `OK` if and only if
each of the four tag bytes is an ASCII letter (`0x41..0x5A` or `0x61..0x7A`),
and `ERROR` otherwise.  When the next chunk of an input has a tag with a byte
that is no letter, `pngcheck` walks the chunks in front of it as before, then
ends with the naming-rule line carrying the four tag bytes; it returns with
every byte behind the tag unread and with no call of `update_crc` beyond those
made for the earlier chunks. -/
theorem bad_tag_rejected (cfg : Cfg) (cs : List Chunk) (l0 l1 l2 l3 a b c d : Byte)
    (rest : List Byte) (t0 t1 t2 t3 : Byte) (hcs : ∀ x ∈ cs, x.WF ∧ x.tag ≠ IEND)
    (hbad : ¬ ∀ x ∈ [a, b, c, d], IsAsciiLetter x) :
    ((PNG_check_chunk_name [t0, t1, t2, t3]).1 = OK ↔ ∀ x ∈ [t0, t1, t2, t3], IsAsciiLetter x)
    ∧ ((PNG_check_chunk_name [t0, t1, t2, t3]).1 ≠ OK
        → (PNG_check_chunk_name [t0, t1, t2, t3]).1 = ERROR)
    ∧ PNG_check_chunk_name [a, b, c, d] = (ERROR, [.badName a b c d])
    ∧ (pngcheck cfg (signature ++ encodeChunks cs
        ++ ([l0, l1, l2, l3] ++ [a, b, c, d] ++ rest))).status = .returned
    ∧ (pngcheck cfg (signature ++ encodeChunks cs
        ++ ([l0, l1, l2, l3] ++ [a, b, c, d] ++ rest))).out
      = (pngcheck cfg (signature ++ encodeChunks cs)).out.dropLast ++ [.badName a b c d]
    ∧ (∀ o ∈ (pngcheck cfg (signature ++ encodeChunks cs)).out.dropLast, o.isInfo = true)
    ∧ (pngcheck cfg (signature ++ encodeChunks cs
        ++ ([l0, l1, l2, l3] ++ [a, b, c, d] ++ rest))).rest = rest
    ∧ (pngcheck cfg (signature ++ encodeChunks cs
        ++ ([l0, l1, l2, l3] ++ [a, b, c, d] ++ rest))).crcCalls
      = (pngcheck cfg (signature ++ encodeChunks cs)).crcCalls := by
  rw [pngcheck_bad_name cfg cs l0 l1 l2 l3 a b c d rest hcs hbad, pngcheck_no_terminal cfg cs hcs]
  refine ⟨check_chunk_name_iff t0 t1 t2 t3, ?_, check_chunk_name_bad a b c d hbad, rfl, ?_, ?_,
    rfl, rfl⟩
  · intro h
    have h' : ¬ ∀ x ∈ [t0, t1, t2, t3], IsAsciiLetter x :=
      fun hl => h ((check_chunk_name_iff t0 t1 t2 t3).mpr hl)
    rw [check_chunk_name_bad t0 t1 t2 t3 h']
  · show _ = List.dropLast (_ ++ [Out.noIEND]) ++ _
    rw [List.dropLast_concat]
  · show ∀ o ∈ List.dropLast (_ ++ [Out.noIEND]), _
    rw [List.dropLast_concat]
    exact chunksOut_info _ _ _ _ _

set_option maxRecDepth 100000 in
/-- Witness for C7: behind the signature and an IHDR chunk comes a chunk
header whose tag has the byte 0 in second place. -/
theorem bad_tag_rejected_witness :
    (∀ x ∈ [wIHDR], x.WF ∧ x.tag ≠ IEND)
    ∧ (¬ ∀ x ∈ [(73 : Byte), 0, 65, 84], IsAsciiLetter x)
    ∧ pngcheck wCfg (signature ++ encodeChunks [wIHDR] ++ wBadHeader)
        = ⟨.returned, [.badName 73 0 65 84], [1, 2, 3], 2⟩
    ∧ Out.render wCfg (.badName 73 0 65 84)
        = "chunk name 49 00 41 54 doesn't comply to naming rules\n"
    ∧ (pngcheck wCfg (signature ++ encodeChunks [wIHDR]
        ++ ([0, 0, 0, 0] ++ [73, 0, 65, 84] ++ [1, 2, 3]))).rest = [1, 2, 3] :=
  ⟨by decide, by decide, by decide, by decide,
    (bad_tag_rejected wCfg [wIHDR] 0 0 0 0 73 0 65 84 [1, 2, 3] 73 72 68 82 (by decide)
      (by decide)).2.2.2.2.2.2.1⟩

/-- C8. Refinement: for every accumulator and every byte sequence the table
driven `update_crc` equals the bit-at-a-time reference (XOR the byte into the
accumulator, then eight times: shift right, and XOR with `0xEDB88320` when the
bit shifted out was set); `make_crc_table` fills the 256 entries with the
eight-step reduction of their index; and the check values of `"123456789"`
and `"IEND"` are `0xCBF43926` and `0xAE426082`. -/
theorem update_crc_refines_reference :
    (∀ (c : Nat) (bs : List Byte), update_crc c bs = refCrc c bs)
    ∧ make_crc_table.length = 256
    ∧ (∀ n : Fin 256, make_crc_table.getD n.val 0 = refReduce8 n.val)
    ∧ CRCCOMPL (update_crc CRCINIT checkString) = 0xCBF43926
    ∧ CRCCOMPL (update_crc CRCINIT IEND) = 0xAE426082 := by
  refine ⟨update_crc_eq_refCrc, by simp [make_crc_table], ?_, by decide, by decide⟩
  intro n
  exact crc_table_getD n.val n.isLt

/-- C9. The checksum is incrementally updatable: feeding `a` and then `b`
equals feeding `a ++ b`, and feeding nothing leaves the accumulator unchanged.
Consequently, for a chunk with a valid tag and a complete payload shorter than
`2^31`, the payload loop of `pngcheck`, started from the checksum of the tag,
ends with `crc = update_crc(CRCINIT, tag ++ payload)` after one `update_crc`
call per read block, and the loop body goes on to the next chunk exactly when
the stored trailer `v` equals `CRCCOMPL` of that value; otherwise it reports
the CRC error with that value as the actual checksum. -/
theorem update_crc_incremental (cfg : Cfg) (st : St) (c : Chunk) (v : Nat) (t : List Byte)
    (hc : c.WF) (hv : v < 4294967296) (hi : st.iend_read = false)
    (hinp : st.inp = be32 c.data.length ++ c.tag ++ c.data ++ be32 v ++ t) :
    (∀ (acc : Nat) (a b : List Byte), update_crc (update_crc acc a) b = update_crc acc (a ++ b))
    ∧ (∀ acc : Nat, update_crc acc [] = acc)
    ∧ (∃ st2, payloadLoop cfg c.tag ((c.data ++ (be32 v ++ t)).length + 1) c.data.length
          { st with inp := c.data ++ (be32 v ++ t), crc := update_crc CRCINIT c.tag }
            = .next st2
        ∧ st2.crc = update_crc CRCINIT (c.tag ++ c.data)
        ∧ st2.crcCalls = st.crcCalls + blockCount c.data.length
        ∧ st2.inp = be32 v ++ t)
    ∧ ((∃ st3, chunkBody cfg st = .next st3)
        ↔ v = CRCCOMPL (update_crc CRCINIT (c.tag ++ c.data)))
    ∧ (v ≠ CRCCOMPL (update_crc CRCINIT (c.tag ++ c.data)) →
        ∃ st3, chunkBody cfg st = .ret st3
          ∧ st3.out.getLast?
            = some (.crcError c.tag (CRCCOMPL (update_crc CRCINIT (c.tag ++ c.data))) v)) := by
  refine ⟨fun acc a b => (update_crc_append acc a b).symm, fun _ => rfl, ?_, ?_, ?_⟩
  · refine ⟨_, payloadLoop_ok cfg c.tag _ c.data (be32 v ++ t) _ hc.2.2 (by simp; omega) rfl,
      ?_, rfl, rfl⟩
    exact (update_crc_append _ _ _).symm
  · by_cases hvt : v = c.trailer
    · have h := chunkBody_payload cfg st c (be32 v ++ t) hc hi (by rw [hinp]; simp)
      rw [getlong_be32 _ hv, if_neg (by simpa using hvt)] at h
      constructor
      · intro _; exact hvt
      · intro _; exact ⟨_, h⟩
    · have h := chunkBody_crc cfg st c v t hc hv hvt hi hinp
      constructor
      · rintro ⟨st3, h3⟩
        rw [h] at h3
        exact absurd h3 (by simp)
      · intro h'; exact absurd h' hvt
  · intro hvt
    exact ⟨_, chunkBody_crc cfg st c v t hc hv hvt hi hinp, getLast?_snoc _ _⟩

set_option maxRecDepth 100000 in
/-- Witness for C9: the IHDR chunk of the concrete file, read with its own
trailer, lets the loop body go on to the next chunk. -/
theorem update_crc_incremental_witness :
    wIHDR.WF ∧ wIHDR.trailer < 4294967296 ∧ wSt.iend_read = false
    ∧ wSt.inp = be32 wIHDR.data.length ++ wIHDR.tag ++ wIHDR.data ++ be32 wIHDR.trailer ++ []
    ∧ wIHDR.trailer = 0x3A7E9B55
    ∧ ((∃ st3, chunkBody wCfg wSt = .next st3)
        ↔ wIHDR.trailer = CRCCOMPL (update_crc CRCINIT (wIHDR.tag ++ wIHDR.data))) :=
  ⟨by decide, by decide, by decide, by decide, by decide,
    (update_crc_incremental wCfg wSt wIHDR wIHDR.trailer [] (by decide) (by decide) (by decide)
      (by decide)).2.2.2.1⟩

/-- C10. Signature verdict: for every eight byte header, `PNG_check_magic`
returns `OK` (0) if and only if the header is exactly
`89 50 4E 47 0D 0A 1A 0A`, and returns `ERROR` for every other header,
whatever advisory lines it writes; a zero byte in the header does not end the
`strncmp` comparisons early in its favour. -/
theorem check_magic_verdict (magic : List Byte) (h : magic.length = 8) :
    ((PNG_check_magic magic).1 = OK ↔ magic = signature)
    ∧ (magic ≠ signature → (PNG_check_magic magic).1 = ERROR)
    ∧ OK = 0 ∧ ERROR ≠ OK := by
  match magic, h with
  | [m0, m1, m2, m3, m4, m5, m6, m7], _ =>
    exact ⟨(check_magic_eight m0 m1 m2 m3 m4 m5 m6 m7).1,
      (check_magic_eight m0 m1 m2 m3 m4 m5 m6 m7).2, rfl, by decide⟩

set_option maxRecDepth 100000 in
/-- Witness for C10: a header that agrees with the signature up to a zero
byte in the last place is rejected, with advisory lines, and the signature
itself is accepted. -/
theorem check_magic_verdict_witness :
    [(0x89 : Byte), 0x50, 0x4E, 0x47, 0x0D, 0x0A, 0x1A, 0].length = 8
    ∧ [(0x89 : Byte), 0x50, 0x4E, 0x47, 0x0D, 0x0A, 0x1A, 0] ≠ signature
    ∧ PNG_check_magic [0x89, 0x50, 0x4E, 0x47, 0x0D, 0x0A, 0x1A, 0]
        = (ERROR, [.corrupted, .eolConv])
    ∧ PNG_check_magic signature = (OK, [])
    ∧ (PNG_check_magic [0x89, 0x50, 0x4E, 0x47, 0x0D, 0x0A, 0x1A, 0]).1 = ERROR :=
  ⟨by decide, by decide, by decide, by decide,
    (check_magic_verdict [0x89, 0x50, 0x4E, 0x47, 0x0D, 0x0A, 0x1A, 0] (by decide)).2.1
      (by decide)⟩

/-! ## The loop bodies, case by case -/

theorem payloadLoop_succ (cfg : Cfg) (chunkid : List Byte) (fuel : Nat) (s : Int) (st : St) :
    payloadLoop cfg chunkid (fuel + 1) s st =
      if s > 0 then
        if toreadOf s < 0 then
          .ret { st with
            inp := st.inp.drop cfg.hugeRead
            out := st.out ++ [.eofChunkData chunkid] }
        else if st.inp.length < (toreadOf s).toNat then
          .ret { st with inp := [], out := st.out ++ [.eofChunkData chunkid] }
        else payloadLoop cfg chunkid fuel (s - toreadOf s) (readBlock cfg chunkid st (toreadOf s).toNat)
      else .next st := by
  rw [payloadLoop]
  by_cases hs : s > 0
  · simp only [hs, if_true]
    have htr : (if toInt32 s > (BS : Int) then (BS : Int) else toInt32 s) = toreadOf s := rfl
    simp only [htr]
    generalize toreadOf s = tr
    by_cases h1 : tr < 0
    · simp only [h1, if_true]
    · simp only [h1, if_false]
      by_cases h2 : st.inp.length < tr.toNat
      · simp only [h2, if_true]
      · simp only [h2, if_false]
        unfold readBlock
        cases hd : dumps cfg chunkid
        · simp
        · simp
  · simp only [hs, if_false]

theorem payloadLoop_zero (cfg : Cfg) (chunkid : List Byte) (s : Int) (st : St) :
    payloadLoop cfg chunkid 0 s st = .nofuel st := rfl

theorem letters_nonzero (tag : List Byte) (h : ∀ x ∈ tag, IsAsciiLetter x) : ∀ x ∈ tag, x ≠ 0 :=
  fun x hx => isalpha_ne_zero x ((isalpha_iff x).mpr (h x hx))

theorem check_chunk_name_letters (a b c d : Byte) (h : ∀ x ∈ [a, b, c, d], IsAsciiLetter x) :
    PNG_check_chunk_name [a, b, c, d] = (OK, []) :=
  check_chunk_name_ok [a, b, c, d] rfl (fun x hx => (isalpha_iff x).mpr (h x hx))

theorem four_le_length (l : List Byte) (h : 4 ≤ l.length) :
    ∃ a b c d t, l = a :: b :: c :: d :: t := by
  match l, h with
  | a :: b :: c :: d :: t, _ => exact ⟨a, b, c, d, t, rfl⟩

/-- The loop body on a stream with fewer than eight unread bytes. -/
theorem chunkBody_short (cfg : Cfg) (st : St) (hi : st.iend_read = false)
    (hlen : st.inp.length < 8) :
    chunkBody cfg st =
      .ret { st with
        inp := []
        out := st.out ++ (if st.inp.length < 4 then [.eofLong] else []) ++ [.eofChunkType] } := by
  unfold chunkBody
  rw [if_neg (by simp [hi])]
  by_cases h4 : st.inp.length < 4
  · rw [getlong_short _ h4]
    simp [h4]
  · obtain ⟨a, b, c, d, t, hst⟩ := four_le_length st.inp (by omega)
    rw [hst] at hlen
    rw [hst, getlong_four]
    have ht : t.length < 4 := by simp at hlen; omega
    simp [ht]

/-- The loop body on a chunk header with a valid tag: it is the payload loop
followed by the trailer check. -/
theorem chunkBody_valid (cfg : Cfg) (st : St) (l0 l1 l2 l3 a b c d : Byte) (rest : List Byte)
    (hi : st.iend_read = false) (hname : ∀ x ∈ [a, b, c, d], IsAsciiLetter x)
    (hinp : st.inp = l0 :: l1 :: l2 :: l3 :: a :: b :: c :: d :: rest) :
    chunkBody cfg st =
      match payloadLoop cfg [a, b, c, d] (rest.length + 1)
          (toLong cfg (((l0.val * 256 + l1.val) * 256 + l2.val) * 256 + l3.val))
          (afterHeader cfg st [a, b, c, d]
            (toLong cfg (((l0.val * 256 + l1.val) * 256 + l2.val) * 256 + l3.val)) rest) with
      | .next st2 => checkTrailer cfg [a, b, c, d] st2
      | other => other := by
  have hnz := letters_nonzero _ hname
  have hihdr : decide (strcmp ([a, b, c, d] ++ [0]) (IHDR ++ [0]) ≠ 0)
      = decide ([a, b, c, d] ≠ IHDR) :=
    decide_eq_decide.mpr (not_congr (strcmp_eq_zero _ _ hnz IHDR_nonzero))
  have hiend : (strcmp ([a, b, c, d] ++ [0]) (IEND ++ [0]) = 0) ↔ [a, b, c, d] = IEND :=
    strcmp_eq_zero _ _ hnz IEND_nonzero
  unfold chunkBody
  rw [if_neg (by simp [hi]), hinp, getlong_four]
  have htake : (a :: b :: c :: d :: rest).take 4 = [a, b, c, d] := rfl
  have hdrop : (a :: b :: c :: d :: rest).drop 4 = rest := rfl
  have hlen : ¬ ((a :: b :: c :: d :: rest).length < 4) := by simp
  simp only
  rw [if_neg hlen]
  simp only [htake, hdrop, check_chunk_name_letters a b c d hname]
  rw [if_neg (by simp [OK])]
  simp only [hihdr, hiend, afterHeader, List.append_nil]
  generalize payloadLoop cfg [a, b, c, d] (rest.length + 1) _ _ = p
  cases p with
  | next st2 =>
    simp only [checkTrailer]
  | ret st2 => rfl
  | nofuel st2 => rfl

/-- What the payload loop adds to the output: text-dump blocks, followed by
the end-of-file line exactly when the loop returns. -/
theorem payloadLoop_shape (cfg : Cfg) (chunkid : List Byte) (fuel : Nat) (s : Int) (st : St) :
    ∃ ex, (∀ o ∈ ex, ∃ b, o = Out.text b)
      ∧ (payloadLoop cfg chunkid fuel s st).state.out
          = st.out ++ ex
            ++ (if (payloadLoop cfg chunkid fuel s st).code = 1 then [.eofChunkData chunkid]
                else [])
      ∧ (payloadLoop cfg chunkid fuel s st).state.size = st.size
      ∧ (payloadLoop cfg chunkid fuel s st).state.first = st.first
      ∧ (payloadLoop cfg chunkid fuel s st).state.iend_read = st.iend_read := by
  induction fuel generalizing s st with
  | zero => exact ⟨[], by simp, by simp [payloadLoop, Flow.state, Flow.code], rfl, rfl, rfl⟩
  | succ fuel ih =>
    rw [payloadLoop_succ]
    by_cases hs : s > 0
    · rw [if_pos hs]
      by_cases h1 : toreadOf s < 0
      · rw [if_pos h1]
        exact ⟨[], by simp, by simp [Flow.state, Flow.code], rfl, rfl, rfl⟩
      · rw [if_neg h1]
        by_cases h2 : st.inp.length < (toreadOf s).toNat
        · rw [if_pos h2]
          exact ⟨[], by simp, by simp [Flow.state, Flow.code], rfl, rfl, rfl⟩
        · rw [if_neg h2]
          obtain ⟨ex, hex, hout, hsize, hfirst, hiend⟩ :=
            ih (s - toreadOf s) (readBlock cfg chunkid st (toreadOf s).toNat)
          refine ⟨(if dumps cfg chunkid then
              [Out.text (colonAtNul (st.inp.take (toreadOf s).toNat))] else []) ++ ex,
            ?_, ?_, hsize, hfirst, hiend⟩
          · intro o ho
            rcases List.mem_append.mp ho with ho | ho
            · split at ho
              · simp at ho; exact ⟨_, ho⟩
              · simp at ho
            · exact hex o ho
          · rw [hout]
            simp [readBlock, List.append_assoc]
    · rw [if_neg hs]
      exact ⟨[], by simp, by simp [Flow.state, Flow.code], rfl, rfl, rfl⟩

theorem getlong_out (inp : List Byte) :
    (getlong inp).2.2 = [] ∨ ((getlong inp).2.2 = [.eofLong] ∧ (getlong inp).2.1 = []) := by
  by_cases h : inp.length < 4
  · right; rw [getlong_short inp h]; exact ⟨rfl, rfl⟩
  · obtain ⟨a, b, c, d, t, rfl⟩ := four_le_length inp (by omega)
    left; rw [getlong_four]

theorem text_isMid (ex : List Out) (h : ∀ o ∈ ex, ∃ b, o = Out.text b) :
    (∀ o ∈ ex, o.isMid = true) ∧ Out.noIHDR ∉ ex := by
  constructor
  · intro o ho
    obtain ⟨b, rfl⟩ := h o ho
    rfl
  · intro hm
    obtain ⟨b, hb⟩ := h _ hm
    exact Out.noConfusion hb

/-- What the statements behind the payload loop add to the output. -/
theorem checkTrailer_shape (cfg : Cfg) (chunkid : List Byte) (st2 : St) :
    ∃ ex, (checkTrailer cfg chunkid st2).state.out
          = st2.out ++ ex
            ++ (if (checkTrailer cfg chunkid st2).code = 1
                then [.crcError chunkid (CRCCOMPL st2.crc) (getlong st2.inp).1] else [])
      ∧ (∀ o ∈ ex, o.isMid = true) ∧ Out.noIHDR ∉ ex
      ∧ ((checkTrailer cfg chunkid st2).code = 0 ∨ (checkTrailer cfg chunkid st2).code = 1)
      ∧ (checkTrailer cfg chunkid st2).state.size = st2.size
      ∧ (checkTrailer cfg chunkid st2).state.first = st2.first
      ∧ ((checkTrailer cfg chunkid st2).code = 0 →
          (checkTrailer cfg chunkid st2).state.iend_read
            = (if chunkid = IEND then true else st2.iend_read)) := by
  refine ⟨(if dumps cfg chunkid then [.newline] else []) ++ (getlong st2.inp).2.2, ?_, ?_, ?_, ?_⟩
  · unfold checkTrailer
    split <;> simp [Flow.state, Flow.code]
  · intro o ho
    rcases List.mem_append.mp ho with ho | ho
    · split at ho
      · simp at ho; subst ho; rfl
      · simp at ho
    · rcases getlong_out st2.inp with h | ⟨h, _⟩
      · rw [h] at ho; simp at ho
      · rw [h] at ho; simp at ho; subst ho; rfl
  · intro ho
    rcases List.mem_append.mp ho with ho | ho
    · split at ho <;> simp at ho
    · rcases getlong_out st2.inp with h | ⟨h, _⟩
      · rw [h] at ho; simp at ho
      · rw [h] at ho; simp at ho
  · unfold checkTrailer
    split <;> simp [Flow.state, Flow.code]

/-- The events of the header of a chunk with a valid tag. -/
theorem afterHeader_shape (cfg : Cfg) (st : St) (chunkid : List Byte) (s : Int)
    (inp2 : List Byte) :
    ∃ ex, (afterHeader cfg st chunkid s inp2).out = st.out ++ ex
      ∧ (∀ o ∈ ex, o.isMid = true)
      ∧ ex.count .noIHDR = (if st.first && decide (chunkid ≠ IHDR) then 1 else 0) := by
  refine ⟨(if cfg.verbose then
      [.chunkInfo chunkid ((st.size - inp2.length : Nat) - 4 : Int) s] else [])
      ++ (if st.first && decide (chunkid ≠ IHDR) then [.noIHDR] else []), ?_, ?_, ?_⟩
  · simp [afterHeader, List.append_assoc]
  · intro o ho
    rcases List.mem_append.mp ho with ho | ho
    · split at ho
      · simp at ho; subst ho; rfl
      · simp at ho
    · split at ho
      · simp at ho; subst ho; rfl
      · simp at ho
  · cases cfg.verbose <;> cases st.first <;> by_cases h : chunkid = IHDR <;> simp [h]

theorem ret_tail (st : St) (t : Out) (ht : t.isFatal = true) (hne : t ≠ .eofLong) :
    if (Flow.ret st).code = 1 then ∃ t', [t] = [t'] ∧ t'.isFatal = true ∧ t' ≠ .eofLong
    else [t] = [] := by
  have h : (Flow.ret st).code = 1 := rfl
  rw [if_pos h]
  exact ⟨t, rfl, ht, hne⟩

theorem other_tail (fl : Flow) (h : fl.code ≠ 1) :
    if fl.code = 1 then ∃ t', ([] : List Out) = [t'] ∧ t'.isFatal = true ∧ t' ≠ .eofLong
    else ([] : List Out) = [] := by
  rw [if_neg h]

theorem ret_code_ne_zero (st : St) (P : Prop) : (Flow.ret st).code = 0 → P := by
  intro h
  simp only [Flow.code] at h
  omega

theorem nofuel_code_ne_zero (st : St) (P : Prop) : (Flow.nofuel st).code = 0 → P := by
  intro h
  simp only [Flow.code] at h
  omega

/-- What one pass of the chunk loop adds to the output: lines that do not end
the validation, followed, exactly when the body returns, by one fatal line
other than the end-of-file line of `getlong`. -/
theorem chunkBody_shape (cfg : Cfg) (st : St) :
    ∃ ex tl, (chunkBody cfg st).state.out = st.out ++ ex ++ tl
      ∧ (∀ o ∈ ex, o.isMid = true)
      ∧ ex.count .noIHDR ≤ 1
      ∧ (st.first = false → ex.count .noIHDR = 0)
      ∧ (if (chunkBody cfg st).code = 1 then ∃ t, tl = [t] ∧ t.isFatal = true ∧ t ≠ .eofLong
          else tl = [])
      ∧ ((chunkBody cfg st).code = 0 → (chunkBody cfg st).state.first = false)
      ∧ ((chunkBody cfg st).code = 0 → st.iend_read = false
          → ((chunkBody cfg st).state.iend_read = true ↔ (st.inp.drop 4).take 4 = IEND)) := by
  by_cases hi : st.iend_read = true
  · have h : chunkBody cfg st = .ret { st with out := st.out ++ [.additionalData] } := by
      unfold chunkBody; rw [if_pos hi]
    rw [h]
    exact ⟨[], [.additionalData], by simp [Flow.state], by simp, by simp, by simp,
      ret_tail _ _ rfl (fun h => Out.noConfusion h), ret_code_ne_zero _ _,
      ret_code_ne_zero _ _⟩
  · have hi' : st.iend_read = false := by simpa using hi
    by_cases hlen : st.inp.length < 8
    · rw [chunkBody_short cfg st hi' hlen]
      refine ⟨if st.inp.length < 4 then [.eofLong] else [], [.eofChunkType],
        by simp [Flow.state], ?_, ?_, ?_, ret_tail _ _ rfl (fun h => Out.noConfusion h),
        ret_code_ne_zero _ _, ret_code_ne_zero _ _⟩
      · intro o ho
        split at ho
        · simp at ho; subst ho; rfl
        · simp at ho
      · split <;> simp
      · intro _; split <;> simp
    · obtain ⟨l0, l1, l2, l3, t4, h4⟩ := four_le_length st.inp (by omega)
      obtain ⟨a, b, c, d, rest, h8⟩ := four_le_length t4 (by
        rw [h4] at hlen; simp at hlen; omega)
      subst h8
      by_cases hname : ∀ x ∈ [a, b, c, d], IsAsciiLetter x
      · rw [chunkBody_valid cfg st l0 l1 l2 l3 a b c d rest hi' hname h4]
        obtain ⟨exh, hh, hhm, hhc⟩ := afterHeader_shape cfg st [a, b, c, d]
          (toLong cfg (((l0.val * 256 + l1.val) * 256 + l2.val) * 256 + l3.val)) rest
        obtain ⟨exp, hpt, hpo, hps, hpf, hpi⟩ := payloadLoop_shape cfg [a, b, c, d]
          (rest.length + 1)
          (toLong cfg (((l0.val * 256 + l1.val) * 256 + l2.val) * 256 + l3.val))
          (afterHeader cfg st [a, b, c, d]
            (toLong cfg (((l0.val * 256 + l1.val) * 256 + l2.val) * 256 + l3.val)) rest)
        obtain ⟨hpm, hpn⟩ := text_isMid exp hpt
        have hcnt : (exh ++ exp).count .noIHDR ≤ 1 ∧
            (st.first = false → (exh ++ exp).count .noIHDR = 0) := by
          rw [List.count_append, List.count_eq_zero_of_not_mem hpn, hhc]
          constructor
          · split <;> simp
          · intro hf; simp [hf]
        have hmid : ∀ o ∈ exh ++ exp, o.isMid = true := by
          intro o ho
          rcases List.mem_append.mp ho with ho | ho
          · exact hhm o ho
          · exact hpm o ho
        have htd : (st.inp.drop 4).take 4 = [a, b, c, d] := by rw [h4]; rfl
        generalize payloadLoop cfg [a, b, c, d] (rest.length + 1) _ _ = p at hpo hps hpf hpi
        cases p with
        | next st2 =>
          simp only [Flow.state, Flow.code] at hpo hpf hpi
          simp only
          obtain ⟨ext, hto, htm, htn, htc, hts, htf, hti⟩ :=
            checkTrailer_shape cfg [a, b, c, d] st2
          refine ⟨exh ++ exp ++ ext,
            (if (checkTrailer cfg [a, b, c, d] st2).code = 1
              then [.crcError [a, b, c, d] (CRCCOMPL st2.crc) (getlong st2.inp).1] else []),
            ?_, ?_, ?_, ?_, ?_, ?_, ?_⟩
          · rw [hto, hpo, hh]
            simp only [List.append_assoc, zero_ne_one, if_false, List.append_nil]
          · intro o ho
            rcases List.mem_append.mp ho with ho | ho
            · exact hmid o ho
            · exact htm o ho
          · rw [List.count_append, List.count_eq_zero_of_not_mem htn]; exact hcnt.1
          · intro hf
            rw [List.count_append, List.count_eq_zero_of_not_mem htn]; exact hcnt.2 hf
          · rcases htc with h0 | h1
            · rw [if_neg (by rw [h0]; decide), if_neg (by rw [h0]; decide)]
            · rw [if_pos h1, if_pos h1]
              exact ⟨_, rfl, rfl, fun h => Out.noConfusion h⟩
          · intro _; rw [htf, hpf]; rfl
          · intro h0 _
            rw [hti h0, hpi, htd]
            simp [afterHeader, hi']
        | ret st2 =>
          simp only [Flow.state, Flow.code, if_true] at hpo
          refine ⟨exh ++ exp, [.eofChunkData [a, b, c, d]], ?_, hmid, hcnt.1, hcnt.2,
            ret_tail _ _ rfl (fun h => Out.noConfusion h), ret_code_ne_zero _ _,
            ret_code_ne_zero _ _⟩
          simp only [Flow.state]; rw [hpo, hh]; simp
        | nofuel st2 =>
          simp only [Flow.state, Flow.code] at hpo
          refine ⟨exh ++ exp, [], ?_, hmid, hcnt.1, hcnt.2,
            other_tail (.nofuel st2) (by simp [Flow.code]),
            nofuel_code_ne_zero _ _, nofuel_code_ne_zero _ _⟩
          simp only [Flow.state]; rw [hpo, hh]; simp
      · rw [chunkBody_bad_name cfg st l0 l1 l2 l3 a b c d rest hi' hname (by rw [h4]; rfl)]
        exact ⟨[], [.badName a b c d], by simp [Flow.state], by simp, by simp, by simp,
          ret_tail _ _ rfl (fun h => Out.noConfusion h), ret_code_ne_zero _ _,
          ret_code_ne_zero _ _⟩

theorem isMid_ne_ok (o : Out) (h : o.isMid = true) : o ≠ .ok := by
  intro h0; subst h0; exact absurd h (by decide)

theorem isFatal_ne_ok (o : Out) (h : o.isFatal = true) : o ≠ .ok := by
  intro h0; subst h0; exact absurd h (by decide)

theorem isFatal_isTerminal (o : Out) (h : o.isFatal = true) : o.isTerminal = true := by
  simp [Out.isTerminal, h]

theorem finish_eq (st : St) :
    finish st = .ret { st with out := st.out ++ [if st.iend_read then Out.ok else Out.noIEND] } := by
  unfold finish
  cases st.iend_read <;> rfl

/-- What the chunk loop adds to the output: lines that do not end the
validation, followed, exactly when `pngcheck` returns, by one line that ends
it. -/
theorem chunkLoop_shape (cfg : Cfg) (fuel : Nat) (st : St) :
    ∃ ex tl, (chunkLoop cfg fuel st).state.out = st.out ++ ex ++ tl
      ∧ (∀ o ∈ ex, o.isMid = true)
      ∧ ex.count .noIHDR ≤ 1
      ∧ (st.first = false → ex.count .noIHDR = 0)
      ∧ (if (chunkLoop cfg fuel st).code = 1
          then ∃ t, tl = [t] ∧ t.isTerminal = true ∧ t ≠ .eofLong
          else tl = [])
      ∧ (chunkLoop cfg fuel st).code ≠ 0 := by
  induction fuel generalizing st with
  | zero =>
    refine ⟨[], [], by simp [chunkLoop, Flow.state], by simp, by simp, by simp, ?_, ?_⟩
    · rw [if_neg (by simp [chunkLoop, Flow.code])]
    · simp [chunkLoop, Flow.code]
  | succ fuel ih =>
    by_cases hnil : st.inp = []
    · rw [chunkLoop_nil cfg fuel st hnil, finish_eq]
      refine ⟨[], [if st.iend_read then Out.ok else Out.noIEND], by simp [Flow.state], by simp,
        by simp, by simp, ?_, by simp [Flow.code]⟩
      have h : (Flow.ret { st with
          out := st.out ++ [if st.iend_read then Out.ok else Out.noIEND] }).code = 1 := rfl
      rw [if_pos h]
      refine ⟨_, rfl, ?_, ?_⟩
      · cases st.iend_read <;> rfl
      · cases st.iend_read <;> exact fun h => Out.noConfusion h
    · rw [chunkLoop_cons cfg fuel st hnil]
      obtain ⟨ex1, tl1, ho1, hm1, hc1, hf1, ht1, hn1, _⟩ := chunkBody_shape cfg st
      generalize chunkBody cfg st = b at ho1 ht1 hn1
      cases b with
      | next st1 =>
        simp only [Flow.state, Flow.code] at ho1 ht1 hn1
        rw [if_neg (by decide)] at ht1
        subst ht1
        obtain ⟨ex2, tl2, ho2, hm2, hc2, hf2, ht2, hn2⟩ := ih st1
        have hz := hf2 (hn1 trivial)
        refine ⟨ex1 ++ ex2, tl2, ?_, ?_, ?_, ?_, ht2, hn2⟩
        · rw [ho2, ho1]; simp
        · intro o ho
          rcases List.mem_append.mp ho with ho | ho
          · exact hm1 o ho
          · exact hm2 o ho
        · rw [List.count_append, hz]; exact hc1
        · intro hf; rw [List.count_append, hz, hf1 hf]
      | ret st1 =>
        simp only [Flow.state, Flow.code, if_true] at ho1 ht1
        obtain ⟨t, rfl, htf, htn⟩ := ht1
        refine ⟨ex1, [t], ho1, hm1, hc1, hf1, ?_, by simp [Flow.code]⟩
        have h : (Flow.ret st1).code = 1 := rfl
        rw [if_pos h]
        exact ⟨t, rfl, isFatal_isTerminal t htf, htn⟩
      | nofuel st1 =>
        simp only [Flow.state, Flow.code] at ho1 ht1
        rw [if_neg (by decide)] at ht1
        subst ht1
        exact ⟨ex1, [], ho1, hm1, hc1, hf1, by rw [if_neg (by simp [Flow.code])],
          by simp [Flow.code]⟩

theorem conversionAdvice_shape (m4 : List Byte) :
    (∀ o ∈ conversionAdvice m4, o.isAdvice = true) ∧ (conversionAdvice m4).length ≤ 1 := by
  unfold conversionAdvice
  repeat' split
  all_goals simp [Out.isAdvice]

theorem channelAdvice_shape (m0 : Byte) :
    (∀ o ∈ channelAdvice m0, o.isAdvice = true) ∧ (channelAdvice m0).length ≤ 1 := by
  unfold channelAdvice
  repeat' split
  all_goals simp [Out.isAdvice]

/-- The three ways `PNG_check_magic` can end. -/
theorem check_magic_cases (magic : List Byte) :
    PNG_check_magic magic = (OK, [])
    ∨ PNG_check_magic magic = (ERROR, [.notPng])
    ∨ ∃ post, PNG_check_magic magic = (ERROR, .corrupted :: post)
        ∧ (∀ o ∈ post, o.isAdvice = true) ∧ post.length ≤ 2 := by
  unfold PNG_check_magic
  split
  · right; left; rfl
  · split
    · right; right
      refine ⟨conversionAdvice (magic.drop 4) ++ channelAdvice (magic.headD 0), rfl, ?_, ?_⟩
      · intro o ho
        rcases List.mem_append.mp ho with ho | ho
        · exact (conversionAdvice_shape _).1 o ho
        · exact (channelAdvice_shape _).1 o ho
      · rw [List.length_append]
        have := (conversionAdvice_shape (magic.drop 4)).2
        have := (channelAdvice_shape (magic.headD 0)).2
        omega
    · left; rfl

theorem toRun_out (fl : Flow) : fl.toRun.out = fl.state.out := by
  cases fl <;> rfl

theorem toRun_rest (fl : Flow) : fl.toRun.rest = fl.state.inp := by
  cases fl <;> rfl

theorem toRun_status_returned (fl : Flow) (h : fl.toRun.status = .returned) (h0 : fl.code ≠ 0) :
    fl.code = 1 := by
  cases fl <;> simp [Flow.toRun, Flow.code] at h h0 ⊢

theorem isMid_info (ex : List Out) (hm : ∀ o ∈ ex, o.isMid = true) (he : Out.eofLong ∉ ex) :
    ∀ o ∈ ex, o.isInfo = true := by
  intro o ho
  have h := hm o ho
  simp only [Out.isMid, Bool.or_eq_true, decide_eq_true_eq] at h
  rcases h with h | h
  · exact h
  · subst h; exact absurd ho he

/-- The output of every run of `pngcheck` that returns: lines that do not end
the validation, one line that ends it, and, behind `PNG file is CORRUPTED.`
only, advisory lines. -/
theorem pngcheck_shape (cfg : Cfg) (file : List Byte)
    (hret : (pngcheck cfg file).status = .returned) :
    ∃ pre t post, (pngcheck cfg file).out = pre ++ t :: post
      ∧ (∀ o ∈ pre, o.isMid = true)
      ∧ pre.count .noIHDR ≤ 1
      ∧ t.isTerminal = true ∧ t ≠ .eofLong
      ∧ (∀ o ∈ post, o.isAdvice = true)
      ∧ (post ≠ [] → t = .corrupted)
      ∧ post.length ≤ 2 := by
  unfold pngcheck at hret ⊢
  by_cases hlen : file.length < 8
  · rw [if_pos hlen]
    exact ⟨[], .cannotRead, [], rfl, by simp, by simp, rfl, fun h => Out.noConfusion h,
      by simp, by simp, by simp⟩
  · rw [if_neg hlen] at hret ⊢
    rcases check_magic_cases (file.take 8) with h | h | ⟨post, h, hadv, hpl⟩
    · rw [h] at hret ⊢
      simp only at hret ⊢
      rw [if_neg (by simp [OK])] at hret ⊢
      obtain ⟨ex, tl, ho, hm, hc, _, ht, hn⟩ :=
        chunkLoop_shape cfg (file.length + 1) { St.init file with out := [] }
      have hcode := toRun_status_returned _ hret hn
      rw [if_pos hcode] at ht
      obtain ⟨t, rfl, htt, hte⟩ := ht
      refine ⟨ex, t, [], ?_, hm, hc, htt, hte, by simp, by simp, by simp⟩
      rw [toRun_out, ho]; simp
    · rw [h]
      simp only
      rw [if_pos (by simp [ERROR])]
      exact ⟨[], .notPng, [], rfl, by simp, by simp, rfl, fun h => Out.noConfusion h,
        by simp, by simp, by simp⟩
    · rw [h]
      simp only
      rw [if_pos (by simp [ERROR])]
      exact ⟨[], .corrupted, post, rfl, by simp, by simp, rfl, fun h => Out.noConfusion h,
        hadv, fun _ => rfl, hpl⟩

theorem chunkBody_iend (cfg : Cfg) (st : St) (hi : st.iend_read = true) :
    chunkBody cfg st = .ret { st with out := st.out ++ [.additionalData] } := by
  unfold chunkBody; rw [if_pos hi]

theorem consumed_nil (cfg : Cfg) (fuel : Nat) (st : St) (h : st.inp = []) :
    consumed cfg (fuel + 1) st = [] := by
  rw [consumed, h]

theorem consumed_cons (cfg : Cfg) (fuel : Nat) (st : St) (h : st.inp ≠ []) :
    consumed cfg (fuel + 1) st =
      match chunkBody cfg st with
      | .next st1 => (st.inp.drop 4).take 4 :: consumed cfg fuel st1
      | _ => [] := by
  rw [consumed]
  cases hi : st.inp with
  | nil => exact absurd hi h
  | cons _ _ => rfl

theorem chunkBody_no_ok (cfg : Cfg) (st : St) (h : Out.ok ∉ st.out) :
    Out.ok ∉ (chunkBody cfg st).state.out := by
  obtain ⟨ex, tl, ho, hm, _, _, ht, _, _⟩ := chunkBody_shape cfg st
  rw [ho]
  intro hmem
  rcases List.mem_append.mp hmem with hmem | hmem
  · rcases List.mem_append.mp hmem with hmem | hmem
    · exact h hmem
    · exact isMid_ne_ok _ (hm _ hmem) rfl
  · split at ht
    · obtain ⟨t, rfl, htf, _⟩ := ht
      simp at hmem
      exact isFatal_ne_ok t htf hmem.symm
    · subst ht; simp at hmem

/-- When the chunk loop ends with the success line, it has read the whole
file, and the chunks it consumed from a state without `iend_read` are chunks
other than IEND followed by one IEND chunk; from a state with `iend_read` it
consumed no chunk. -/
theorem chunkLoop_success (cfg : Cfg) (fuel : Nat) (st : St) (hno : Out.ok ∉ st.out)
    (hok : Out.ok ∈ (chunkLoop cfg fuel st).state.out) :
    (chunkLoop cfg fuel st).state.inp = []
    ∧ (chunkLoop cfg fuel st).code = 1
    ∧ (st.iend_read = true → consumed cfg fuel st = [])
    ∧ (st.iend_read = false → ∃ pre, consumed cfg fuel st = pre ++ [IEND] ∧ IEND ∉ pre) := by
  induction fuel generalizing st with
  | zero => exact absurd hok hno
  | succ fuel ih =>
    by_cases hnil : st.inp = []
    · rw [chunkLoop_nil cfg fuel st hnil, finish_eq] at hok ⊢
      simp only [Flow.state, List.mem_append, List.mem_singleton] at hok
      rcases hok with hok | hok
      · exact absurd hok hno
      · cases hi : st.iend_read with
        | false => rw [hi] at hok; simp at hok
        | true =>
          exact ⟨hnil, rfl, fun _ => consumed_nil cfg fuel st hnil,
            fun h => absurd h (by simp)⟩
    · rw [chunkLoop_cons cfg fuel st hnil] at hok ⊢
      rw [consumed_cons cfg fuel st hnil]
      have hb := chunkBody_no_ok cfg st hno
      obtain ⟨_, _, _, _, _, _, _, _, hiend⟩ := chunkBody_shape cfg st
      by_cases hi : st.iend_read = true
      · rw [chunkBody_iend cfg st hi] at hok hb
        exact absurd hok hb
      · have hi' : st.iend_read = false := by simpa using hi
        generalize chunkBody cfg st = b at hok hb hiend ⊢
        cases b with
        | next st1 =>
          simp only [Flow.state, Flow.code] at hb hiend
          simp only at hok ⊢
          obtain ⟨h1, h2, h3, h4⟩ := ih st1 hb hok
          refine ⟨h1, h2, fun h => absurd h hi, fun _ => ?_⟩
          have hiff := hiend trivial hi'
          cases h5 : st1.iend_read with
          | true =>
            rw [h3 h5]
            exact ⟨[], by rw [hiff.mp h5]; rfl, by simp⟩
          | false =>
            obtain ⟨pre, hp, hn⟩ := h4 h5
            rw [hp]
            refine ⟨(st.inp.drop 4).take 4 :: pre, rfl, ?_⟩
            intro hm
            rcases List.mem_cons.mp hm with hm | hm
            · have := hiff.mpr hm.symm
              rw [h5] at this
              exact Bool.false_ne_true this
            · exact hn hm
        | ret st1 => exact absurd hok hb
        | nofuel st1 => exact absurd hok hb

/-! ## Runs in two modes -/

theorem filter_snoc_eq (q : Out → Bool) (x y : List Out) (e e' : List Out)
    (h : x.filter q = y.filter q) (he : e.filter q = e'.filter q) :
    (x ++ e).filter q = (y ++ e').filter q := by
  rw [List.filter_append, List.filter_append, h, he]

theorem dumps_congr (cfg cfg' : Cfg) (chunkid : List Byte) (h : cfg.printtext = cfg'.printtext) :
    dumps cfg chunkid = dumps cfg' chunkid := by
  unfold dumps; rw [h]

theorem filter_dump (q : Out → Bool) (cfg cfg' : Cfg) (chunkid : List Byte) (e : Out)
    (ht : cfg.printtext = cfg'.printtext ∨ q e = false) :
    (if dumps cfg chunkid then [e] else []).filter q
      = (if dumps cfg' chunkid then [e] else []).filter q := by
  rcases ht with h | h
  · rw [dumps_congr cfg cfg' chunkid h]
  · cases dumps cfg chunkid <;> cases dumps cfg' chunkid <;> simp [h]

theorem readBlock_sim (q : Out → Bool) (cfg cfg' : Cfg) (chunkid : List Byte) (a b : St) (n : Nat)
    (ht : cfg.printtext = cfg'.printtext ∨ ((∀ x, q (.text x) = false) ∧ q .newline = false))
    (h : St.sim q a b) : St.sim q (readBlock cfg chunkid a n) (readBlock cfg' chunkid b n) := by
  obtain ⟨h1, h2, h3, h4, h5, h6⟩ := h
  refine ⟨by simp [readBlock, h1], h2, h3, by simp [readBlock, h1, h4], by simp [readBlock, h5],
    ?_⟩
  simp only [readBlock]
  rw [h1]
  exact filter_snoc_eq q _ _ _ _ h6
    (filter_dump q cfg cfg' chunkid _ (ht.imp id (fun h => h.1 _)))

/-- The payload loop run from two states that agree, in two modes, ends the
same way in states that agree. -/
theorem payloadLoop_sim (q : Out → Bool) (cfg cfg' : Cfg) (chunkid : List Byte) (fuel : Nat)
    (s : Int) (a b : St) (hh : cfg.hugeRead = cfg'.hugeRead)
    (ht : cfg.printtext = cfg'.printtext ∨ ((∀ x, q (.text x) = false) ∧ q .newline = false))
    (h : St.sim q a b) :
    Flow.sim q (payloadLoop cfg chunkid fuel s a) (payloadLoop cfg' chunkid fuel s b) := by
  induction fuel generalizing s a b with
  | zero => exact ⟨rfl, h⟩
  | succ fuel ih =>
    rw [payloadLoop_succ, payloadLoop_succ]
    have h1 := h.1
    by_cases hs : s > 0
    · rw [if_pos hs, if_pos hs]
      by_cases hneg : toreadOf s < 0
      · rw [if_pos hneg, if_pos hneg, h1, hh]
        exact ⟨rfl, rfl, h.2.1, h.2.2.1, h.2.2.2.1, h.2.2.2.2.1,
          filter_snoc_eq q _ _ _ _ h.2.2.2.2.2 rfl⟩
      · rw [if_neg hneg, if_neg hneg, h1]
        by_cases hshort : b.inp.length < (toreadOf s).toNat
        · rw [if_pos hshort, if_pos hshort]
          exact ⟨rfl, rfl, h.2.1, h.2.2.1, h.2.2.2.1, h.2.2.2.2.1,
            filter_snoc_eq q _ _ _ _ h.2.2.2.2.2 rfl⟩
        · rw [if_neg hshort, if_neg hshort]
          exact ih _ _ _ (readBlock_sim q cfg cfg' chunkid a b _ ht h)
    · rw [if_neg hs, if_neg hs]
      exact ⟨rfl, h⟩

theorem checkTrailer_sim (q : Out → Bool) (cfg cfg' : Cfg) (chunkid : List Byte) (a b : St)
    (ht : cfg.printtext = cfg'.printtext ∨ ((∀ x, q (.text x) = false) ∧ q .newline = false))
    (h : St.sim q a b) :
    Flow.sim q (checkTrailer cfg chunkid a) (checkTrailer cfg' chunkid b) := by
  obtain ⟨h1, h2, h3, h4, h5, h6⟩ := h
  unfold checkTrailer
  rw [h1, h4]
  have hnl := filter_dump q cfg cfg' chunkid .newline (ht.imp id (fun h => h.2))
  by_cases hc : (getlong b.inp).1 ≠ CRCCOMPL b.crc
  · rw [if_pos hc, if_pos hc]
    refine ⟨rfl, rfl, h2, h3, rfl, h5, ?_⟩
    simp only [Flow.state]
    exact filter_snoc_eq q _ _ _ _ (filter_snoc_eq q _ _ _ _ (filter_snoc_eq q _ _ _ _ h6 hnl) rfl)
      rfl
  · rw [if_neg hc, if_neg hc]
    refine ⟨rfl, rfl, h2, ?_, rfl, h5, ?_⟩
    · simp only [Flow.state]; rw [h3]
    · simp only [Flow.state]
      exact filter_snoc_eq q _ _ _ _ (filter_snoc_eq q _ _ _ _ h6 hnl) rfl

theorem afterHeader_sim (q : Out → Bool) (cfg cfg' : Cfg) (chunkid : List Byte) (s : Int)
    (inp2 : List Byte) (a b : St)
    (hv : cfg.verbose = cfg'.verbose ∨ ∀ i o l, q (.chunkInfo i o l) = false)
    (hf : a.first = b.first ∨ q .noIHDR = false)
    (h : St.sim q a b) :
    St.sim q (afterHeader cfg a chunkid s inp2) (afterHeader cfg' b chunkid s inp2) := by
  obtain ⟨h1, h2, h3, h4, h5, h6⟩ := h
  refine ⟨rfl, h2, h3, rfl, by simp [afterHeader, h5], ?_⟩
  simp only [afterHeader]
  rw [h2]
  refine filter_snoc_eq q _ _ _ _ (filter_snoc_eq q _ _ _ _ h6 ?_) ?_
  · rcases hv with hv | hv
    · rw [hv]
    · cases cfg.verbose <;> cases cfg'.verbose <;> simp [hv]
  · rcases hf with hf | hf
    · rw [hf]
    · cases a.first <;> cases b.first <;> by_cases hh : chunkid = IHDR <;> simp [hf, hh]

theorem toLong_congr (cfg cfg' : Cfg) (v : Nat) (h : cfg.long64 = cfg'.long64) :
    toLong cfg v = toLong cfg' v := by
  unfold toLong; rw [h]

/-- The loop body run from two states that agree, in two modes, ends the same
way in states that agree. -/
theorem chunkBody_sim (q : Out → Bool) (cfg cfg' : Cfg) (a b : St)
    (hl : cfg.long64 = cfg'.long64) (hh : cfg.hugeRead = cfg'.hugeRead)
    (hv : cfg.verbose = cfg'.verbose ∨ ∀ i o l, q (.chunkInfo i o l) = false)
    (ht : cfg.printtext = cfg'.printtext ∨ ((∀ x, q (.text x) = false) ∧ q .newline = false))
    (hf : a.first = b.first ∨ q .noIHDR = false)
    (h : St.sim q a b) :
    Flow.sim q (chunkBody cfg a) (chunkBody cfg' b) := by
  have h1 := h.1
  have h3 := h.2.2.1
  by_cases hi : b.iend_read = true
  · rw [chunkBody_iend cfg a (h3.trans hi), chunkBody_iend cfg' b hi]
    exact ⟨rfl, h.1, h.2.1, h.2.2.1, h.2.2.2.1, h.2.2.2.2.1,
      filter_snoc_eq q _ _ _ _ h.2.2.2.2.2 rfl⟩
  · have hib : b.iend_read = false := by simpa using hi
    have hia : a.iend_read = false := h3.trans hib
    by_cases hlen : b.inp.length < 8
    · rw [chunkBody_short cfg a hia (by rw [h1]; exact hlen), chunkBody_short cfg' b hib hlen]
      refine ⟨rfl, rfl, h.2.1, h.2.2.1, h.2.2.2.1, h.2.2.2.2.1, ?_⟩
      simp only [Flow.state]
      rw [h1]
      exact filter_snoc_eq q _ _ _ _ (filter_snoc_eq q _ _ _ _ h.2.2.2.2.2 rfl) rfl
    · obtain ⟨l0, l1, l2, l3, t4, h4⟩ := four_le_length b.inp (by omega)
      obtain ⟨x0, x1, x2, x3, rest, h8⟩ := four_le_length t4 (by
        rw [h4] at hlen; simp at hlen; omega)
      subst h8
      by_cases hname : ∀ x ∈ [x0, x1, x2, x3], IsAsciiLetter x
      · rw [chunkBody_valid cfg a l0 l1 l2 l3 x0 x1 x2 x3 rest hia hname (h1.trans h4),
          chunkBody_valid cfg' b l0 l1 l2 l3 x0 x1 x2 x3 rest hib hname h4]
        rw [toLong_congr cfg cfg' _ hl]
        have hp := payloadLoop_sim q cfg cfg' [x0, x1, x2, x3] (rest.length + 1)
          (toLong cfg' (((l0.val * 256 + l1.val) * 256 + l2.val) * 256 + l3.val))
          _ _ hh ht
          (afterHeader_sim q cfg cfg' [x0, x1, x2, x3]
            (toLong cfg' (((l0.val * 256 + l1.val) * 256 + l2.val) * 256 + l3.val)) rest a b
            hv hf h)
        generalize payloadLoop cfg [x0, x1, x2, x3] (rest.length + 1) _ _ = pa at hp
        generalize payloadLoop cfg' [x0, x1, x2, x3] (rest.length + 1) _ _ = pb at hp
        obtain ⟨hcode, hsim⟩ := hp
        cases pa <;> cases pb <;> simp only [Flow.code] at hcode <;> try omega
        · exact checkTrailer_sim q cfg cfg' _ _ _ ht hsim
        · exact ⟨rfl, hsim⟩
        · exact ⟨rfl, hsim⟩
      · rw [chunkBody_bad_name cfg a l0 l1 l2 l3 x0 x1 x2 x3 rest hia hname
            (by rw [h1, h4]; rfl),
          chunkBody_bad_name cfg' b l0 l1 l2 l3 x0 x1 x2 x3 rest hib hname (by rw [h4]; rfl)]
        exact ⟨rfl, rfl, h.2.1, h.2.2.1, h.2.2.2.1, h.2.2.2.2.1,
          filter_snoc_eq q _ _ _ _ h.2.2.2.2.2 rfl⟩

/-- The chunk loop run from two states that agree, in two modes, ends the
same way in states that agree. -/
theorem chunkLoop_sim (q : Out → Bool) (cfg cfg' : Cfg) (fuel : Nat) (a b : St)
    (hl : cfg.long64 = cfg'.long64) (hh : cfg.hugeRead = cfg'.hugeRead)
    (hv : cfg.verbose = cfg'.verbose ∨ ∀ i o l, q (.chunkInfo i o l) = false)
    (ht : cfg.printtext = cfg'.printtext ∨ ((∀ x, q (.text x) = false) ∧ q .newline = false))
    (hf : a.first = b.first ∨ q .noIHDR = false)
    (h : St.sim q a b) :
    Flow.sim q (chunkLoop cfg fuel a) (chunkLoop cfg' fuel b) := by
  induction fuel generalizing a b with
  | zero => exact ⟨rfl, h⟩
  | succ fuel ih =>
    have h1 := h.1
    by_cases hnil : b.inp = []
    · rw [chunkLoop_nil cfg fuel a (h1.trans hnil), chunkLoop_nil cfg' fuel b hnil, finish_eq,
        finish_eq]
      refine ⟨rfl, h.1, h.2.1, h.2.2.1, h.2.2.2.1, h.2.2.2.2.1, ?_⟩
      simp only [Flow.state]
      rw [h.2.2.1]
      exact filter_snoc_eq q _ _ _ _ h.2.2.2.2.2 rfl
    · rw [chunkLoop_cons cfg fuel a (by rw [h1]; exact hnil), chunkLoop_cons cfg' fuel b hnil]
      have hb := chunkBody_sim q cfg cfg' a b hl hh hv ht hf h
      obtain ⟨_, _, _, _, _, _, _, hfa, _⟩ := chunkBody_shape cfg a
      obtain ⟨_, _, _, _, _, _, _, hfb, _⟩ := chunkBody_shape cfg' b
      generalize chunkBody cfg a = pa at hb hfa
      generalize chunkBody cfg' b = pb at hb hfb
      obtain ⟨hcode, hsim⟩ := hb
      cases pa <;> cases pb <;> simp only [Flow.code] at hcode <;> try omega
      · simp only [Flow.state, Flow.code] at hfa hfb hsim
        exact ih _ _ (Or.inl ((hfa trivial).trans (hfb trivial).symm)) hsim
      · exact ⟨rfl, hsim⟩
      · exact ⟨rfl, hsim⟩

/-! ## A declared length of `2^31` or more -/

/-- The loop body on a chunk with a valid tag and a declared length of `2^31`
or more, where `long` has 32 bits: `s` is negative, the payload loop is
skipped, and the trailer is read from the first payload bytes. -/
theorem chunkBody_skipped (cfg : Cfg) (st : St) (l0 l1 l2 l3 a b c d : Byte) (rest : List Byte)
    (hi : st.iend_read = false) (hname : ∀ x ∈ [a, b, c, d], IsAsciiLetter x)
    (hinp : st.inp = l0 :: l1 :: l2 :: l3 :: a :: b :: c :: d :: rest)
    (hl : cfg.long64 = false) (hbig : 128 ≤ l0.val) :
    chunkBody cfg st =
      checkTrailer cfg [a, b, c, d] (afterHeader cfg st [a, b, c, d]
        (toLong cfg (((l0.val * 256 + l1.val) * 256 + l2.val) * 256 + l3.val)) rest) := by
  have h0 := l0.isLt
  have h1 := l1.isLt
  have h2 := l2.isLt
  have h3 := l3.isLt
  rw [chunkBody_valid cfg st l0 l1 l2 l3 a b c d rest hi hname hinp, payloadLoop_succ]
  have hs : ¬ toLong cfg (((l0.val * 256 + l1.val) * 256 + l2.val) * 256 + l3.val) > 0 := by
    unfold toLong toInt32
    simp only [hl, Bool.false_eq_true, if_false]
    have hm : ((((l0.val * 256 + l1.val) * 256 + l2.val) * 256 + l3.val : Nat) : Int)
        % 4294967296
        = ((((l0.val * 256 + l1.val) * 256 + l2.val) * 256 + l3.val : Nat) : Int) := by omega
    simp only [hm]
    rw [if_neg (by omega)]
    omega
  rw [if_neg hs]


/-- The loop body on a chunk with a valid tag and a declared length of `2^31`
or more, where `long` has 64 bits: `toread` is negative, `fread` is asked for
more than the file holds and comes back short, and the body returns with the
end-of-file line, whatever is left of the file. -/
theorem chunkBody_negative (cfg : Cfg) (st : St) (l0 l1 l2 l3 a b c d : Byte) (rest : List Byte)
    (hi : st.iend_read = false) (hname : ∀ x ∈ [a, b, c, d], IsAsciiLetter x)
    (hinp : st.inp = l0 :: l1 :: l2 :: l3 :: a :: b :: c :: d :: rest)
    (hl : cfg.long64 = true) (hbig : 128 ≤ l0.val) :
    chunkBody cfg st =
      .ret { afterHeader cfg st [a, b, c, d]
          ((((l0.val * 256 + l1.val) * 256 + l2.val) * 256 + l3.val : Nat) : Int) rest with
        inp := rest.drop cfg.hugeRead
        out := (afterHeader cfg st [a, b, c, d]
          ((((l0.val * 256 + l1.val) * 256 + l2.val) * 256 + l3.val : Nat) : Int) rest).out
            ++ [.eofChunkData [a, b, c, d]] } := by
  have h0 := l0.isLt
  have h1 := l1.isLt
  have h2 := l2.isLt
  have h3 := l3.isLt
  rw [chunkBody_valid cfg st l0 l1 l2 l3 a b c d rest hi hname hinp]
  have hto : toLong cfg (((l0.val * 256 + l1.val) * 256 + l2.val) * 256 + l3.val)
      = ((((l0.val * 256 + l1.val) * 256 + l2.val) * 256 + l3.val : Nat) : Int) := by
    simp [toLong, hl]
  rw [hto, payloadLoop_succ]
  have hs : ((((l0.val * 256 + l1.val) * 256 + l2.val) * 256 + l3.val : Nat) : Int) > 0 := by
    omega
  have hneg : toreadOf ((((l0.val * 256 + l1.val) * 256 + l2.val) * 256 + l3.val : Nat) : Int)
      < 0 := by
    have hb : (0 : Int) ≤ (BS : Int) := Int.ofNat_nonneg _
    rcases toInt32_cases _ hs (by omega) with ⟨h, _⟩ | ⟨_, h⟩
    · omega
    · unfold toreadOf
      rw [if_neg (by omega)]
      exact h
  rw [if_pos hs, if_pos hneg]
  rfl

/-- A file whose first chunk has a valid tag and declares a length of `2^31` or
more, where `long` has 64 bits: the run writes the lines of the chunk header
and the end-of-file line, and leaves unread what the short `fread` did not
deliver. -/
theorem pngcheck_huge64 (cfg : Cfg) (l0 l1 l2 l3 a b c d : Byte) (rest : List Byte)
    (hname : ∀ x ∈ [a, b, c, d], IsAsciiLetter x)
    (hl : cfg.long64 = true) (hbig : 128 ≤ l0.val) :
    (pngcheck cfg (signature ++ l0 :: l1 :: l2 :: l3 :: a :: b :: c :: d :: rest)).out
      = (if cfg.verbose then
            [Out.chunkInfo [a, b, c, d] 12
              ((((l0.val * 256 + l1.val) * 256 + l2.val) * 256 + l3.val : Nat) : Int)]
          else [])
        ++ (if [a, b, c, d] ≠ IHDR then [.noIHDR] else [])
        ++ [.eofChunkData [a, b, c, d]]
    ∧ (pngcheck cfg (signature ++ l0 :: l1 :: l2 :: l3 :: a :: b :: c :: d :: rest)).rest
      = rest.drop cfg.hugeRead := by
  have hne : (St.init (signature ++ l0 :: l1 :: l2 :: l3 :: a :: b :: c :: d :: rest)).inp
      ≠ [] := by
    rw [init_signature]; simp
  have hinp : (St.init (signature ++ l0 :: l1 :: l2 :: l3 :: a :: b :: c :: d :: rest)).inp
      = l0 :: l1 :: l2 :: l3 :: a :: b :: c :: d :: rest := by
    rw [init_signature]
  have hiend : (St.init (signature ++ l0 :: l1 :: l2 :: l3 :: a :: b :: c :: d :: rest)).iend_read
      = false := by
    rw [init_signature]
  rw [pngcheck_signature, chunkLoop_cons _ _ _ hne,
    chunkBody_negative cfg _ l0 l1 l2 l3 a b c d rest hiend hname hinp hl hbig]
  refine ⟨?_, rfl⟩
  simp only [Flow.toRun, afterHeader, init_signature, List.nil_append, Bool.true_and,
    decide_eq_true_eq, List.length_cons]
  have hoff : (((rest.length + 1 + 1 + 1 + 1 + 1 + 1 + 1 + 1 + 8 - rest.length : Nat) : Int) - 4)
      = 12 := by omega
  rw [hoff]

set_option maxRecDepth 100000 in
/-- C17, evaluated at failing inputs.  For the declared length `0x80000000`
the value of `toread` is `-2147483648`.  Where `long` has 64 bits the payload
loop makes one request, of this size, which is not between 1 and `BS`; on the
file `wHuge` the run ends with the end-of-file line and, with a C library that
delivers 4080 bytes, leaves 27921 bytes unread.  Where `long` has 32 bits the
payload loop makes no request at all; on the file `wSkip`, whose chunk declares
`0x80000000` bytes of payload and has none, the four bytes behind the tag are
taken as the trailer and the run ends with the success line. -/
theorem huge_length_requests :
    toreadOf 2147483648 = -2147483648
    ∧ requests 1 (toLong wCfg 2147483648) = [-2147483648]
    ∧ (pngcheck wCfg wHuge).out = [.noIHDR, .eofChunkData [73, 68, 65, 84]]
    ∧ (pngcheck wCfg wHuge).rest.length = 27921
    ∧ requests 5 (toLong wCfg32 2147483648) = []
    ∧ (pngcheck wCfg32 wSkip).out = [.noIHDR, .ok] := by
  have hname : ∀ x ∈ [(73 : Byte), 68, 65, 84], IsAsciiLetter x := by decide
  have hfile : wHuge
      = signature ++ 0x80 :: 0 :: 0 :: 0 :: 73 :: 68 :: 65 :: 84 :: List.replicate 32001 0 := by
    simp only [wHuge, List.append_assoc, List.cons_append, List.nil_append]
  have hrun := pngcheck_huge64 wCfg 0x80 0 0 0 73 68 65 84 (List.replicate 32001 0) hname rfl
    (by decide)
  rw [← hfile] at hrun
  refine ⟨by decide, by decide, by rw [hrun.1]; rfl, ?_, by decide, by decide⟩
  rw [hrun.2, List.length_drop, List.length_replicate]
  rfl

/-! ## The signature check on a header with the DOS->unix fingerprint -/

/-- C11. For every 8-byte header whose bytes 1-3 are "PNG" and whose bytes 4-5
are `0A 1A`, whatever bytes 0, 6 and 7 are, `PNG_check_magic` returns `ERROR`
and emits the "PNG file is CORRUPTED." line, then the DOS->unix advisory, then
at most a line about the transfer channel; none of the other five conversion
advisories is emitted.  With byte 0 = `0A` and byte 6 = `0A` the lines are the
corrupted line, the DOS->unix advisory and the text-mode line. -/
theorem dos_unix_advisory (cfg : Cfg) (m0 m6 m7 : Byte) :
    PNG_check_magic [m0, 0x50, 0x4E, 0x47, 0x0A, 0x1A, m6, m7]
      = (ERROR, [.corrupted, .dosUnix] ++ channelAdvice m0)
    ∧ ERROR ≠ OK
    ∧ (∀ o ∈ channelAdvice m0, o = .sevenBit ∨ o = .textMode)
    ∧ (∀ o ∈ (PNG_check_magic [m0, 0x50, 0x4E, 0x47, 0x0A, 0x1A, m6, m7]).2,
        o ≠ .dosMac ∧ o ≠ .unixMac ∧ o ≠ .macUnix ∧ o ≠ .unixDos ∧ o ≠ .eolConv)
    ∧ Out.render cfg .corrupted = "PNG file is CORRUPTED.\n"
    ∧ Out.render cfg .dosUnix = " It seems to have suffered DOS->unix conversion\n"
    ∧ PNG_check_magic [0x0A, 0x50, 0x4E, 0x47, 0x0A, 0x1A, 0x0A, m7]
      = (ERROR, [.corrupted, .dosUnix, .textMode]) := by
  have hm : ∀ n0 n6 : Byte, PNG_check_magic [n0, 0x50, 0x4E, 0x47, 0x0A, 0x1A, n6, m7]
      = (ERROR, [.corrupted, .dosUnix] ++ channelAdvice n0) := by
    intro n0 n6
    have e1 : strncmp [0x50, 0x4E, 0x47, 0x0A, 0x1A, n6, m7] [0x50, 0x4E, 0x47, 0] 3 = 0 := by
      simp [strncmp]
    have e2 : strncmp [0x0A, 0x1A, n6, m7] [13, 10, 26, 10, 0] 4 ≠ 0 := by
      simp only [strncmp, List.headD_cons, ne_eq]
      rw [if_pos (by decide)]
      decide
    have e3 : strncmp [0x0A, 0x1A, n6, m7] [10, 26, 0] 2 = 0 := by
      simp [strncmp]
    simp only [PNG_check_magic, List.drop_succ_cons, List.drop_zero, List.headD_cons, e1, e2,
      conversionAdvice, e3]
    simp [e2]
  have hc : ∀ o ∈ channelAdvice m0, o = .sevenBit ∨ o = .textMode := by
    intro o ho
    unfold channelAdvice at ho
    split at ho
    · simp at ho; exact Or.inl ho
    · split at ho
      · simp at ho; exact Or.inr ho
      · simp at ho
  refine ⟨hm m0 m6, by decide, hc, ?_, rfl, rfl, ?_⟩
  · rw [hm m0 m6]
    intro o ho
    simp only [List.cons_append, List.nil_append, List.mem_cons] at ho
    rcases ho with rfl | rfl | ho
    · simp
    · simp
    · rcases hc o ho with rfl | rfl <;> simp
  · rw [hm 0x0A 0x0A]
    rfl

/-! ## The four-byte read -/

/-- C12. On a source with the four bytes `b0 b1 b2 b3` at the cursor `getlong`
returns `b0*2^24 + b1*2^16 + b2*2^8 + b3`, a value below `2^32`, emits nothing
and leaves the cursor behind these four bytes; on a source `inp` with fewer
than four bytes left it emits the line "EOF while reading 4 bytes value",
returns 0 and leaves the source at its end. -/
theorem getlong_big_endian (cfg : Cfg) (b0 b1 b2 b3 : Byte) (t inp : List Byte)
    (hshort : inp.length < 4) :
    getlong (b0 :: b1 :: b2 :: b3 :: t)
      = (b0.val * 2 ^ 24 + b1.val * 2 ^ 16 + b2.val * 2 ^ 8 + b3.val, t, [])
    ∧ b0.val * 2 ^ 24 + b1.val * 2 ^ 16 + b2.val * 2 ^ 8 + b3.val < 2 ^ 32
    ∧ (b0 :: b1 :: b2 :: b3 :: t).length = t.length + 4
    ∧ getlong inp = (0, [], [.eofLong])
    ∧ Out.render cfg .eofLong = cfg.fname ++ ": EOF while reading 4 bytes value\n" := by
  have h0 := b0.isLt
  have h1 := b1.isLt
  have h2 := b2.isLt
  have h3 := b3.isLt
  refine ⟨?_, by omega, rfl, getlong_short inp hshort, rfl⟩
  rw [getlong_four]
  simp only [Prod.mk.injEq, and_true]
  omega

/-- Witness for C12: the length field `00 00 00 0D` in front of one more byte,
and a source of two bytes. -/
theorem getlong_big_endian_witness :
    [(0x12 : Byte), 0x34].length < 4
    ∧ getlong [0x00, 0x00, 0x00, 0x0D, 0x49] = (13, [0x49], [])
    ∧ getlong [0x12, 0x34] = (0, [], [.eofLong]) :=
  ⟨by decide,
    (getlong_big_endian wCfg 0 0 0 0x0D [0x49] [0x12, 0x34] (by decide)).1,
    (getlong_big_endian wCfg 0 0 0 0x0D [0x49] [0x12, 0x34] (by decide)).2.2.2.1⟩

/-! ## The width of the checksum -/

theorem make_crc_table_lt : ∀ x ∈ make_crc_table, x < 4294967296 := by
  intro x hx
  unfold make_crc_table at hx
  obtain ⟨n, hn, rfl⟩ := List.mem_map.mp hx
  rw [crcBits_eight]
  have : n < 256 := List.mem_range.mp hn
  exact refReduce8_lt n (by omega)

theorem readBlock_crc_lt (cfg : Cfg) (chunkid : List Byte) (st : St) (n : Nat)
    (hc : st.crc < 4294967296) : (readBlock cfg chunkid st n).crc < 4294967296 :=
  update_crc_lt _ _ hc

theorem payloadLoop_crc_lt (cfg : Cfg) (chunkid : List Byte) (fuel : Nat) (s : Int) (st : St)
    (hc : st.crc < 4294967296) :
    (payloadLoop cfg chunkid fuel s st).state.crc < 4294967296 := by
  induction fuel generalizing s st with
  | zero => rw [payloadLoop_zero]; exact hc
  | succ fuel ih =>
    rw [payloadLoop_succ]
    by_cases h0 : s > 0
    · rw [if_pos h0]
      by_cases h1 : toreadOf s < 0
      · rw [if_pos h1]; exact hc
      · rw [if_neg h1]
        by_cases h3 : st.inp.length < (toreadOf s).toNat
        · rw [if_pos h3]; exact hc
        · rw [if_neg h3]
          exact ih _ _ (readBlock_crc_lt cfg chunkid st _ hc)
    · rw [if_neg h0]; exact hc

/-- C20. Every entry of the table built by `make_crc_table` is below `2^32`,
`CRCINIT` is `0xFFFFFFFF`, and for every accumulator `c` below `2^32` and all
bytes `bs` both `update_crc c bs` and its complement `CRCCOMPL` are below
`2^32`.  In `pngcheck` the two sides of the trailer comparison are below
`2^32`: the complement of the checksum the payload loop leaves behind a chunk
header, whatever the tag, the length and the input, and the value `getlong`
returns. -/
theorem checksum_within_32_bits (cfg : Cfg) (c : Nat) (bs chunkid inp inp2 : List Byte)
    (fuel : Nat) (s : Int) (st : St) (hc : c < 2 ^ 32) :
    (∀ x ∈ make_crc_table, x < 2 ^ 32)
    ∧ make_crc_table.length = 256
    ∧ CRCINIT = 0xFFFFFFFF
    ∧ update_crc c bs < 2 ^ 32
    ∧ CRCCOMPL (update_crc c bs) < 2 ^ 32
    ∧ CRCCOMPL (payloadLoop cfg chunkid fuel s (afterHeader cfg st chunkid s inp2)).state.crc
        < 2 ^ 32
    ∧ (getlong inp).1 < 2 ^ 32 := by
  have h1 := update_crc_lt c bs hc
  have h2 : (payloadLoop cfg chunkid fuel s (afterHeader cfg st chunkid s inp2)).state.crc
      < 4294967296 :=
    payloadLoop_crc_lt cfg chunkid fuel s _ (update_crc_lt _ _ CRCINIT_lt)
  refine ⟨make_crc_table_lt, by simp [make_crc_table], by decide, h1, ?_, ?_,
    (getlong_facts inp).1⟩
  · exact Nat.xor_lt_two_pow h1 (by norm_num)
  · exact Nat.xor_lt_two_pow h2 (by norm_num)

set_option maxRecDepth 100000 in
/-- Witness for C20: the checksum of the tag "IEND" from the initial
accumulator. -/
theorem checksum_within_32_bits_witness :
    (0xFFFFFFFF : Nat) < 2 ^ 32
    ∧ update_crc 0xFFFFFFFF IEND = 0x51BD9F7D
    ∧ CRCCOMPL (update_crc 0xFFFFFFFF IEND) = 0xAE426082
    ∧ CRCCOMPL (update_crc 0xFFFFFFFF IEND) < 2 ^ 32 :=
  ⟨by decide, by decide, by decide,
    (checksum_within_32_bits wCfg 0xFFFFFFFF IEND IEND [] [] 1 0 wSt (by decide)).2.2.2.2.1⟩

/-! ## The lines of a run -/

theorem isInfo_not_terminal (o : Out) (h : o.isInfo = true) : o.isTerminal = false := by
  cases o <;> first | rfl | exact absurd h Bool.false_ne_true

theorem isAdvice_not_terminal (o : Out) (h : o.isAdvice = true) : o.isTerminal = false := by
  cases o <;> first | rfl | exact absurd h Bool.false_ne_true

theorem filter_none (q : Out → Bool) (l : List Out) (h : ∀ o ∈ l, q o = false) :
    l.filter q = [] := by
  rw [List.filter_eq_nil_iff]
  intro o ho
  rw [h o ho]
  exact Bool.false_ne_true

set_option maxRecDepth 100000 in
/-- C13, evaluated at failing inputs.  The signature followed by two bytes:
`getlong` writes the fatal line "EOF while reading 4 bytes value", returns 0,
and `pngcheck` goes on to the tag read, which writes the second fatal line "EOF
while reading chunk type".  The signature and an IHDR chunk without its last
trailer byte: the same line of `getlong` is followed by the fatal line of the
checksum comparison.  The signature, an IHDR chunk and an IEND chunk with the
trailer `00 00 00 00` cut off behind its second trailer byte: the same line is
followed by the success line. -/
theorem terminal_line_not_unique :
    (pngcheck wCfg (signature ++ [0, 0])).out = [.eofLong, .eofChunkType]
    ∧ (pngcheck wCfg (signature ++ wIHDR.encode.dropLast)).out
      = [.eofLong, .crcError IHDR 0x3A7E9B55 0]
    ∧ (pngcheck wCfg (signature ++ wIHDR.encode ++ (zIEND.encode).take 14)).out
      = [.eofLong, .ok]
    ∧ Out.isFatal .eofLong = true ∧ Out.isFatal .eofChunkType = true
    ∧ Out.isFatal (.crcError IHDR 0x3A7E9B55 0) = true
    ∧ Out.render wCfg .eofLong = "a.png: EOF while reading 4 bytes value\n" := by
  decide

/-- The lines of every run on which no four-byte read meets the end of the
input: first lines that are verbose chunk lines, text-dump output or the IHDR
warning, the warning at most once; then one line that states the outcome, the
success line or a fatal message, the only such line of the run; and behind it
at most two advisory lines about the kind of corruption, which appear only
behind "PNG file is CORRUPTED.". -/
theorem one_terminal_line (cfg : Cfg) (file : List Byte)
    (he : Out.eofLong ∉ (pngcheck cfg file).out) :
    ∃ pre t post, (pngcheck cfg file).out = pre ++ t :: post
      ∧ (∀ o ∈ pre, o.isInfo = true)
      ∧ pre.count .noIHDR ≤ 1
      ∧ t.isTerminal = true
      ∧ (pngcheck cfg file).out.filter Out.isTerminal = [t]
      ∧ (∀ o ∈ post, o.isAdvice = true)
      ∧ (post ≠ [] → t = .corrupted)
      ∧ post.length ≤ 2 := by
  obtain ⟨pre, t, post, hout, hpre, hcnt, ht, _, hpost, hcor, hlen⟩ :=
    pngcheck_shape cfg file (pngcheck_returns cfg file)
  have hinfo : ∀ o ∈ pre, o.isInfo = true := by
    apply isMid_info pre hpre
    intro hmem
    apply he
    rw [hout]
    exact List.mem_append_left _ hmem
  refine ⟨pre, t, post, hout, hinfo, hcnt, ht, ?_, hpost, hcor, hlen⟩
  rw [hout, List.filter_append, List.filter_cons, if_pos ht,
    filter_none _ pre (fun o ho => isInfo_not_terminal o (hinfo o ho)),
    filter_none _ post (fun o ho => isAdvice_not_terminal o (hpost o ho))]
  rfl

set_option maxRecDepth 100000 in
/-- An instance of `one_terminal_line`: the signature, an IHDR chunk, a tEXt
chunk and the IEND chunk, in text-dump mode. -/
theorem one_terminal_line_witness :
    Out.eofLong ∉ (pngcheck wCfgText (signature ++ encodeChunks [wIHDR, wTEXT, wIEND])).out
    ∧ (pngcheck wCfgText (signature ++ encodeChunks [wIHDR, wTEXT, wIEND])).out
        = [.text [65, 58, 66], .newline, .ok]
    ∧ ∃ pre t post,
        (pngcheck wCfgText (signature ++ encodeChunks [wIHDR, wTEXT, wIEND])).out
          = pre ++ t :: post
        ∧ (∀ o ∈ pre, o.isInfo = true)
        ∧ pre.count .noIHDR ≤ 1
        ∧ t.isTerminal = true
        ∧ (pngcheck wCfgText (signature ++ encodeChunks [wIHDR, wTEXT, wIEND])).out.filter
            Out.isTerminal = [t]
        ∧ (∀ o ∈ post, o.isAdvice = true)
        ∧ (post ≠ [] → t = .corrupted)
        ∧ post.length ≤ 2 :=
  ⟨by decide, by decide,
    one_terminal_line wCfgText (signature ++ encodeChunks [wIHDR, wTEXT, wIEND]) (by decide)⟩

/-! ## Runs that report success -/

theorem init_out (file : List Byte) : { St.init file with out := [] } = St.init file := rfl

theorem toRun_status_code (fl : Flow) (h : fl.code = 1) : fl.toRun.status = .returned := by
  cases fl <;> simp [Flow.toRun, Flow.code] at h ⊢

/-- A run of `pngcheck` whose output has the success line has returned, has
read the whole file, and consumed chunks other than IEND followed by one IEND
chunk. -/
theorem pngcheck_success (cfg : Cfg) (file : List Byte)
    (hok : Out.ok ∈ (pngcheck cfg file).out) :
    (pngcheck cfg file).status = .returned
    ∧ (pngcheck cfg file).rest = []
    ∧ ∃ pre, pngcheckConsumed cfg file = pre ++ [IEND] ∧ IEND ∉ pre := by
  unfold pngcheck at hok ⊢
  by_cases hlen : file.length < 8
  · rw [if_pos hlen] at hok
    simp at hok
  · rw [if_neg hlen] at hok ⊢
    rcases check_magic_cases (file.take 8) with h | h | ⟨post, h, hadv, _⟩
    · rw [h] at hok ⊢
      simp only at hok ⊢
      rw [if_neg (by simp [OK]), init_out] at hok ⊢
      rw [toRun_out] at hok
      obtain ⟨hinp, hcode, _, hcons⟩ :=
        chunkLoop_success cfg (file.length + 1) (St.init file) (by simp [St.init]) hok
      exact ⟨toRun_status_code _ hcode, by rw [toRun_rest]; exact hinp, hcons rfl⟩
    · rw [h] at hok
      simp only at hok
      rw [if_pos (by simp [ERROR])] at hok
      simp at hok
    · rw [h] at hok
      simp only at hok
      rw [if_pos (by simp [ERROR])] at hok
      simp only [List.mem_cons] at hok
      rcases hok with hok | hok
      · exact absurd hok (by decide)
      · exact absurd (hadv _ hok) (by decide)

/-- The success line is the last line of every run that has it. -/
theorem pngcheck_success_last (cfg : Cfg) (file : List Byte)
    (hok : Out.ok ∈ (pngcheck cfg file).out) :
    (pngcheck cfg file).out.getLast? = some .ok := by
  obtain ⟨pre, t, post, hout, hpre, _, _, _, hpost, hcor, _⟩ :=
    pngcheck_shape cfg file (pngcheck_success cfg file hok).1
  rw [hout] at hok ⊢
  rcases List.mem_append.mp hok with hmem | hmem
  · exact absurd rfl (isMid_ne_ok _ (hpre _ hmem))
  · rcases List.mem_cons.mp hmem with hmem | hmem
    · subst hmem
      have hp : post = [] := by
        by_contra hne
        exact absurd (hcor hne) (by decide)
      subst hp
      simp
    · exact absurd (hpost _ hmem) (by decide)

/-! ## The terminal chunk -/

theorem chunkLoop_after_iend (cfg : Cfg) (fuel : Nat) (st : St) (hi : st.iend_read = true) :
    consumed cfg fuel st = []
    ∧ (chunkLoop cfg fuel st).state.inp = st.inp
    ∧ (chunkLoop cfg fuel st).state.crcCalls = st.crcCalls
    ∧ (st.inp ≠ [] →
        chunkLoop cfg (fuel + 1) st = .ret { st with out := st.out ++ [.additionalData] }) := by
  have hlast : st.inp ≠ [] →
      chunkLoop cfg (fuel + 1) st = .ret { st with out := st.out ++ [.additionalData] } := by
    intro hne
    rw [chunkLoop_cons cfg fuel st hne, chunkBody_iend cfg st hi]
  refine ⟨?_, ?_, ?_, hlast⟩
  · cases fuel with
    | zero => rfl
    | succ fuel =>
      by_cases hne : st.inp = []
      · exact consumed_nil cfg fuel st hne
      · rw [consumed_cons cfg fuel st hne, chunkBody_iend cfg st hi]
  · cases fuel with
    | zero => rfl
    | succ fuel =>
      by_cases hne : st.inp = []
      · rw [chunkLoop_nil cfg fuel st hne, finish_eq]; rfl
      · rw [chunkLoop_cons cfg fuel st hne, chunkBody_iend cfg st hi]; rfl
  · cases fuel with
    | zero => rfl
    | succ fuel =>
      by_cases hne : st.inp = []
      · rw [chunkLoop_nil cfg fuel st hne, finish_eq]; rfl
      · rw [chunkLoop_cons cfg fuel st hne, chunkBody_iend cfg st hi]; rfl

/-- C15. For every input on which `pngcheck` reports success, the tags of the
chunks it consumed are tags other than "IEND" followed by one "IEND", the run
has returned, and no input byte is left behind that chunk.  As an invariant of
the chunk loop: from every state `st` in which `iend_read` is set the loop
consumes no further chunk, reads no further byte and does no further checksum
work, and if a byte is left it returns with "additional data after IEND
chunk". -/
theorem terminal_chunk_invariant (cfg : Cfg) (file : List Byte) (fuel : Nat) (st : St)
    (hok : Out.ok ∈ (pngcheck cfg file).out) (hi : st.iend_read = true) :
    (∃ pre, pngcheckConsumed cfg file = pre ++ [IEND] ∧ IEND ∉ pre)
    ∧ (pngcheck cfg file).rest = []
    ∧ (pngcheck cfg file).status = .returned
    ∧ consumed cfg fuel st = []
    ∧ (chunkLoop cfg fuel st).state.inp = st.inp
    ∧ (chunkLoop cfg fuel st).state.crcCalls = st.crcCalls
    ∧ (st.inp ≠ [] →
        chunkLoop cfg (fuel + 1) st = .ret { st with out := st.out ++ [.additionalData] }) := by
  obtain ⟨h1, h2, h3⟩ := pngcheck_success cfg file hok
  exact ⟨h3, h2, h1, chunkLoop_after_iend cfg fuel st hi⟩

set_option maxRecDepth 100000 in
/-- Witness for C15: the signature, an IHDR chunk, an IDAT chunk and the IEND
chunk; and the state behind the IEND chunk of a file with one more byte. -/
theorem terminal_chunk_invariant_witness :
    Out.ok ∈ (pngcheck wCfg (signature ++ encodeChunks [wIHDR, wIDAT, wIEND])).out
    ∧ wStEnd.iend_read = true
    ∧ pngcheckConsumed wCfg (signature ++ encodeChunks [wIHDR, wIDAT, wIEND])
        = [IHDR, [73, 68, 65, 84], IEND]
    ∧ (pngcheck wCfg (signature ++ encodeChunks [wIHDR, wIDAT, wIEND])).rest = []
    ∧ chunkLoop wCfg 3 wStEnd = .ret { wStEnd with out := [.additionalData] }
    ∧ ((∃ pre, pngcheckConsumed wCfg (signature ++ encodeChunks [wIHDR, wIDAT, wIEND])
          = pre ++ [IEND] ∧ IEND ∉ pre)
      ∧ (pngcheck wCfg (signature ++ encodeChunks [wIHDR, wIDAT, wIEND])).rest = []
      ∧ (pngcheck wCfg (signature ++ encodeChunks [wIHDR, wIDAT, wIEND])).status = .returned
      ∧ consumed wCfg 2 wStEnd = []
      ∧ (chunkLoop wCfg 2 wStEnd).state.inp = wStEnd.inp
      ∧ (chunkLoop wCfg 2 wStEnd).state.crcCalls = wStEnd.crcCalls
      ∧ (wStEnd.inp ≠ [] →
          chunkLoop wCfg (2 + 1) wStEnd
            = .ret { wStEnd with out := wStEnd.out ++ [.additionalData] })) :=
  ⟨by decide, by decide, by decide, by decide, by decide,
    terminal_chunk_invariant wCfg (signature ++ encodeChunks [wIHDR, wIDAT, wIEND]) 2 wStEnd
      (by decide) (by decide)⟩

/-! ## The format of the lines -/

theorem check_magic_no_name (magic : List Byte) :
    ∀ o ∈ (PNG_check_magic magic).2, o.onStderr = true ∧ o.hasName = false := by
  intro o ho
  rcases check_magic_cases magic with h | h | ⟨post, h, hadv, _⟩
  · rw [h] at ho; simp at ho
  · rw [h] at ho
    simp only [List.mem_singleton] at ho
    subst ho
    exact ⟨rfl, rfl⟩
  · rw [h] at ho
    simp only [List.mem_cons] at ho
    rcases ho with ho | ho
    · subst ho
      exact ⟨rfl, rfl⟩
    · have ha := hadv o ho
      cases o <;> first | exact ⟨rfl, rfl⟩ | exact absurd ha Bool.false_ne_true

theorem check_chunk_name_no_name (tag : List Byte) :
    ∀ o ∈ (PNG_check_chunk_name tag).2, ∃ b0 b1 b2 b3, o = .badName b0 b1 b2 b3 := by
  intro o ho
  simp only [PNG_check_chunk_name] at ho
  split at ho
  · simp only [List.mem_singleton] at ho
    exact ⟨_, _, _, _, ho⟩
  · simp at ho

set_option maxRecDepth 100000 in
/-- C14 fails: the line of `PNG_check_chunk_name` for the tag `49 00 41 54` and
the two lines of `PNG_check_magic`, each the only line of a run of `pngcheck`
with the display name "a.png", do not begin with "a.png: ". -/
theorem line_without_display_name :
    wCfg.fname = "a.png"
    ∧ (pngcheck wCfg (signature ++ wBadHeader)).out = [.badName 73 0 65 84]
    ∧ Out.render wCfg (.badName 73 0 65 84)
        = "chunk name 49 00 41 54 doesn't comply to naming rules\n"
    ∧ ¬ BeginsWithName wCfg (Out.render wCfg (.badName 73 0 65 84))
    ∧ (pngcheck wCfg [0, 0, 0, 0, 0, 0, 0, 0]).out = [.notPng]
    ∧ Out.render wCfg .notPng = "not a PNG file\n"
    ∧ ¬ BeginsWithName wCfg (Out.render wCfg .notPng)
    ∧ ((pngcheck wCfg [0x0A, 0x50, 0x4E, 0x47, 0x0D, 0x0A, 0x1A, 0x0A]).out.map
          (Out.render wCfg)).head?
        = some "PNG file is CORRUPTED.\n" := by
  decide


theorem render_hasName (cfg : Cfg) (o : Out) (h : o.hasName = true) :
    ∃ s, o.render cfg = cfg.fname ++ ": " ++ s := by
  cases o with
  | cannotRead =>
    exact ⟨"Cannot read PNG header\n",
      by simp only [Out.render, String.append_assoc]; rfl⟩
  | eofLong =>
    exact ⟨"EOF while reading 4 bytes value\n",
      by simp only [Out.render, String.append_assoc]; rfl⟩
  | additionalData =>
    exact ⟨"additional data after IEND chunk\n",
      by simp only [Out.render, String.append_assoc]; rfl⟩
  | eofChunkType =>
    exact ⟨"EOF while reading chunk type\n",
      by simp only [Out.render, String.append_assoc]; rfl⟩
  | noIHDR =>
    exact ⟨"file doesn't start with a IHDR chunk\n",
      by simp only [Out.render, String.append_assoc]; rfl⟩
  | noIEND =>
    exact ⟨"file doesn't end with a IEND chunk\n",
      by simp only [Out.render, String.append_assoc]; rfl⟩
  | ok =>
    exact ⟨"file appears to be OK\n",
      by simp only [Out.render, String.append_assoc]; rfl⟩
  | chunkInfo i off s =>
    refine ⟨"chunk " ++ (showTag i ++ " at " ++ hex (asULong cfg off) ++ " length "
      ++ hex (asULong cfg s) ++ "\n"), ?_⟩
    simp only [Out.render, String.append_assoc]
    rfl
  | eofChunkData i =>
    refine ⟨"EOF while reading chunk data (" ++ (showTag i ++ ")\n"), ?_⟩
    simp only [Out.render, String.append_assoc]
    rfl
  | crcError i a b =>
    refine ⟨"CRC error in chunk " ++ (showTag i ++ " (actual "
      ++ zeroPad 8 (hex a) ++ ", should be " ++ zeroPad 8 (hex b) ++ ")\n"), ?_⟩
    simp only [Out.render, String.append_assoc]
    rfl
  | _ => exact absurd h Bool.false_ne_true



theorem render_no_name (cfg : Cfg) (o : Out) (h : o.hasName = false) (name : String) :
    o.render { cfg with fname := name } = o.render cfg := by
  cases o <;> first | rfl | cases h

theorem begins_of_eq (cfg : Cfg) (line s : String) (h : line = cfg.fname ++ ": " ++ s) :
    BeginsWithName cfg line := by
  unfold BeginsWithName
  rw [h, String.data_append]
  exact List.prefix_append _ _

/-- C14, amended.  Every line of a run of `pngcheck` other than the lines of
`PNG_check_magic`, the line of `PNG_check_chunk_name` and the text-dump output
begins with the display name followed by ": "; the lines of `PNG_check_magic`
and of `PNG_check_chunk_name` are written without the display name and are the
same for every display name; and a run that reports success ends with the line
"<display-name>: file appears to be OK". -/
theorem diagnostic_line_format (cfg : Cfg) (file : List Byte) (o : Out)
    (ho : o ∈ (pngcheck cfg file).out) :
    (o.onStderr = false → (∀ b0 b1 b2 b3, o ≠ .badName b0 b1 b2 b3) → o.isDump = false →
        BeginsWithName cfg (o.render cfg))
    ∧ (∀ magic, ∀ x ∈ (PNG_check_magic magic).2, ∀ name,
        x.render { cfg with fname := name } = x.render cfg)
    ∧ (∀ tag, ∀ x ∈ (PNG_check_chunk_name tag).2, ∀ name,
        x.render { cfg with fname := name } = x.render cfg)
    ∧ (Out.ok ∈ (pngcheck cfg file).out →
        (pngcheck cfg file).out.getLast?.map (Out.render cfg)
          = some (cfg.fname ++ ": file appears to be OK\n")) := by
  refine ⟨?_, ?_, ?_, ?_⟩
  · intro h1 h2 h3
    have hn : o.hasName = true := by
      cases o with
      | badName b0 b1 b2 b3 => exact absurd rfl (h2 b0 b1 b2 b3)
      | _ => first | rfl | exact Bool.noConfusion h1 | exact Bool.noConfusion h3
    obtain ⟨s, hs⟩ := render_hasName cfg o hn
    exact begins_of_eq cfg _ s hs
  · intro magic x hx name
    exact render_no_name cfg x (check_magic_no_name magic x hx).2 name
  · intro tag x hx name
    obtain ⟨b0, b1, b2, b3, rfl⟩ := check_chunk_name_no_name tag x hx
    rfl
  · intro hok
    rw [pngcheck_success_last cfg file hok]
    rfl

set_option maxRecDepth 100000 in
/-- Witness for C14, amended: the IHDR warning of the run on the signature, an
IDAT chunk and the IEND chunk. -/
theorem diagnostic_line_format_witness :
    Out.noIHDR ∈ (pngcheck wCfg (signature ++ encodeChunks [wIDAT, wIEND])).out
    ∧ Out.render wCfg .noIHDR = "a.png: file doesn't start with a IHDR chunk\n"
    ∧ BeginsWithName wCfg (Out.render wCfg .noIHDR)
    ∧ (pngcheck wCfg (signature ++ encodeChunks [wIDAT, wIEND])).out.getLast?.map
        (Out.render wCfg) = some "a.png: file appears to be OK\n" :=
  ⟨by decide, rfl,
    (diagnostic_line_format wCfg (signature ++ encodeChunks [wIDAT, wIEND]) .noIHDR
      (by decide)).1 rfl (fun _ _ _ _ h => Out.noConfusion h) rfl,
    (diagnostic_line_format wCfg (signature ++ encodeChunks [wIDAT, wIEND]) .noIHDR
      (by decide)).2.2.2 (by decide)⟩

/-! ## The IHDR warning -/

theorem count_text (ex : List Out) (h : ∀ o ∈ ex, ∃ b, o = Out.text b) :
    ex.count .noIHDR = 0 :=
  List.count_eq_zero_of_not_mem (text_isMid ex h).2

theorem payloadLoop_count (cfg : Cfg) (chunkid : List Byte) (fuel : Nat) (s : Int) (st : St) :
    (payloadLoop cfg chunkid fuel s st).state.out.count .noIHDR = st.out.count .noIHDR := by
  obtain ⟨ex, hex, ho, _⟩ := payloadLoop_shape cfg chunkid fuel s st
  rw [ho, List.count_append, List.count_append, count_text ex hex]
  split
  · rw [List.count_singleton]; rfl
  · rfl

theorem checkTrailer_count (cfg : Cfg) (chunkid : List Byte) (st2 : St) :
    (checkTrailer cfg chunkid st2).state.out.count .noIHDR = st2.out.count .noIHDR := by
  obtain ⟨ex, ho, _, hn, _⟩ := checkTrailer_shape cfg chunkid st2
  rw [ho, List.count_append, List.count_append, List.count_eq_zero_of_not_mem hn]
  split
  · rw [List.count_singleton]; rfl
  · rfl

theorem afterHeader_count (cfg : Cfg) (st : St) (chunkid : List Byte) (s : Int)
    (inp2 : List Byte) :
    (afterHeader cfg st chunkid s inp2).out.count .noIHDR
      = st.out.count .noIHDR + (if st.first && decide (chunkid ≠ IHDR) then 1 else 0) := by
  obtain ⟨ex, ho, _, hc⟩ := afterHeader_shape cfg st chunkid s inp2
  rw [ho, List.count_append, hc]

/-- The number of IHDR warnings the loop body adds on a chunk with a valid
tag: one if `first` is set and the tag is not "IHDR", none otherwise. -/
theorem chunkBody_count (cfg : Cfg) (st : St) (l0 l1 l2 l3 a b c d : Byte) (rest : List Byte)
    (hi : st.iend_read = false) (hname : ∀ x ∈ [a, b, c, d], IsAsciiLetter x)
    (hinp : st.inp = l0 :: l1 :: l2 :: l3 :: a :: b :: c :: d :: rest) :
    (chunkBody cfg st).state.out.count .noIHDR
      = st.out.count .noIHDR + (if st.first && decide ([a, b, c, d] ≠ IHDR) then 1 else 0) := by
  rw [chunkBody_valid cfg st l0 l1 l2 l3 a b c d rest hi hname hinp]
  have hp := payloadLoop_count cfg [a, b, c, d] (rest.length + 1)
    (toLong cfg (((l0.val * 256 + l1.val) * 256 + l2.val) * 256 + l3.val))
    (afterHeader cfg st [a, b, c, d]
      (toLong cfg (((l0.val * 256 + l1.val) * 256 + l2.val) * 256 + l3.val)) rest)
  rw [afterHeader_count] at hp
  revert hp
  generalize payloadLoop cfg [a, b, c, d] (rest.length + 1)
    (toLong cfg (((l0.val * 256 + l1.val) * 256 + l2.val) * 256 + l3.val))
    (afterHeader cfg st [a, b, c, d]
      (toLong cfg (((l0.val * 256 + l1.val) * 256 + l2.val) * 256 + l3.val)) rest) = p
  intro hp
  cases p with
  | next st2 =>
    simp only [Flow.state] at hp
    simp only []
    rw [checkTrailer_count, hp]
  | ret st2 => exact hp
  | nofuel st2 => exact hp

/-- From a state in which `first` is cleared the chunk loop adds no IHDR
warning. -/
theorem chunkLoop_count (cfg : Cfg) (fuel : Nat) (st : St) (hf : st.first = false) :
    (chunkLoop cfg fuel st).state.out.count .noIHDR = st.out.count .noIHDR := by
  obtain ⟨ex, tl, ho, _, _, hz, ht, _⟩ := chunkLoop_shape cfg fuel st
  rw [ho, List.count_append, List.count_append, hz hf]
  split at ht
  · obtain ⟨t, rfl, htt, _⟩ := ht
    rw [List.count_singleton]
    have hne : ¬ (t == Out.noIHDR) = true := by
      intro h
      have := eq_of_beq h
      subst this
      exact absurd htt (by decide)
    simp [hne]
  · rw [ht]; rfl

theorem toRun_status_congr (x y : Flow) (h : x.code = y.code) :
    x.toRun.status = y.toRun.status := by
  cases x <;> cases y <;> first | rfl | exact absurd h (by simp [Flow.code])

/-- C16. For every input made of the signature and a first chunk header with
a valid tag, whatever follows, the output of `pngcheck` has the line "file
doesn't start with a IHDR chunk" exactly once if the tag of the first chunk is
not "IHDR" and not at all if it is "IHDR"; the line is not a fatal one; and
the run in which the flag `first` is cleared from the start, so that the
warning is never written, returns in the same way, leaves the same input
behind, and writes the same lines apart from the warning. -/
theorem start_tag_warning (cfg : Cfg) (file : List Byte) (l0 l1 l2 l3 a b c d : Byte)
    (rest : List Byte) (hname : ∀ x ∈ [a, b, c, d], IsAsciiLetter x)
    (hfile : file = signature ++ l0 :: l1 :: l2 :: l3 :: a :: b :: c :: d :: rest) :
    (pngcheck cfg file).out.count .noIHDR = (if [a, b, c, d] = IHDR then 0 else 1)
    ∧ Out.isFatal .noIHDR = false
    ∧ (pngcheck cfg file).status
        = (chunkLoop cfg (file.length + 1) { St.init file with first := false }).toRun.status
    ∧ (pngcheck cfg file).rest
        = (chunkLoop cfg (file.length + 1) { St.init file with first := false }).toRun.rest
    ∧ (pngcheck cfg file).out.filter (fun o => decide (o ≠ .noIHDR))
        = (chunkLoop cfg (file.length + 1) { St.init file with first := false }).toRun.out := by
  have hlen : file.length + 1 = (l0 :: l1 :: l2 :: l3 :: a :: b :: c :: d :: rest).length + 9 := by
    rw [hfile, List.length_append]
    have : signature.length = 8 := rfl
    omega
  have hrun : pngcheck cfg file = (chunkLoop cfg (file.length + 1) (St.init file)).toRun := by
    rw [hlen, hfile]
    exact pngcheck_signature cfg _
  have hinit : St.init file
      = { inp := l0 :: l1 :: l2 :: l3 :: a :: b :: c :: d :: rest, size := file.length, out := [],
          first := true, iend_read := false, crc := 0, crcCalls := 0 } := by
    rw [hfile, init_signature]
    simp only [List.length_append, List.length_cons]
    have : signature.length = 8 := rfl
    simp only [this, St.mk.injEq, and_true, true_and]
    omega
  have hsim := chunkLoop_sim (fun o => decide (o ≠ Out.noIHDR)) cfg cfg (file.length + 1)
    (St.init file) { St.init file with first := false } rfl rfl (Or.inl rfl) (Or.inl rfl)
    (Or.inr (by decide)) ⟨rfl, rfl, rfl, rfl, rfl, rfl⟩
  obtain ⟨hcode, hi, _, _, _, _, hout⟩ := hsim
  have hzero : (chunkLoop cfg (file.length + 1)
      { St.init file with first := false }).state.out.count .noIHDR = 0 := by
    rw [chunkLoop_count cfg _ _ rfl]
    rfl
  refine ⟨?_, rfl, ?_, ?_, ?_⟩
  · rw [hrun, toRun_out, hlen, chunkLoop_cons cfg _ _ (by rw [hinit]; simp)]
    have hb := chunkBody_count cfg (St.init file) l0 l1 l2 l3 a b c d rest
      (by rw [hinit]) hname (by rw [hinit])
    have hfirst : (St.init file).first = true := by rw [hinit]
    have hnone : (St.init file).out.count .noIHDR = 0 := by rw [hinit]; rfl
    rw [hfirst, hnone] at hb
    have hs := chunkBody_shape cfg (St.init file)
    obtain ⟨_, _, _, _, _, _, _, hfalse, _⟩ := hs
    revert hb hfalse
    generalize chunkBody cfg (St.init file) = p
    intro hb hfalse
    have hval : (if (true && decide ([a, b, c, d] ≠ IHDR)) = true then 1 else 0)
        = (if [a, b, c, d] = IHDR then 0 else 1) := by
      by_cases h : [a, b, c, d] = IHDR
      · rw [if_pos h, if_neg (by simp [h])]
      · rw [if_neg h, if_pos (by simp [h])]
    rw [hval, Nat.zero_add] at hb
    cases p with
    | next st1 =>
      simp only []
      rw [chunkLoop_count cfg _ st1 (hfalse rfl)]
      exact hb
    | ret st1 => exact hb
    | nofuel st1 => exact hb
  · rw [hrun]
    exact toRun_status_congr _ _ hcode
  · rw [hrun, toRun_rest, toRun_rest]
    exact hi
  · rw [hrun, toRun_out, toRun_out, hout]
    rw [List.filter_eq_self]
    intro o ho
    simp only [ne_eq, decide_not, Bool.not_eq_eq_eq_not, Bool.not_true, decide_eq_false_iff_not]
    intro h
    subst h
    have := List.count_pos_iff.mpr ho
    omega

set_option maxRecDepth 100000 in
/-- Witness for C16: the signature, an IDAT chunk with a correct checksum and
the IEND chunk give the warning line followed by the success line. -/
theorem start_tag_warning_witness :
    (∀ x ∈ [(73 : Byte), 68, 65, 84], IsAsciiLetter x)
    ∧ signature ++ encodeChunks [wIDAT, wIEND]
        = signature ++ 0 :: 0 :: 0 :: 1 :: 73 :: 68 :: 65 :: 84
            :: (encodeChunks [wIDAT, wIEND]).drop 8
    ∧ (pngcheck wCfg (signature ++ encodeChunks [wIDAT, wIEND])).out = [.noIHDR, .ok]
    ∧ (pngcheck wCfg (signature ++ encodeChunks [wIDAT, wIEND])).out.count .noIHDR
        = (if [(73 : Byte), 68, 65, 84] = IHDR then 0 else 1)
    ∧ (pngcheck wCfg (signature ++ encodeChunks [wIDAT, wIEND])).out.filter
          (fun o => decide (o ≠ .noIHDR))
        = (chunkLoop wCfg ((signature ++ encodeChunks [wIDAT, wIEND]).length + 1)
            { St.init (signature ++ encodeChunks [wIDAT, wIEND]) with first := false }).toRun.out :=
  ⟨by decide, by decide, by decide,
    (start_tag_warning wCfg (signature ++ encodeChunks [wIDAT, wIEND]) 0 0 0 1 73 68 65 84
      ((encodeChunks [wIDAT, wIEND]).drop 8) (by decide) (by decide)).1,
    (start_tag_warning wCfg (signature ++ encodeChunks [wIDAT, wIEND]) 0 0 0 1 73 68 65 84
      ((encodeChunks [wIDAT, wIEND]).drop 8) (by decide) (by decide)).2.2.2.2⟩

/-! ## The lines of a mode -/

theorem dumps_printtext (cfg : Cfg) (chunkid : List Byte) (h : dumps cfg chunkid = true) :
    cfg.printtext = true := by
  unfold dumps at h
  simp only [Bool.and_eq_true] at h
  exact h.1

theorem snoc_inMode (cfg : Cfg) (x e : List Out) (hx : ∀ o ∈ x, o.inMode cfg = true)
    (he : ∀ o ∈ e, o.inMode cfg = true) : ∀ o ∈ x ++ e, o.inMode cfg = true := by
  intro o ho
  rcases List.mem_append.mp ho with h | h
  · exact hx o h
  · exact he o h

theorem dump_inMode (cfg : Cfg) (chunkid : List Byte) (e : Out)
    (he : cfg.printtext = true → e.inMode cfg = true) :
    ∀ o ∈ (if dumps cfg chunkid then [e] else []), o.inMode cfg = true := by
  intro o ho
  by_cases hd : dumps cfg chunkid = true
  · rw [if_pos hd, List.mem_singleton] at ho
    subst ho
    exact he (dumps_printtext cfg chunkid hd)
  · rw [if_neg hd] at ho
    simp at ho

theorem readBlock_inMode (cfg : Cfg) (chunkid : List Byte) (st : St) (n : Nat)
    (h : ∀ o ∈ st.out, o.inMode cfg = true) :
    ∀ o ∈ (readBlock cfg chunkid st n).out, o.inMode cfg = true :=
  snoc_inMode cfg _ _ h (dump_inMode cfg chunkid _ (fun hp => hp))

theorem payloadLoop_inMode (cfg : Cfg) (chunkid : List Byte) (fuel : Nat) (s : Int) (st : St)
    (h : ∀ o ∈ st.out, o.inMode cfg = true) :
    ∀ o ∈ (payloadLoop cfg chunkid fuel s st).state.out, o.inMode cfg = true := by
  have hret : ∀ o ∈ st.out ++ [Out.eofChunkData chunkid], o.inMode cfg = true :=
    snoc_inMode cfg _ _ h (by simp [Out.inMode])
  induction fuel generalizing s st with
  | zero => exact h
  | succ fuel ih =>
    rw [payloadLoop_succ]
    by_cases h0 : s > 0
    · rw [if_pos h0]
      by_cases h1 : toreadOf s < 0
      · rw [if_pos h1]; exact hret
      · rw [if_neg h1]
        by_cases h3 : st.inp.length < (toreadOf s).toNat
        · rw [if_pos h3]; exact hret
        · rw [if_neg h3]
          exact ih _ _ (readBlock_inMode cfg chunkid st _ h)
            (snoc_inMode cfg _ _ (readBlock_inMode cfg chunkid st _ h) (by simp [Out.inMode]))
    · rw [if_neg h0]; exact h

theorem afterHeader_inMode (cfg : Cfg) (st : St) (chunkid : List Byte) (s : Int)
    (inp2 : List Byte) (h : ∀ o ∈ st.out, o.inMode cfg = true) :
    ∀ o ∈ (afterHeader cfg st chunkid s inp2).out, o.inMode cfg = true := by
  unfold afterHeader
  refine snoc_inMode cfg _ _ (snoc_inMode cfg _ _ h ?_) ?_
  · intro o ho
    by_cases hv : cfg.verbose = true
    · rw [if_pos hv, List.mem_singleton] at ho
      subst ho
      exact hv
    · rw [if_neg hv] at ho
      simp at ho
  · intro o ho
    split at ho
    · rw [List.mem_singleton] at ho
      subst ho
      rfl
    · simp at ho

theorem getlong_inMode (cfg : Cfg) (inp : List Byte) :
    ∀ o ∈ (getlong inp).2.2, o.inMode cfg = true := by
  intro o ho
  rcases getlong_out inp with h | ⟨h, _⟩
  · rw [h] at ho; simp at ho
  · rw [h, List.mem_singleton] at ho
    subst ho
    rfl

theorem checkTrailer_inMode (cfg : Cfg) (chunkid : List Byte) (st2 : St)
    (h : ∀ o ∈ st2.out, o.inMode cfg = true) :
    ∀ o ∈ (checkTrailer cfg chunkid st2).state.out, o.inMode cfg = true := by
  have hbase : ∀ o ∈ st2.out ++ (if dumps cfg chunkid then [Out.newline] else [])
      ++ (getlong st2.inp).2.2, o.inMode cfg = true :=
    snoc_inMode cfg _ _ (snoc_inMode cfg _ _ h (dump_inMode cfg chunkid _ (fun hp => hp)))
      (getlong_inMode cfg _)
  unfold checkTrailer
  split
  · exact snoc_inMode cfg _ _ hbase (by simp [Out.inMode])
  · exact hbase

theorem chunkBody_inMode (cfg : Cfg) (st : St) (h : ∀ o ∈ st.out, o.inMode cfg = true) :
    ∀ o ∈ (chunkBody cfg st).state.out, o.inMode cfg = true := by
  by_cases hi : st.iend_read = true
  · rw [chunkBody_iend cfg st hi]
    exact snoc_inMode cfg _ _ h (by simp [Out.inMode])
  · have hi' : st.iend_read = false := by simpa using hi
    by_cases hlen : st.inp.length < 8
    · rw [chunkBody_short cfg st hi' hlen]
      refine snoc_inMode cfg _ _ (snoc_inMode cfg _ _ h ?_) (by simp [Out.inMode])
      intro o ho
      split at ho
      · rw [List.mem_singleton] at ho
        subst ho
        rfl
      · simp at ho
    · obtain ⟨l0, l1, l2, l3, t4, h4⟩ := four_le_length st.inp (by omega)
      obtain ⟨x0, x1, x2, x3, rest, h8⟩ := four_le_length t4 (by
        rw [h4] at hlen; simp at hlen; omega)
      subst h8
      by_cases hname : ∀ x ∈ [x0, x1, x2, x3], IsAsciiLetter x
      · rw [chunkBody_valid cfg st l0 l1 l2 l3 x0 x1 x2 x3 rest hi' hname h4]
        have hp := payloadLoop_inMode cfg [x0, x1, x2, x3] (rest.length + 1)
          (toLong cfg (((l0.val * 256 + l1.val) * 256 + l2.val) * 256 + l3.val))
          _ (afterHeader_inMode cfg st [x0, x1, x2, x3]
              (toLong cfg (((l0.val * 256 + l1.val) * 256 + l2.val) * 256 + l3.val)) rest h)
        generalize payloadLoop cfg [x0, x1, x2, x3] (rest.length + 1) _ _ = p at hp
        cases p with
        | next st2 => exact checkTrailer_inMode cfg _ st2 hp
        | ret st2 => exact hp
        | nofuel st2 => exact hp
      · rw [chunkBody_bad_name cfg st l0 l1 l2 l3 x0 x1 x2 x3 rest hi' hname (by rw [h4]; rfl)]
        exact snoc_inMode cfg _ _ h (by simp [Out.inMode])

theorem chunkLoop_inMode (cfg : Cfg) (fuel : Nat) (st : St)
    (h : ∀ o ∈ st.out, o.inMode cfg = true) :
    ∀ o ∈ (chunkLoop cfg fuel st).state.out, o.inMode cfg = true := by
  induction fuel generalizing st with
  | zero => exact h
  | succ fuel ih =>
    by_cases hnil : st.inp = []
    · rw [chunkLoop_nil cfg fuel st hnil, finish_eq]
      refine snoc_inMode cfg _ _ h ?_
      intro o ho
      rw [List.mem_singleton] at ho
      subst ho
      cases st.iend_read <;> rfl
    · rw [chunkLoop_cons cfg fuel st hnil]
      have hb := chunkBody_inMode cfg st h
      generalize chunkBody cfg st = p at hb
      cases p with
      | next st1 => exact ih st1 hb
      | ret st1 => exact hb
      | nofuel st1 => exact hb

/-- Every line of a run is a line of its mode. -/
theorem pngcheck_inMode (cfg : Cfg) (file : List Byte) :
    ∀ o ∈ (pngcheck cfg file).out, o.inMode cfg = true := by
  unfold pngcheck
  by_cases hlen : file.length < 8
  · rw [if_pos hlen]
    simp [Out.inMode]
  · rw [if_neg hlen]
    rcases check_magic_cases (file.take 8) with h | h | ⟨post, h, hadv, _⟩
    · rw [h]
      simp only
      rw [if_neg (by simp [OK]), init_out, toRun_out]
      exact chunkLoop_inMode cfg _ _ (by simp [St.init])
    · rw [h]
      simp only
      rw [if_pos (by simp [ERROR])]
      simp [Out.inMode]
    · rw [h]
      simp only
      rw [if_pos (by simp [ERROR])]
      intro o ho
      simp only [List.mem_cons] at ho
      rcases ho with ho | ho
      · subst ho; rfl
      · have ha := hadv o ho
        cases o <;> first | rfl | exact Bool.noConfusion ha

theorem toRun_crcCalls (fl : Flow) : fl.toRun.crcCalls = fl.state.crcCalls := by
  cases fl <;> rfl

/-- Two runs of `pngcheck` on the same file in two modes end the same way, and
their outputs agree on the lines selected by `q`. -/
theorem pngcheck_sim (q : Out → Bool) (cfg cfg' : Cfg) (file : List Byte)
    (hl : cfg.long64 = cfg'.long64) (hh : cfg.hugeRead = cfg'.hugeRead)
    (hv : cfg.verbose = cfg'.verbose ∨ ∀ i o l, q (.chunkInfo i o l) = false)
    (ht : cfg.printtext = cfg'.printtext ∨ ((∀ x, q (.text x) = false) ∧ q .newline = false)) :
    (pngcheck cfg file).status = (pngcheck cfg' file).status
    ∧ (pngcheck cfg file).rest = (pngcheck cfg' file).rest
    ∧ (pngcheck cfg file).crcCalls = (pngcheck cfg' file).crcCalls
    ∧ (pngcheck cfg file).out.filter q = (pngcheck cfg' file).out.filter q := by
  unfold pngcheck
  by_cases hlen : file.length < 8
  · rw [if_pos hlen, if_pos hlen]
    exact ⟨rfl, rfl, rfl, rfl⟩
  · rw [if_neg hlen, if_neg hlen]
    rcases check_magic_cases (file.take 8) with h | h | ⟨post, h, _, _⟩
    · rw [h]
      simp only
      rw [if_neg (by simp [OK]), if_neg (by simp [OK]), init_out]
      obtain ⟨hcode, hi, _, _, _, hc, hout⟩ :=
        chunkLoop_sim q cfg cfg' (file.length + 1) (St.init file) (St.init file) hl hh hv ht
          (Or.inl rfl) ⟨rfl, rfl, rfl, rfl, rfl, rfl⟩
      refine ⟨toRun_status_congr _ _ hcode, ?_, ?_, ?_⟩
      · rw [toRun_rest, toRun_rest]; exact hi
      · rw [toRun_crcCalls, toRun_crcCalls]; exact hc
      · rw [toRun_out, toRun_out]; exact hout
    · rw [h]
      simp only
      rw [if_pos (by simp [ERROR]), if_pos (by simp [ERROR])]
      exact ⟨rfl, rfl, rfl, rfl⟩
    · rw [h]
      simp only
      rw [if_pos (by simp [ERROR]), if_pos (by simp [ERROR])]
      exact ⟨rfl, rfl, rfl, rfl⟩

theorem terminal_not_modeLine (o : Out) (h : o.isTerminal = true) : o.isModeLine = false := by
  cases o <;> first | rfl | exact Bool.noConfusion h

theorem filter_terminal (l : List Out) :
    l.filter Out.isTerminal = (l.filter (fun o => !o.isModeLine)).filter Out.isTerminal := by
  rw [List.filter_filter]
  apply List.filter_congr
  intro o _
  by_cases h : o.isTerminal = true
  · rw [h, terminal_not_modeLine o h]; rfl
  · have hf : o.isTerminal = false := by simpa using h
    rw [hf]; rfl

theorem render_mode (cfg : Cfg) (v p : Bool) (o : Out) :
    o.render { cfg with verbose := v, printtext := p } = o.render cfg := by
  cases o <;> rfl

/-- C19. For every input and every setting `v`, `p` of the flags `verbose` and
`printtext`, the run with these flags ends in the same way as the run with the
flags of `cfg`, leaves the same input unread and does the same checksum calls;
the two outputs agree on all lines other than verbose chunk lines and text-dump
output, in particular on the line that states the outcome, with the checksum
values it reports, and every line reads the same in both modes.  Verbose chunk
lines are written only with `verbose` set and text-dump output only with
`printtext` set, so the output of the run with both flags cleared is the
output of any other run without these lines. -/
theorem mode_flags_keep_verdict (cfg : Cfg) (v p : Bool) (file : List Byte) :
    (pngcheck { cfg with verbose := v, printtext := p } file).status = (pngcheck cfg file).status
    ∧ (pngcheck { cfg with verbose := v, printtext := p } file).rest = (pngcheck cfg file).rest
    ∧ (pngcheck { cfg with verbose := v, printtext := p } file).crcCalls
        = (pngcheck cfg file).crcCalls
    ∧ (pngcheck { cfg with verbose := v, printtext := p } file).out.filter
          (fun o => !o.isModeLine)
        = (pngcheck cfg file).out.filter (fun o => !o.isModeLine)
    ∧ (pngcheck { cfg with verbose := v, printtext := p } file).out.filter Out.isTerminal
        = (pngcheck cfg file).out.filter Out.isTerminal
    ∧ (∀ o : Out, o.render { cfg with verbose := v, printtext := p } = o.render cfg)
    ∧ (∀ o ∈ (pngcheck { cfg with verbose := v, printtext := p } file).out,
        (∀ i off l, o = .chunkInfo i off l → v = true)
        ∧ (o.isDump = true → p = true))
    ∧ (pngcheck { cfg with verbose := false, printtext := false } file).out
        = (pngcheck cfg file).out.filter (fun o => !o.isModeLine) := by
  have hsim : ∀ v p, (pngcheck { cfg with verbose := v, printtext := p } file).status
        = (pngcheck cfg file).status
      ∧ (pngcheck { cfg with verbose := v, printtext := p } file).rest = (pngcheck cfg file).rest
      ∧ (pngcheck { cfg with verbose := v, printtext := p } file).crcCalls
        = (pngcheck cfg file).crcCalls
      ∧ (pngcheck { cfg with verbose := v, printtext := p } file).out.filter
          (fun o => !o.isModeLine)
        = (pngcheck cfg file).out.filter (fun o => !o.isModeLine) := fun v p =>
    pngcheck_sim (fun o => !o.isModeLine) { cfg with verbose := v, printtext := p } cfg file rfl
      rfl
      (Or.inr (fun _ _ _ => rfl)) (Or.inr ⟨fun _ => rfl, rfl⟩)
  obtain ⟨h1, h2, h3, h4⟩ := hsim v p
  refine ⟨h1, h2, h3, h4, ?_, render_mode cfg v p, ?_, ?_⟩
  · rw [filter_terminal, h4, ← filter_terminal]
  · intro o ho
    have hm := pngcheck_inMode { cfg with verbose := v, printtext := p } file o ho
    constructor
    · intro i off l he
      subst he
      exact hm
    · intro hd
      cases o <;> first | exact hm | exact Bool.noConfusion hd
  · rw [← (hsim false false).2.2.2]
    symm
    rw [List.filter_eq_self]
    intro o ho
    have hm := pngcheck_inMode { cfg with verbose := false, printtext := false } file o ho
    cases o <;> first | rfl | exact Bool.noConfusion hm

/-! ## The text dump -/

theorem colonAtNul_eq (block : List Byte) :
    colonAtNul block = if strlen block < block.length then block.set (strlen block) 58
      else block := by
  induction block with
  | nil => rfl
  | cons b bs ih =>
    by_cases hb : b = 0
    · subst hb
      simp [colonAtNul, strlen]
    · have hs : strlen (b :: bs) = strlen bs + 1 := by
        simp [strlen, List.takeWhile_cons, hb]
      rw [colonAtNul, if_neg hb, ih, hs]
      by_cases hl : strlen bs < bs.length
      · rw [if_pos hl, if_pos (by simpa using hl)]
        rfl
      · rw [if_neg hl, if_neg (by simpa using hl)]

theorem textBlocks_split (n : Nat) (data : List Byte) :
    textBlocks n data = (splitBlocks n data).map (fun b => Out.text (colonAtNul b)) := by
  induction n generalizing data with
  | zero => rfl
  | succ n ih =>
    rw [textBlocks, splitBlocks]
    by_cases hd : data = []
    · rw [if_pos hd, if_pos hd]; rfl
    · rw [if_neg hd, if_neg hd, ih]; rfl

theorem splitBlocks_flatten (n : Nat) (data : List Byte) (h : data.length ≤ n) :
    (splitBlocks n data).flatten = data
    ∧ ∀ b ∈ splitBlocks n data, 0 < b.length ∧ b.length ≤ BS := by
  induction n generalizing data with
  | zero =>
    have : data = [] := List.length_eq_zero.mp (by omega)
    subst this
    exact ⟨rfl, by simp [splitBlocks]⟩
  | succ n ih =>
    rw [splitBlocks]
    by_cases hd : data = []
    · rw [if_pos hd, hd]
      exact ⟨rfl, by simp⟩
    · rw [if_neg hd]
      have hpos : 0 < data.length := List.length_pos.mpr hd
      have hdrop : (data.drop BS).length ≤ n := by
        rw [List.length_drop]
        unfold BS
        omega
      obtain ⟨h1, h2⟩ := ih (data.drop BS) hdrop
      refine ⟨?_, ?_⟩
      · rw [List.flatten_cons, h1, List.take_append_drop]
      · intro b hb
        rcases List.mem_cons.mp hb with hb | hb
        · subst hb
          rw [List.length_take]
          unfold BS
          omega
        · exact h2 b hb

theorem filter_text (l : List (List Byte)) (f : List Byte → List Byte) :
    (l.map (fun b => Out.text (f b))).filter Out.isDump = l.map (fun b => Out.text (f b)) := by
  rw [List.filter_eq_self]
  intro o ho
  obtain ⟨b, _, rfl⟩ := List.mem_map.mp ho
  rfl

theorem chunk_out_dump (cfg : Cfg) (size behind : Nat) (first : Bool) (c : Chunk)
    (hp : cfg.printtext = true) :
    (c.out cfg size behind first).filter Out.isDump
      = if c.tag = tEXt then
          (splitBlocks c.data.length c.data).map (fun b => Out.text (colonAtNul b)) ++ [.newline]
        else [] := by
  unfold Chunk.out
  rw [List.filter_append, List.filter_append]
  have h1 : (if cfg.verbose = true then
      [Out.chunkInfo c.tag ((size - (c.data.length + behind) : Nat) - 4 : Int)
        (c.data.length : Int)] else []).filter Out.isDump = [] := by
    split <;> rfl
  have h2 : (if (first && decide (c.tag ≠ IHDR)) = true then [Out.noIHDR] else []).filter
      Out.isDump = [] := by
    split <;> rfl
  rw [h1, h2, hp]
  by_cases ht : c.tag = tEXt
  · rw [if_pos ht, if_pos (by simp [ht]), List.filter_append, textBlocks_split, filter_text]
    rfl
  · rw [if_neg ht, if_neg (by simp [ht])]
    rfl

theorem getlong_dump (inp : List Byte) : (getlong inp).2.2.filter Out.isDump = [] := by
  rcases getlong_out inp with h | ⟨h, _⟩ <;> rw [h] <;> rfl

/-- C18. In text-dump mode, for every chunk `c` with a valid tag whose payload
is fully present, the text-dump output the loop body adds is, if the tag is
"tEXt", one write for each read block of the payload in order, each carrying
the bytes of the block with the first zero byte of the block, if it has one,
replaced by a colon and all other bytes unchanged, followed by one newline; if
the tag is another one, nothing.  The read blocks are not empty, have at most
`BS` bytes, and make up the payload.  The checksum is the one of the tag and
the bytes of the payload as they are in the file, and the body returns with a
checksum error exactly when the value read behind the payload differs from
the trailer computed from these bytes. -/
theorem text_dump_output (cfg : Cfg) (st : St) (c : Chunk) (r : List Byte)
    (hp : cfg.printtext = true) (hwf : c.WF) (hi : st.iend_read = false)
    (hinp : st.inp = be32 c.data.length ++ c.tag ++ c.data ++ r) :
    (chunkBody cfg st).state.out.filter Out.isDump
      = st.out.filter Out.isDump
        ++ (if c.tag = tEXt then
            (splitBlocks c.data.length c.data).map (fun b => Out.text (colonAtNul b))
              ++ [.newline]
          else [])
    ∧ (∀ block : List Byte, colonAtNul block
        = if strlen block < block.length then block.set (strlen block) 58 else block)
    ∧ (splitBlocks c.data.length c.data).flatten = c.data
    ∧ (∀ b ∈ splitBlocks c.data.length c.data, 0 < b.length ∧ b.length ≤ BS)
    ∧ (chunkBody cfg st).state.crc = update_crc CRCINIT (c.tag ++ c.data)
    ∧ (chunkBody cfg st).code = (if (getlong r).1 ≠ c.trailer then 1 else 0) := by
  have hs := splitBlocks_flatten c.data.length c.data (Nat.le_refl _)
  rw [chunkBody_payload cfg st c r hwf hi hinp]
  refine ⟨?_, colonAtNul_eq, hs.1, hs.2, ?_, ?_⟩
  · split
    · simp only [Flow.state, List.filter_append, chunk_out_dump cfg _ _ _ c hp, getlong_dump]
      simp [Out.isDump]
    · simp only [Flow.state, List.filter_append, chunk_out_dump cfg _ _ _ c hp, getlong_dump]
      simp
  · split <;> rfl
  · split <;> rfl

set_option maxRecDepth 100000 in
/-- Witness for C18: a tEXt chunk with the payload `"A\0B"` in text-dump mode
gives the block `"A:B"` and a newline. -/
theorem text_dump_output_witness :
    wCfgText.printtext = true ∧ wTEXT.WF
    ∧ ({ wSt with inp := wTEXT.encode } : St).iend_read = false
    ∧ ({ wSt with inp := wTEXT.encode } : St).inp
        = be32 wTEXT.data.length ++ wTEXT.tag ++ wTEXT.data ++ be32 wTEXT.trailer
    ∧ (chunkBody wCfgText { wSt with inp := wTEXT.encode }).state.out
        = [.noIHDR, .text [65, 58, 66], .newline]
    ∧ (chunkBody wCfgText { wSt with inp := wTEXT.encode }).state.out.filter Out.isDump
        = ({ wSt with inp := wTEXT.encode } : St).out.filter Out.isDump
          ++ (if wTEXT.tag = tEXt then
              (splitBlocks wTEXT.data.length wTEXT.data).map
                  (fun b => Out.text (colonAtNul b))
                ++ [.newline]
            else []) :=
  ⟨by decide, by decide, by decide, by decide, by decide,
    (text_dump_output wCfgText { wSt with inp := wTEXT.encode } wTEXT (be32 wTEXT.trailer)
      (by decide) (by decide) (by decide) (by decide)).1⟩

/-! ## The sizes of the read requests -/

theorem requests_zero (fuel : Nat) : requests fuel 0 = [] := by
  cases fuel <;> simp [requests]

theorem toreadOf_of_lt (n : Nat) (h : n < 2147483648) :
    toreadOf (n : Int) = ((min n BS : Nat) : Int) := by
  unfold toreadOf
  rw [toInt32_of_lt n h]
  unfold BS
  by_cases hb : n > 32000
  · rw [if_pos (by omega)]; omega
  · rw [if_neg (by omega)]; omega

theorem mem_dropLast_cons (a x : Int) (l : List Int) (h : x ∈ (a :: l).dropLast) :
    x = a ∨ x ∈ l.dropLast := by
  cases l with
  | nil => simp at h
  | cons b t =>
    rw [List.dropLast_cons₂] at h
    exact List.mem_cons.mp h

/-- For a declared length below `2^31` the payload loop asks for blocks of at
least one and at most `BS` bytes, all but the last of them of `BS` bytes, that
add up to the length. -/
theorem requests_small (fuel n : Nat) (hn : n < 2147483648) (hf : n ≤ fuel) :
    (∀ x ∈ requests fuel (n : Int), 1 ≤ x ∧ x ≤ (BS : Int))
    ∧ (requests fuel (n : Int)).sum = (n : Int)
    ∧ (∀ x ∈ (requests fuel (n : Int)).dropLast, x = (BS : Int)) := by
  induction fuel generalizing n with
  | zero =>
    have : n = 0 := by omega
    subst this
    exact ⟨by simp [requests], by simp [requests], by simp [requests]⟩
  | succ fuel ih =>
    by_cases h0 : n = 0
    · subst h0
      exact ⟨by simp [requests], by simp [requests], by simp [requests]⟩
    · have hpos : ((n : Nat) : Int) > 0 := by omega
      rw [requests, if_pos hpos, toreadOf_of_lt n hn]
      have hsub : ((n : Nat) : Int) - ((min n BS : Nat) : Int) = ((n - min n BS : Nat) : Int) := by
        omega
      rw [hsub]
      have hmin : 1 ≤ min n BS ∧ min n BS ≤ BS := by
        unfold BS; omega
      obtain ⟨h1, h2, h3⟩ := ih (n - min n BS) (by omega) (by unfold BS; omega)
      refine ⟨?_, ?_, ?_⟩
      · intro x hx
        rcases List.mem_cons.mp hx with hx | hx
        · subst hx; omega
        · exact h1 x hx
      · rw [List.sum_cons, h2]; omega
      · intro x hx
        by_cases hb : n ≤ BS
        · have hz : n - min n BS = 0 := by omega
          rw [hz] at hx
          simp only [Nat.cast_zero] at hx
          rw [requests_zero] at hx
          simp at hx
        · rcases mem_dropLast_cons _ _ _ hx with hx | hx
          · subst hx
            have : min n BS = BS := by omega
            rw [this]
          · exact h3 x hx

end PngCheck
